import Mathlib

/-!
Verification development for the trie-synchronisation scheduler and the
Arbitrum state-recreation helpers of this repository.

The scheduler (`NewSync` / `Missing` / `ProcessNode` / `Commit`) is exercised
by the test file under `src/unnamed/part_000`; the scheduler implementation
itself is not part of the provided sources, so it is modelled here from the
specification (sections 3, 4.2, 4.3, 4.4 of the spec).  The state-recreation
helpers (`FindLastAvailableState`, `AdvanceStateUpToBlock`,
`ClipToPostNitroGenesis`) are embedded directly from
`src/arbitrum/export.go` and `src/unnamed/part_001`.

Modelling conventions:
* Trie nodes are represented in decoded form (`TNode`): the spec treats the
  node decoder as a pure collaborator returning child references and blob
  references, so raw bytes are identified with their decoded structure.
* The content hash is idealised as a perfect (injective) digest, so a trie
  node stands for its own hash; the canonical empty-trie root is a separate
  constructor of `THash`.  Auxiliary blobs live in a separate namespace and
  are identified by a `Nat` content hash.
* Machine integers of the Go code (`int64`, `uint64`) are modelled as
  `Int`/`Nat` with explicit wrap-around where the Go code can overflow.
-/

set_option linter.unusedVariables false

/-- Decoded form of a trie node, as consumed by the scheduler through the
node-decoder collaborator of spec section 6: a list of child references
(path suffix paired with the child's content hash, here the child node
itself), an optional leaf value, and the list of auxiliary blob (code)
hashes referenced from this node. -/
inductive TNode where
  | mk : List (List Nat × TNode) → Option (List Nat) → List Nat → TNode

/-- Child references of a node. -/
def TNode.kids : TNode → List (List Nat × TNode)
  | .mk k _ _ => k

/-- Leaf value carried by a node, if any. -/
def TNode.val : TNode → Option (List Nat)
  | .mk _ v _ => v

/-- Auxiliary blob hashes referenced by a node. -/
def TNode.blobs : TNode → List Nat
  | .mk _ _ b => b

/-- Number of positions of a trie (counting shared subtrees once per
position), used as a termination and work bound. -/
def sizeTN : TNode → Nat
  | .mk kids _ _ => 1 + sizeKids kids
where sizeKids : List (List Nat × TNode) → Nat
  | [] => 0
  | k :: ks => sizeTN k.2 + sizeKids ks

/-- Structural boolean equality of trie nodes; with the idealised perfect
hash this is equality of content hashes. -/
def beqT : TNode → TNode → Bool
  | .mk k1 v1 b1, .mk k2 v2 b2 => v1 == v2 && b1 == b2 && beqKids k1 k2
where beqKids : List (List Nat × TNode) → List (List Nat × TNode) → Bool
  | [], [] => true
  | a :: as, c :: cs => a.1 == c.1 && beqT a.2 c.2 && beqKids as cs
  | _, _ => false

theorem size_kid_le (ks : List (List Nat × TNode)) (k : List Nat × TNode) (h : k ∈ ks) :
    sizeTN k.2 ≤ sizeTN.sizeKids ks := by
  induction ks with
  | nil => cases h
  | cons a as ih =>
    rcases List.mem_cons.mp h with h | h
    · subst h; simp only [sizeTN.sizeKids]; omega
    · have := ih h
      simp only [sizeTN.sizeKids]
      omega

theorem beqKids_sound (n : Nat)
    (ih : ∀ a b : TNode, sizeTN a ≤ n → beqT a b = true → a = b) :
    ∀ k1 k2 : List (List Nat × TNode), sizeTN.sizeKids k1 ≤ n →
      beqT.beqKids k1 k2 = true → k1 = k2 := by
  intro k1
  induction k1 with
  | nil =>
    intro k2 hsz hk
    cases k2 with
    | nil => rfl
    | cons c cs => simp [beqT.beqKids] at hk
  | cons a as ihk =>
    intro k2 hsz hk
    cases k2 with
    | nil => simp [beqT.beqKids] at hk
    | cons c cs =>
      simp only [beqT.beqKids, Bool.and_eq_true, beq_iff_eq] at hk
      obtain ⟨⟨h1, h2⟩, h3⟩ := hk
      simp only [sizeTN.sizeKids] at hsz
      have heq : a.2 = c.2 := ih a.2 c.2 (by omega) h2
      have htail : as = cs := ihk cs (by omega) h3
      calc a :: as = (a.1, a.2) :: as := by simp
        _ = (c.1, c.2) :: cs := by rw [h1, heq, htail]
        _ = c :: cs := by simp

theorem beqT_sound : ∀ n : Nat, ∀ a b : TNode, sizeTN a ≤ n → beqT a b = true → a = b := by
  intro n
  induction n with
  | zero =>
    intro a b h
    cases a with
    | mk k v bl => simp [sizeTN] at h
  | succ n ih =>
    intro a b h hbeq
    cases a with
    | mk k1 v1 b1 =>
      cases b with
      | mk k2 v2 b2 =>
        simp only [beqT, Bool.and_eq_true, beq_iff_eq] at hbeq
        obtain ⟨⟨hv, hb⟩, hk⟩ := hbeq
        subst hv hb
        simp only [TNode.mk.injEq, and_true]
        simp only [sizeTN] at h
        exact beqKids_sound n ih k1 k2 (by omega) hk

theorem beqKids_refl (n : Nat)
    (ih : ∀ a : TNode, sizeTN a ≤ n → beqT a a = true) :
    ∀ k1 : List (List Nat × TNode), sizeTN.sizeKids k1 ≤ n →
      beqT.beqKids k1 k1 = true := by
  intro k1
  induction k1 with
  | nil => intro _; simp [beqT.beqKids]
  | cons a as ihk =>
    intro hsz
    simp only [sizeTN.sizeKids] at hsz
    simp only [beqT.beqKids, Bool.and_eq_true, beq_iff_eq]
    exact ⟨⟨trivial, ih a.2 (by omega)⟩, ihk (by omega)⟩

theorem beqT_refl : ∀ n : Nat, ∀ a : TNode, sizeTN a ≤ n → beqT a a = true := by
  intro n
  induction n with
  | zero =>
    intro a h
    cases a with
    | mk k v bl => simp [sizeTN] at h
  | succ n ih =>
    intro a h
    cases a with
    | mk k1 v1 b1 =>
      simp only [beqT, Bool.and_eq_true, beq_iff_eq]
      simp only [sizeTN] at h
      exact ⟨⟨trivial, trivial⟩, beqKids_refl n ih k1 (by omega)⟩

instance : DecidableEq TNode := fun a b =>
  decidable_of_iff (beqT a b = true)
    ⟨beqT_sound (sizeTN a) a b le_rfl, fun h => h ▸ beqT_refl (sizeTN a) a le_rfl⟩

/-- Content hashes of the children of a node, as revealed by the decoder. -/
def kidsHashes (t : TNode) : List TNode := t.kids.map (·.2)

/-- All nodes reachable from `t` (listed per position, so shared subtrees
appear once per occurrence). -/
def subtreesL : TNode → List TNode
  | .mk kids v b => .mk kids v b :: subKids kids
where subKids : List (List Nat × TNode) → List TNode
  | [] => []
  | k :: ks => subtreesL k.2 ++ subKids ks

theorem self_mem_subtreesL (t : TNode) : t ∈ subtreesL t := by
  cases t with
  | mk k v b => simp [subtreesL]

theorem subtrees_length_eq : ∀ n : Nat, ∀ t : TNode, sizeTN t ≤ n →
    (subtreesL t).length = sizeTN t := by
  intro n
  induction n with
  | zero =>
    intro t h
    cases t with
    | mk k v b => simp [sizeTN] at h
  | succ n ih =>
    intro t h
    cases t with
    | mk k v b =>
      simp only [subtreesL, sizeTN, List.length_cons] at h ⊢
      have : ∀ ks : List (List Nat × TNode), sizeTN.sizeKids ks ≤ n →
          (subtreesL.subKids ks).length = sizeTN.sizeKids ks := by
        intro ks
        induction ks with
        | nil => intro _; simp [subtreesL.subKids, sizeTN.sizeKids]
        | cons a as ihk =>
          intro hsz
          simp only [sizeTN.sizeKids] at hsz
          simp only [subtreesL.subKids, List.length_append, sizeTN.sizeKids]
          rw [ih a.2 (by omega), ihk (by omega)]
      rw [this k (by omega)]
      omega

theorem mem_subKids_of_kid (ks : List (List Nat × TNode)) (k : List Nat × TNode)
    (hk : k ∈ ks) (x : TNode) (hx : x ∈ subtreesL k.2) : x ∈ subtreesL.subKids ks := by
  induction ks with
  | nil => cases hk
  | cons a as ih =>
    simp only [subtreesL.subKids, List.mem_append]
    rcases List.mem_cons.mp hk with h | h
    · subst h; exact Or.inl hx
    · exact Or.inr (ih h)

theorem kid_subtrees_sub (t : TNode) (k : List Nat × TNode) (hk : k ∈ t.kids)
    (x : TNode) (hx : x ∈ subtreesL k.2) : x ∈ subtreesL t := by
  cases t with
  | mk ks v b =>
    simp only [TNode.kids] at hk
    simp only [subtreesL]
    exact List.mem_cons_of_mem _ (mem_subKids_of_kid ks k hk x hx)

theorem kid_mem_subtrees (t : TNode) (c : TNode) (hc : c ∈ kidsHashes t) :
    c ∈ subtreesL t := by
  simp only [kidsHashes, List.mem_map] at hc
  obtain ⟨k, hk, hkc⟩ := hc
  exact kid_subtrees_sub t k hk c (hkc ▸ self_mem_subtreesL k.2)

theorem subtrees_trans : ∀ n : Nat, ∀ t u x : TNode, sizeTN t ≤ n →
    u ∈ subtreesL t → x ∈ subtreesL u → x ∈ subtreesL t := by
  intro n
  induction n with
  | zero =>
    intro t u x h
    cases t with
    | mk k v b => simp [sizeTN] at h
  | succ n ih =>
    intro t u x h hu hx
    cases t with
    | mk ks v b =>
      simp only [subtreesL] at hu
      rcases List.mem_cons.mp hu with h1 | h1
      · exact h1 ▸ hx
      · have : ∀ kl : List (List Nat × TNode), sizeTN.sizeKids kl ≤ n →
            u ∈ subtreesL.subKids kl → x ∈ subtreesL.subKids kl := by
          intro kl
          induction kl with
          | nil => intro _ hc; cases hc
          | cons a as ihk =>
            intro hsz hc
            simp only [subtreesL.subKids, List.mem_append] at hc ⊢
            simp only [sizeTN.sizeKids] at hsz
            rcases hc with hc | hc
            · exact Or.inl (ih a.2 u x (by omega) hc hx)
            · exact Or.inr (ihk (by omega) hc)
        simp only [subtreesL, sizeTN] at h ⊢
        exact List.mem_cons_of_mem _ (this ks (by omega) h1)

/-- Boolean prefix test on nibble sequences. -/
def isPre : List Nat → List Nat → Bool
  | [], _ => true
  | _ :: _, [] => false
  | a :: as, b :: bs => a == b && isPre as bs

theorem isPre_refl (s : List Nat) : isPre s s = true := by
  induction s with
  | nil => rfl
  | cons a as ih => simp [isPre, ih]

theorem isPre_length (s l : List Nat) (h : isPre s l = true) : s.length ≤ l.length := by
  induction s generalizing l with
  | nil => simp
  | cons a as ih =>
    cases l with
    | nil => simp [isPre] at h
    | cons b bs =>
      simp only [isPre, Bool.and_eq_true, beq_iff_eq] at h
      have := ih bs h.2
      simp only [List.length_cons]
      omega

theorem isPre_append (s l b : List Nat) (h : isPre s l = true) :
    isPre s (l ++ b) = true := by
  induction s generalizing l with
  | nil => rfl
  | cons a as ih =>
    cases l with
    | nil => simp [isPre] at h
    | cons c cs =>
      simp only [isPre, Bool.and_eq_true, beq_iff_eq] at h ⊢
      exact ⟨h.1, ih cs h.2⟩

theorem isPre_head (s l : List Nat) (hs : s ≠ []) (h : isPre s l = true) :
    s.headD 16 = l.headD 16 := by
  cases s with
  | nil => exact absurd rfl hs
  | cons a as =>
    cases l with
    | nil => simp [isPre] at h
    | cons b bs =>
      simp only [isPre, Bool.and_eq_true, beq_iff_eq] at h
      simp [h.1]

/-- Wellformedness of a source trie: at every node the child suffixes are
nonempty and have pairwise distinct first nibbles (as in a Merkle-Patricia
trie, where branch children are distinguished by their first nibble). -/
def wfT : TNode → Bool
  | .mk kids v b =>
    decide ((kids.map (fun k => k.1.headD 16)).Nodup) &&
    kids.all (fun k => !k.1.isEmpty) && wfKids kids
where wfKids : List (List Nat × TNode) → Bool
  | [] => true
  | k :: ks => wfT k.2 && wfKids ks

theorem wfKids_mem (ks : List (List Nat × TNode)) (hw : wfT.wfKids ks = true)
    (k : List Nat × TNode) (hk : k ∈ ks) : wfT k.2 = true := by
  induction ks with
  | nil => cases hk
  | cons a as ih =>
    simp only [wfT.wfKids, Bool.and_eq_true] at hw
    rcases List.mem_cons.mp hk with h | h
    · exact h ▸ hw.1
    · exact ih hw.2 h

theorem wf_kid (t : TNode) (hw : wfT t = true) (k : List Nat × TNode)
    (hk : k ∈ t.kids) : wfT k.2 = true := by
  cases t with
  | mk ks v b =>
    simp only [wfT, Bool.and_eq_true] at hw
    exact wfKids_mem ks hw.2 k hk

theorem wf_suffix_ne (t : TNode) (hw : wfT t = true) (k : List Nat × TNode)
    (hk : k ∈ t.kids) : k.1 ≠ [] := by
  cases t with
  | mk ks v b =>
    simp only [wfT, Bool.and_eq_true, List.all_eq_true] at hw
    have := hw.1.2 k hk
    intro hc
    rw [hc] at this
    simp [List.isEmpty] at this

theorem wf_heads_nodup (t : TNode) (hw : wfT t = true) :
    (t.kids.map (fun k => k.1.headD 16)).Nodup := by
  cases t with
  | mk ks v b =>
    simp only [wfT, Bool.and_eq_true, decide_eq_true_eq] at hw
    exact hw.1.1

theorem wf_subtrees : ∀ n : Nat, ∀ t x : TNode, sizeTN t ≤ n → wfT t = true →
    x ∈ subtreesL t → wfT x = true := by
  intro n
  induction n with
  | zero =>
    intro t x h
    cases t with
    | mk k v b => simp [sizeTN] at h
  | succ n ih =>
    intro t x h hw hx
    cases t with
    | mk ks v b =>
      simp only [subtreesL] at hx
      rcases List.mem_cons.mp hx with h1 | h1
      · exact h1 ▸ hw
      · simp only [sizeTN] at h
        have hks : wfT.wfKids ks = true := by
          simp only [wfT, Bool.and_eq_true] at hw
          exact hw.2
        clear hx hw
        induction ks with
        | nil => cases h1
        | cons a as ihk =>
          simp only [subtreesL.subKids, List.mem_append] at h1
          simp only [wfT.wfKids, Bool.and_eq_true] at hks
          simp only [sizeTN.sizeKids] at h
          rcases h1 with h1 | h1
          · exact ih a.2 x (by omega) hks.1 h1
          · exact ihk (by omega) h1 hks.2

/-- First child reference whose suffix is a prefix of the remaining nibbles. -/
def findKid (kids : List (List Nat × TNode)) (nibs : List Nat) : Option (List Nat × TNode) :=
  kids.find? (fun k => isPre k.1 nibs)

/-- Fuelled descent from a node along a nibble path (the fuel dominates the
number of remaining nibbles; each step consumes at least one nibble). -/
def nodeAtF : Nat → TNode → List Nat → Option TNode
  | 0, t, nibs => if nibs = [] then some t else none
  | f + 1, t, nibs =>
    if nibs = [] then some t
    else
      match findKid t.kids nibs with
      | none => none
      | some k => if k.1 = [] then none else nodeAtF f k.2 (nibs.drop k.1.length)

/-- Node of the trie `t` sitting at nibble position `nibs`, if any. -/
def nodeAt (t : TNode) (nibs : List Nat) : Option TNode := nodeAtF nibs.length t nibs

theorem nodeAtF_nil (f : Nat) (t : TNode) : nodeAtF f t [] = some t := by
  cases f <;> simp [nodeAtF]

theorem nodeAtF_cons_some (f : Nat) (t : TNode) (x : Nat) (xs : List Nat)
    (k : List Nat × TNode) (hfk : findKid t.kids (x :: xs) = some k) :
    nodeAtF (f + 1) t (x :: xs) =
      if k.1 = [] then none else nodeAtF f k.2 ((x :: xs).drop k.1.length) := by
  simp [nodeAtF, hfk]

theorem nodeAtF_cons_none (f : Nat) (t : TNode) (x : Nat) (xs : List Nat)
    (hfk : findKid t.kids (x :: xs) = none) :
    nodeAtF (f + 1) t (x :: xs) = none := by
  simp [nodeAtF, hfk]

theorem nodeAtF_fuel : ∀ f1 : Nat, ∀ f2 : Nat, ∀ t : TNode, ∀ nibs : List Nat,
    nibs.length ≤ f1 → nibs.length ≤ f2 → nodeAtF f1 t nibs = nodeAtF f2 t nibs := by
  intro f1
  induction f1 with
  | zero =>
    intro f2 t nibs h1 h2
    have : nibs = [] := List.length_eq_zero.mp (by omega)
    subst this
    simp [nodeAtF_nil]
  | succ f ih =>
    intro f2 t nibs h1 h2
    cases nibs with
    | nil => simp [nodeAtF_nil]
    | cons x xs =>
      cases f2 with
      | zero => simp at h2
      | succ f2 =>
        cases hfk : findKid t.kids (x :: xs) with
        | none => rw [nodeAtF_cons_none f t x xs hfk, nodeAtF_cons_none f2 t x xs hfk]
        | some k =>
          rw [nodeAtF_cons_some f t x xs k hfk, nodeAtF_cons_some f2 t x xs k hfk]
          by_cases hk1 : k.1 = []
          · simp [hk1]
          · simp only [if_neg hk1]
            have hlen : 1 ≤ k.1.length := by
              cases hke : k.1 with
              | nil => exact absurd hke hk1
              | cons a as => simp
            refine ih f2 k.2 _ ?_ ?_ <;>
              · simp only [List.length_drop, List.length_cons] at *
                omega

theorem nodeAt_nil (t : TNode) : nodeAt t [] = some t := by simp [nodeAt, nodeAtF_nil]

theorem findKid_of_mem (kids : List (List Nat × TNode))
    (hnd : (kids.map (fun k => k.1.headD 16)).Nodup)
    (hne : ∀ k ∈ kids, k.1 ≠ [])
    (k : List Nat × TNode) (hk : k ∈ kids) (l : List Nat)
    (hpre : isPre k.1 l = true) : findKid kids l = some k := by
  induction kids with
  | nil => cases hk
  | cons a as ih =>
    rcases List.mem_cons.mp hk with h | h
    · subst h
      exact List.find?_cons_of_pos _ hpre
    · have hne_a : a.1 ≠ [] := hne a (by simp)
      have hne_k : k.1 ≠ [] := hne k hk
      have hnot : ¬ isPre a.1 l = true := by
        intro hc
        have h1 := isPre_head a.1 l hne_a hc
        have h2 := isPre_head k.1 l hne_k hpre
        simp only [List.map_cons, List.nodup_cons, List.mem_map] at hnd
        exact hnd.1 ⟨k, h, by rw [h2, ← h1]⟩
      rw [findKid, List.find?_cons_of_neg _ (by simpa using hnot)]
      refine ih ?_ ?_ h
      · simp only [List.map_cons, List.nodup_cons] at hnd
        exact hnd.2
      · intro j hj; exact hne j (List.mem_cons_of_mem _ hj)

theorem nodeAt_kid (t : TNode) (hw : wfT t = true) (s : List Nat) (c : TNode)
    (hk : (s, c) ∈ t.kids) : nodeAt t s = some c := by
  have hne : s ≠ [] := wf_suffix_ne t hw (s, c) hk
  have hfind : findKid t.kids s = some (s, c) :=
    findKid_of_mem t.kids (wf_heads_nodup t hw)
      (fun j hjm => wf_suffix_ne t hw j hjm) (s, c) hk s (isPre_refl s)
  cases hs : s with
  | nil => exact absurd hs hne
  | cons x xs =>
    subst hs
    rw [nodeAt, List.length_cons, nodeAtF_cons_some xs.length t x xs (x :: xs, c) hfind]
    simp only [if_neg hne]
    rw [show List.drop (x :: xs).length (x :: xs) = [] from by simp, nodeAtF_nil]

theorem nodeAt_mem_subtrees : ∀ n : Nat, ∀ t : TNode, ∀ a : List Nat, ∀ d : TNode,
    a.length ≤ n → nodeAt t a = some d → d ∈ subtreesL t := by
  intro n
  induction n with
  | zero =>
    intro t a d h hd
    have : a = [] := List.length_eq_zero.mp (by omega)
    subst this
    rw [nodeAt_nil] at hd
    cases hd
    exact self_mem_subtreesL t
  | succ f ih =>
    intro t a d h hd
    cases a with
    | nil =>
      rw [nodeAt_nil] at hd
      cases hd
      exact self_mem_subtreesL t
    | cons x xs =>
      rw [nodeAt, List.length_cons] at hd
      cases hfk : findKid t.kids (x :: xs) with
      | none => rw [nodeAtF_cons_none xs.length t x xs hfk] at hd; cases hd
      | some k =>
        rw [nodeAtF_cons_some xs.length t x xs k hfk] at hd
        by_cases hk1 : k.1 = []
        · rw [if_pos hk1] at hd; cases hd
        · rw [if_neg hk1] at hd
          have hmem : k ∈ t.kids := List.mem_of_find?_eq_some hfk
          have hlen : 1 ≤ k.1.length := by
            cases hke : k.1 with
            | nil => exact absurd hke hk1
            | cons a as => simp
          have hfu : ((x :: xs).drop k.1.length).length ≤ f := by
            simp only [List.length_drop, List.length_cons] at *
            omega
          have hat : nodeAt k.2 ((x :: xs).drop k.1.length) = some d := by
            rw [nodeAt, nodeAtF_fuel _ xs.length k.2 _ le_rfl (by
              simp only [List.length_drop, List.length_cons] at *
              omega)]
            exact hd
          exact kid_subtrees_sub t k hmem d (ih k.2 _ d hfu hat)

theorem nodeAt_append : ∀ n : Nat, ∀ t d : TNode, ∀ a b : List Nat,
    a.length ≤ n → wfT t = true → nodeAt t a = some d →
    nodeAt t (a ++ b) = nodeAt d b := by
  intro n
  induction n with
  | zero =>
    intro t d a b h hw hd
    have : a = [] := List.length_eq_zero.mp (by omega)
    subst this
    rw [nodeAt_nil] at hd
    cases hd
    simp
  | succ f ih =>
    intro t d a b h hw hd
    cases a with
    | nil =>
      rw [nodeAt_nil] at hd
      cases hd
      simp
    | cons x xs =>
      rw [nodeAt, List.length_cons] at hd
      cases hfk : findKid t.kids (x :: xs) with
      | none => rw [nodeAtF_cons_none xs.length t x xs hfk] at hd; cases hd
      | some k =>
        rw [nodeAtF_cons_some xs.length t x xs k hfk] at hd
        by_cases hk1 : k.1 = []
        · rw [if_pos hk1] at hd; cases hd
        · rw [if_neg hk1] at hd
          have hmem : k ∈ t.kids := List.mem_of_find?_eq_some hfk
          have hpre : isPre k.1 (x :: xs) = true := by
            have := List.find?_some hfk
            simpa using this
          have hlen1 : 1 ≤ k.1.length := by
            cases hke : k.1 with
            | nil => exact absurd hke hk1
            | cons a as => simp
          have hlenle : k.1.length ≤ (x :: xs).length := isPre_length _ _ hpre
          have hfind2 : findKid t.kids (x :: xs ++ b) = some k :=
            findKid_of_mem t.kids (wf_heads_nodup t hw)
              (fun j hj => wf_suffix_ne t hw j hj) k hmem _
              (isPre_append _ _ b hpre)
          have hdrop : (x :: xs ++ b).drop k.1.length =
              (x :: xs).drop k.1.length ++ b := List.drop_append_of_le_length hlenle
          have hrec : nodeAt k.2 ((x :: xs).drop k.1.length) = some d := by
            rw [nodeAt]
            rw [nodeAtF_fuel _ xs.length k.2 _ le_rfl
              (by simp only [List.length_drop, List.length_cons] at *; omega)]
            exact hd
          have hwk : wfT k.2 = true := wf_kid t hw k hmem
          have hih := ih k.2 d ((x :: xs).drop k.1.length) b
            (by simp only [List.length_drop, List.length_cons] at *; omega) hwk hrec
          rw [nodeAt]
          simp only [List.cons_append, List.length_cons, List.length_append]
          rw [nodeAtF_cons_some (xs.length + b.length) t x (xs ++ b) k
            (by simpa using hfind2)]
          simp only [if_neg hk1]
          have : (x :: (xs ++ b)).drop k.1.length = (x :: xs).drop k.1.length ++ b := by
            simpa using hdrop
          rw [this]
          rw [nodeAtF_fuel (xs.length + b.length) ((x :: xs).drop k.1.length ++ b).length k.2 _
            (by simp only [List.length_append, List.length_drop, List.length_cons] at *; omega)
            le_rfl]
          rw [← nodeAt, hih]

theorem nodeAt_extend (t : TNode) (hw : wfT t = true) (p s : List Nat) (d c : TNode)
    (hd : nodeAt t p = some d) (hk : (s, c) ∈ d.kids) :
    nodeAt t (p ++ s) = some c := by
  have hwd : wfT d = true :=
    wf_subtrees (sizeTN t) t d le_rfl hw (nodeAt_mem_subtrees p.length t p d le_rfl hd)
  rw [nodeAt_append p.length t d p s le_rfl hw hd]
  exact nodeAt_kid d hwd s c hk

/-- Fuelled key lookup directly on a source trie: walk child suffixes
matching the remaining key, answering the leaf value at the end. -/
def getValF : Nat → TNode → List Nat → Option (List Nat)
  | 0, _, _ => none
  | f + 1, t, key =>
    if key = [] then t.val
    else
      match findKid t.kids key with
      | none => none
      | some k => if k.1 = [] then none else getValF f k.2 (key.drop k.1.length)

/-- Fuelled key lookup through a content-addressed destination store: the
same walk, but every visited node must be resolvable from the store. -/
def getValStoreF : Nat → List TNode → TNode → List Nat → Option (List Nat)
  | 0, _, _, _ => none
  | f + 1, store, t, key =>
    if t ∈ store then
      (if key = [] then t.val
       else
         match findKid t.kids key with
         | none => none
         | some k => if k.1 = [] then none else getValStoreF f store k.2 (key.drop k.1.length))
    else none

/-- Readback through a store holding every reachable node of `t` agrees with
direct readback from the source trie, at every fuel and key. -/
theorem getValStore_eq : ∀ f : Nat, ∀ store : List TNode, ∀ t : TNode, ∀ key : List Nat,
    (∀ x ∈ subtreesL t, x ∈ store) →
    getValStoreF f store t key = getValF f t key := by
  intro f
  induction f with
  | zero => intro store t key h; rfl
  | succ f ih =>
    intro store t key h
    have ht : t ∈ store := h t (self_mem_subtreesL t)
    simp only [getValStoreF, getValF, if_pos ht]
    by_cases hk : key = []
    · simp [hk]
    · simp only [if_neg hk]
      cases hfk : findKid t.kids key with
      | none => rfl
      | some k =>
        by_cases hk1 : k.1 = []
        · simp [hk1]
        · simp only [if_neg hk1]
          have hmem : k ∈ t.kids := List.mem_of_find?_eq_some hfk
          refine ih store k.2 _ ?_
          intro x hx
          exact h x (kid_subtrees_sub t k hmem x hx)

/-- Path of a trie node per spec section 3: an outer (account-level) nibble
sequence plus an inner nibble sequence, the latter nonempty only for nodes
of an owned sub-trie. -/
structure SPath where
  outer : List Nat
  inner : List Nat
deriving DecidableEq

/-- Path of the root request seeded at scheduler construction. -/
def rootSPath : SPath := ⟨[], []⟩

/-- Strict lexicographic comparison of nibble sequences; a proper prefix
sorts before its extensions. -/
def listLtb : List Nat → List Nat → Bool
  | [], [] => false
  | [], _ :: _ => true
  | _ :: _, [] => false
  | a :: as, b :: bs => if a < b then true else if b < a then false else listLtb as bs

/-- Strict path order of spec section 3: lexicographic by outer first, then
inner nibbles. -/
def pathLtb (p q : SPath) : Bool :=
  listLtb p.outer q.outer || (p.outer == q.outer && listLtb p.inner q.inner)

/-- Reflexive path order. -/
def pathLeb (p q : SPath) : Bool := pathLtb p q || p == q

theorem listLtb_irrefl (a : List Nat) : listLtb a a = false := by
  induction a with
  | nil => rfl
  | cons x xs ih => simp [listLtb, ih]

theorem listLtb_trans (a b c : List Nat) (h1 : listLtb a b = true)
    (h2 : listLtb b c = true) : listLtb a c = true := by
  induction a generalizing b c with
  | nil =>
    cases c with
    | nil =>
      cases b with
      | nil => exact h2
      | cons y ys => simp [listLtb] at h2
    | cons z zs => rfl
  | cons x xs ih =>
    cases b with
    | nil => simp [listLtb] at h1
    | cons y ys =>
      cases c with
      | nil => simp [listLtb] at h2
      | cons z zs =>
        simp only [listLtb] at h1 h2 ⊢
        by_cases hxy : x < y
        · by_cases hyz : y < z
          · have : x < z := by omega
            simp [this]
          · by_cases hzy : z < y
            · simp [hyz, hzy] at h2
            · have hyz2 : y = z := by omega
              subst hyz2
              simp [hxy]
        · by_cases hyx : y < x
          · simp [hxy, hyx] at h1
          · have hxy2 : x = y := by omega
            subst hxy2
            simp only [if_neg hxy, if_neg hyx] at h1
            by_cases hyz : x < z
            · simp [hyz]
            · by_cases hzy : z < x
              · simp [hyz, hzy] at h2
              · have : x = z := by omega
                subst this
                simp only [if_neg hyz, if_neg hzy] at h2 ⊢
                exact ih ys zs h1 h2

theorem listLtb_total (a b : List Nat) (hne : a ≠ b) :
    listLtb a b = true ∨ listLtb b a = true := by
  induction a generalizing b with
  | nil =>
    cases b with
    | nil => exact absurd rfl hne
    | cons y ys => left; rfl
  | cons x xs ih =>
    cases b with
    | nil => right; rfl
    | cons y ys =>
      by_cases hxy : x < y
      · left; simp [listLtb, hxy]
      · by_cases hyx : y < x
        · right; simp [listLtb, hyx]
        · have : x = y := by omega
          subst this
          have hne2 : xs ≠ ys := by
            intro hc; exact hne (by rw [hc])
          rcases ih ys hne2 with h | h
          · left; simp [listLtb, h]
          · right; simp [listLtb, h]

theorem listLtb_append (l a : List Nat) (ha : a ≠ []) : listLtb l (l ++ a) = true := by
  induction l with
  | nil =>
    cases a with
    | nil => exact absurd rfl ha
    | cons x xs => rfl
  | cons x xs ih => simp [listLtb, ih]

theorem pathLtb_irrefl (p : SPath) : pathLtb p p = false := by
  simp [pathLtb, listLtb_irrefl]

theorem pathLtb_trans (p q r : SPath) (h1 : pathLtb p q = true)
    (h2 : pathLtb q r = true) : pathLtb p r = true := by
  simp only [pathLtb, Bool.or_eq_true, Bool.and_eq_true, beq_iff_eq] at h1 h2 ⊢
  rcases h1 with h1 | ⟨h1e, h1i⟩
  · rcases h2 with h2 | ⟨h2e, h2i⟩
    · exact Or.inl (listLtb_trans _ _ _ h1 h2)
    · exact Or.inl (h2e ▸ h1)
  · rcases h2 with h2 | ⟨h2e, h2i⟩
    · exact Or.inl (h1e ▸ h2)
    · exact Or.inr ⟨h1e.trans h2e, listLtb_trans _ _ _ h1i h2i⟩

theorem pathLtb_total (p q : SPath) (hne : p ≠ q) :
    pathLtb p q = true ∨ pathLtb q p = true := by
  simp only [pathLtb, Bool.or_eq_true, Bool.and_eq_true, beq_iff_eq]
  by_cases he : p.outer = q.outer
  · have hni : p.inner ≠ q.inner := by
      intro hc
      apply hne
      cases p; cases q
      simp_all
    rcases listLtb_total p.inner q.inner hni with h | h
    · exact Or.inl (Or.inr ⟨he, h⟩)
    · exact Or.inr (Or.inr ⟨he.symm, h⟩)
  · rcases listLtb_total p.outer q.outer he with h | h
    · exact Or.inl (Or.inl h)
    · exact Or.inr (Or.inl h)

theorem pathLtb_asymm (p q : SPath) (h : pathLtb p q = true) : pathLtb q p = false := by
  by_contra hc
  have hc2 : pathLtb q p = true := by
    cases hqp : pathLtb q p with
    | false => exact absurd hqp hc
    | true => rfl
  have := pathLtb_trans p q p h hc2
  rw [pathLtb_irrefl] at this
  cases this

/-- Combined path of a child discovered under path `p` through suffix `s`,
per the path-addressing rules of spec section 4.1. -/
def childSPath (p : SPath) (s : List Nat) : SPath :=
  if p.inner = [] then ⟨p.outer ++ s, []⟩ else ⟨p.outer, p.inner ++ s⟩

theorem pathLtb_child (p : SPath) (s : List Nat) (hs : s ≠ []) :
    pathLtb p (childSPath p s) = true := by
  by_cases hi : p.inner = []
  · simp [childSPath, hi, pathLtb, listLtb_append p.outer s hs]
  · simp [childSPath, hi, pathLtb, listLtb_irrefl, listLtb_append p.inner s hs]

/-- Ordered insertion into the pending-request queue, maintaining the strict
path order used for `Missing` emission. -/
def insSorted (p : SPath) : List SPath → List SPath
  | [] => [p]
  | q :: qs => if pathLtb p q then p :: q :: qs else q :: insSorted p qs

theorem insSorted_mem (p x : SPath) (l : List SPath) :
    x ∈ insSorted p l ↔ x = p ∨ x ∈ l := by
  induction l with
  | nil => simp [insSorted]
  | cons q qs ih =>
    simp only [insSorted]
    by_cases h : pathLtb p q = true
    · simp [if_pos h, List.mem_cons]
    · simp only [if_neg h, List.mem_cons, ih]
      tauto

theorem insSorted_sorted (p : SPath) (l : List SPath)
    (hs : l.Pairwise (fun a b => pathLtb a b = true))
    (hfresh : p ∉ l) :
    (insSorted p l).Pairwise (fun a b => pathLtb a b = true) := by
  induction l with
  | nil => simp [insSorted]
  | cons q qs ih =>
    simp only [insSorted]
    rcases List.pairwise_cons.mp hs with ⟨hq, hqs⟩
    by_cases h : pathLtb p q = true
    · simp only [if_pos h]
      refine List.pairwise_cons.mpr ⟨?_, hs⟩
      intro b hb
      rcases List.mem_cons.mp hb with hb | hb
      · exact hb ▸ h
      · exact pathLtb_trans p q b h (hq b hb)
    · simp only [if_neg h]
      have hne : p ≠ q := by
        intro hc
        exact hfresh (hc ▸ List.mem_cons_self q qs)
      have hqp : pathLtb q p = true := by
        rcases pathLtb_total p q hne with h1 | h1
        · exact absurd h1 h
        · exact h1
      refine List.pairwise_cons.mpr ⟨?_, ih hqs (fun hc => hfresh (List.mem_cons_of_mem _ hc))⟩
      intro b hb
      rcases (insSorted_mem p b qs).mp hb with hb | hb
      · exact hb ▸ hqp
      · exact hq b hb

/-- Modelled from the spec: the hash argument of scheduler construction.
The scheduler implementation is not among the provided sources; per spec
section 4.3 the target root is either the canonical empty-trie hash or the
content hash of a real node (hashes are idealised as injective, so a node
hash is the node itself). -/
inductive THash where
  | emptyRoot : THash
  | node : TNode → THash

instance : DecidableEq THash := fun a b =>
  match a, b with
  | .emptyRoot, .emptyRoot => isTrue rfl
  | .node x, .node y =>
    match decEq x y with
    | isTrue h => isTrue (by rw [h])
    | isFalse h => isFalse (by intro hc; cases hc; exact h rfl)
  | .emptyRoot, .node _ => isFalse (by intro hc; cases hc)
  | .node _, .emptyRoot => isFalse (by intro hc; cases hc)

/-- Modelled from the spec (section 6): the deterministic, collision-resistant
content hash function, idealised as the injective embedding of decoded node
content into the hash namespace. -/
def keccak (bytes : TNode) : THash := .node bytes

/-- Modelled from the spec (section 3, `NodeRequest`): one trie node to
fetch, keyed externally by its path.  The `pendingChildren` counter and the
parent links of the spec are represented semantically: per the spec's own
invariant, the counter is zero exactly when every child reference of the
verified `data` is already staged or durably stored, which is the
`eligibleB` predicate below; completion propagation to all parents is the
saturation loop `stageAll`. -/
structure NodeReq where
  hash : TNode
  data : Option TNode
deriving DecidableEq

/-- Modelled from the spec (sections 2, 4.2, 4.3): scheduler state — the
request arena keyed by path, the pending queue (kept in the path order its
requests are to be emitted in), the membatch staging area of
verified-and-completed nodes, plus the parallel auxiliary-blob (code)
tracking state, flattened to bare content hashes per section 4.4.
`created` is a ghost trace of every node-request content hash ever created,
used only in proofs. -/
structure Sched where
  nodeReqs : List (SPath × NodeReq)
  queue : List SPath
  membatch : List (SPath × TNode)
  codeReqs : List Nat
  codeQueue : List Nat
  codeMem : List Nat
  created : List TNode
deriving DecidableEq

/-- Lookup of the live request stored under a path. -/
def lookupReq : List (SPath × NodeReq) → SPath → Option NodeReq
  | [], _ => none
  | (q, r) :: rest, p => if q = p then some r else lookupReq rest p

/-- Removal of the request stored under a path. -/
def removeReq : List (SPath × NodeReq) → SPath → List (SPath × NodeReq)
  | [], _ => []
  | (q, r) :: rest, p => if q = p then rest else (q, r) :: removeReq rest p

/-- Record the verified bytes of the request stored under a path. -/
def setData : List (SPath × NodeReq) → SPath → TNode → List (SPath × NodeReq)
  | [], _, _ => []
  | (q, r) :: rest, p, d =>
    if q = p then (q, { r with data := some d }) :: rest
    else (q, r) :: setData rest p d

/-- Content hashes currently staged in the membatch. -/
def memHashes (mb : List (SPath × TNode)) : List TNode := mb.map (·.2)

/-- Content hashes of the live requests (the dedup index of spec 4.2). -/
def reqHashes (rs : List (SPath × NodeReq)) : List TNode := rs.map (·.2.hash)

/-- Modelled from the spec (section 4.3 `NewSync`): a scheduler seeded with
the root request, unless the target root is the canonical empty-trie hash
or is already durable in the destination store (checked once at
construction through the store's existence predicate). -/
def NewSync (root : THash) (store : List TNode) : Sched :=
  match root with
  | .emptyRoot => ⟨[], [], [], [], [], [], []⟩
  | .node r =>
    if r ∈ store then ⟨[], [], [], [], [], [], []⟩
    else ⟨[(rootSPath, ⟨r, none⟩)], [rootSPath], [], [], [], [], [r]⟩

/-- Modelled from the spec (section 4.3 `Missing`): up to `max` pending
`(path, hash)` trie-node requests in path order plus up to `max` pending
auxiliary blob hashes; `max = 0` means unbounded.  Returned items are
marked in flight by removing them from the pending queues (their requests
stay live), so a later call does not return them again. -/
def Missing (max : Nat) (s : Sched) : (List (SPath × TNode) × List Nat) × Sched :=
  let n := if max = 0 then s.queue.length else max
  let pairs := (s.queue.take n).filterMap
    (fun p => (lookupReq s.nodeReqs p).map (fun r => (p, r.hash)))
  let nc := if max = 0 then s.codeQueue.length else max
  ((pairs, s.codeQueue.take nc),
   { s with queue := s.queue.drop n, codeQueue := s.codeQueue.drop nc })

/-- Modelled from the spec (sections 3, 4.2, 4.3): scheduling of one child
reference discovered while processing the request at `pp`.  A child already
durable in the destination store, already staged in the membatch, or
already tracked by the hash dedup index is never re-requested; otherwise a
new pending request is created at the combined child path and queued. -/
def scheduleChild (store : List TNode) (pp : SPath) (s : Sched)
    (suffix : List Nat) (c : TNode) : Sched :=
  if c ∈ store then s
  else if c ∈ memHashes s.membatch then s
  else if c ∈ reqHashes s.nodeReqs then s
  else
    let cp := childSPath pp suffix
    { s with nodeReqs := s.nodeReqs ++ [(cp, ⟨c, none⟩)],
             queue := insSorted cp s.queue,
             created := s.created ++ [c] }

/-- Modelled from the spec (section 4.4): scheduling of one auxiliary blob
reference, deduplicated purely by content hash. -/
def scheduleCode (bstore : List Nat) (s : Sched) (h : Nat) : Sched :=
  if h ∈ bstore then s
  else if h ∈ s.codeMem then s
  else if h ∈ s.codeReqs then s
  else { s with codeReqs := s.codeReqs ++ [h], codeQueue := s.codeQueue ++ [h] }

/-- Modelled from the spec (section 3 `NodeRequest` invariant): verified
bytes are complete exactly when every child they reference is already
staged or durably stored. -/
def eligibleB (store : List TNode) (mb : List (SPath × TNode)) (d : TNode) : Bool :=
  d.kids.all (fun k => decide (k.2 ∈ memHashes mb) || decide (k.2 ∈ store))

/-- First live request whose verified data has become complete. -/
def findEligible (store : List TNode) :
    List (SPath × NodeReq) → List (SPath × TNode) → Option (SPath × TNode)
  | [], _ => none
  | (p, r) :: rest, mb =>
    match r.data with
    | some d => if eligibleB store mb d then some (p, d) else findEligible store rest mb
    | none => findEligible store rest mb

/-- Modelled from the spec (sections 3, 4.3): completion propagation.  Any
request whose verified data has all children staged or stored is itself
staged into the membatch and removed from the live request arena; this is
iterated to a fixpoint (the fuel is the arena size, which strictly
decreases with each staging), which realises the spec's walk up the parent
links: a staged child can make its parents complete in turn. -/
def stageAll : Nat → List TNode → Sched → Sched
  | 0, _, s => s
  | f + 1, store, s =>
    match findEligible store s.nodeReqs s.membatch with
    | none => s
    | some (p, d) =>
      stageAll f store
        { s with nodeReqs := removeReq s.nodeReqs p, membatch := s.membatch ++ [(p, d)] }

/-- Modelled from the spec (sections 4.3, 7): failure modes of a single
`ProcessNode` or `ProcessCode` call. -/
inductive SyncError where
  | notRequested
  | alreadyProcessed
  | hashMismatch
deriving DecidableEq

/-- Modelled from the spec (section 4.3 `ProcessNode`): look up the
in-flight request for the path (failing with an invalid-state error when no
live unprocessed request exists), verify the content hash of the supplied
bytes against the request's expected hash (failing with a hash-mismatch
error otherwise, leaving the scheduler untouched), then decode the bytes,
schedule every not-yet-satisfied child and blob reference, record the data,
and propagate completion. -/
def ProcessNode (store : List TNode) (bstore : List Nat) (s : Sched)
    (p : SPath) (bytes : TNode) : Except SyncError Sched :=
  match lookupReq s.nodeReqs p with
  | none => .error .notRequested
  | some r =>
    if r.data ≠ none then .error .alreadyProcessed
    else if keccak bytes ≠ THash.node r.hash then .error .hashMismatch
    else
      let s1 := { s with nodeReqs := setData s.nodeReqs p bytes }
      let s2 := bytes.kids.foldl (fun acc k => scheduleChild store p acc k.1 k.2) s1
      let s3 := bytes.blobs.foldl (fun acc h => scheduleCode bstore acc h) s2
      .ok (stageAll (s3.nodeReqs.length) store s3)

/-- Modelled from the spec (section 4.4): delivery of one auxiliary blob;
a blob request completes immediately (blobs have no children) and never
affects trie-node completion accounting. -/
def ProcessCode (s : Sched) (h : Nat) : Except SyncError Sched :=
  if h ∈ s.codeReqs then
    .ok { s with codeReqs := s.codeReqs.erase h, codeMem := s.codeMem ++ [h] }
  else .error .notRequested

/-- Modelled from the spec (section 4.3 `Commit`): write every membatch
entry (all of which belong to completed requests) to the destination store
through the batch sink, then clear the membatch; likewise for staged
blobs.  The store is content-addressed, so writes deduplicate by hash. -/
def Commit (s : Sched) (store : List TNode) (bstore : List Nat) :
    Sched × List TNode × List Nat :=
  ({ s with membatch := [], codeMem := [] },
   s.membatch.foldl (fun st e => if e.2 ∈ st then st else st ++ [e.2]) store,
   s.codeMem.foldl (fun st h => if h ∈ st then st else st ++ [h]) bstore)

/-- One driving loop state, mirroring the caller loop of the tests: the
scheduler, the destination stores, the fetched-but-unprocessed elements
(`elements` for trie nodes, `codeElems` for blobs), plus ghost traces of
everything `Missing` ever returned and a ghost counter of processed
elements. -/
structure ExecState where
  sched : Sched
  store : List TNode
  bstore : List Nat
  elements : List (SPath × TNode)
  codeElems : List Nat
  retPairs : List (SPath × TNode)
  retCodes : List Nat
  processed : Nat
deriving DecidableEq

/-- Initial driver state: construct the scheduler against `root` over a
destination store and issue the first `Missing` call, as every test does. -/
def initExec (root : THash) (store : List TNode) (bstore : List Nat) : ExecState :=
  let m := Missing 0 (NewSync root store)
  { sched := m.2, store := store, bstore := bstore,
    elements := m.1.1, codeElems := m.1.2,
    retPairs := m.1.1, retCodes := m.1.2, processed := 0 }

/-- Elements chosen by the caller for this round: an arbitrary
oracle-selected sub-batch (in oracle order, so any permutation and any
batch size can be realised), defaulting to one element so that a round
with outstanding work always makes progress, as every test loop does. -/
def pickElems (sel : List SPath) (elems : List (SPath × TNode)) : List (SPath × TNode) :=
  let chosen := sel.dedup.filterMap (fun p => elems.find? (fun e => e.1 == p))
  if chosen = [] then elems.take 1 else chosen

/-- Feed a list of fetched results into `ProcessNode` sequentially. -/
def processList (store : List TNode) (bstore : List Nat) :
    List (SPath × TNode) → Sched → Except SyncError Sched
  | [], s => .ok s
  | e :: rest, s =>
    match ProcessNode store bstore s e.1 e.2 with
    | .error err => .error err
    | .ok s2 => processList store bstore rest s2

/-- Feed a list of fetched blobs into `ProcessCode` sequentially. -/
def processCodes : List Nat → Sched → Except SyncError Sched
  | [], s => .ok s
  | h :: rest, s =>
    match ProcessCode s h with
    | .error e => .error e
    | .ok s2 => processCodes rest s2

/-- One round of the driving loop of the tests: process an oracle-chosen
sub-batch of the outstanding elements (fetching each element's bytes from
the source by content hash, which under the idealised hash is the hash
itself), process all outstanding blobs, `Commit`, then ask `Missing` for
everything now pending. -/
def roundE (sel : List SPath) (st : ExecState) : Except SyncError ExecState :=
  let chosen := pickElems sel st.elements
  match processList st.store st.bstore chosen st.sched with
  | .error e => .error e
  | .ok s1 =>
    match processCodes st.codeElems s1 with
    | .error e => .error e
    | .ok s2 =>
      let c := Commit s2 st.store st.bstore
      let m := Missing 0 c.1
      .ok { sched := m.2, store := c.2.1, bstore := c.2.2,
            elements :=
              (st.elements.filter (fun e => decide (e.1 ∉ chosen.map Prod.fst))) ++ m.1.1,
            codeElems := m.1.2,
            retPairs := st.retPairs ++ m.1.1,
            retCodes := st.retCodes ++ m.1.2,
            processed := st.processed + chosen.length }

/-- A driver state with no outstanding work: the loop of every test stops
here. -/
def quiescent (st : ExecState) : Bool := st.elements.isEmpty && st.codeElems.isEmpty

/-- Up to `k` rounds of the driving loop under a caller-chosen schedule
oracle, stopping once no work is outstanding. -/
def runK (oracle : Nat → List SPath) : Nat → ExecState → Except SyncError ExecState
  | 0, st => .ok st
  | k + 1, st =>
    if quiescent st then .ok st
    else
      match roundE (oracle k) st with
      | .error e => .error e
      | .ok st2 => runK oracle k st2

/-- Invalid-state errors of spec section 7: a result delivered for something
never requested, or already completed/duplicated. -/
def SyncError.isInvalidState : SyncError → Bool
  | .notRequested => true
  | .alreadyProcessed => true
  | .hashMismatch => false

/-- Scheduler state as seen by the caller after a `ProcessNode` call: the
new state on success, the old state untouched on failure. -/
def schedAfter (store : List TNode) (bstore : List Nat) (s : Sched)
    (p : SPath) (bytes : TNode) : Sched :=
  match ProcessNode store bstore s p bytes with
  | .ok s2 => s2
  | .error _ => s

/-- C6: a scheduler constructed against the canonical empty-trie root hash
is immediately complete — `Missing` returns zero missing paths, zero
missing node hashes and zero missing auxiliary-blob hashes, and leaves the
scheduler unchanged, so every later call returns zero as well. -/
theorem c6_empty_trie_missing (store : List TNode) (n : Nat) :
    Missing n (NewSync .emptyRoot store) = (([], []), NewSync .emptyRoot store) := by
  simp [Missing, NewSync]

/-- C7: `ProcessNode` fails with an invalid-state error exactly when no
unprocessed in-flight request exists for the path (never requested, already
completed and removed, or a duplicate submission), fails with a
hash-mismatch error when the content hash of the supplied bytes differs
from the request's expected hash, and in every failure case the scheduler
state visible to the caller is unchanged. -/
theorem c7_processNode_errors (store : List TNode) (bstore : List Nat)
    (s : Sched) (p : SPath) (bytes : TNode) :
    (lookupReq s.nodeReqs p = none →
      ProcessNode store bstore s p bytes = .error .notRequested) ∧
    (∀ r, lookupReq s.nodeReqs p = some r → r.data ≠ none →
      ProcessNode store bstore s p bytes = .error .alreadyProcessed) ∧
    (∀ e, ProcessNode store bstore s p bytes = .error e → e ≠ .hashMismatch →
      e.isInvalidState = true) ∧
    (∀ r, lookupReq s.nodeReqs p = some r → r.data = none →
      keccak bytes ≠ THash.node r.hash →
      ProcessNode store bstore s p bytes = .error .hashMismatch) ∧
    (∀ e, ProcessNode store bstore s p bytes = .error e →
      schedAfter store bstore s p bytes = s) := by
  refine ⟨?_, ?_, ?_, ?_, ?_⟩
  · intro h
    simp [ProcessNode, h]
  · intro r hr hd
    simp [ProcessNode, hr, hd]
  · intro e he hne
    cases e with
    | notRequested => rfl
    | alreadyProcessed => rfl
    | hashMismatch => exact absurd rfl hne
  · intro r hr hd hh
    rw [ProcessNode, hr]
    simp [hd, hh]
  · intro e he
    rw [schedAfter, he]

/-- Signed 64-bit reinterpretation of an unsigned 64-bit value, as performed
by the Go casts `rpc.BlockNumber(uint64value)` in
`ClipToPostNitroGenesis`. -/
def toInt64 (n : Nat) : Int := ((n : Int) + 2 ^ 63) % 2 ^ 64 - 2 ^ 63

theorem toInt64_small (n : Nat) (h : n < 2 ^ 63) : toInt64 n = n := by
  rw [toInt64]
  rw [Int.emod_eq_of_lt (by omega) (by push_cast; omega)]
  omega

/-- Modelled from the spec and the go-ethereum rpc conventions (the rpc
package is not among the provided sources): the Latest block-number
sentinel. -/
def latestBlockNumber : Int := -2

/-- Modelled from the spec and the go-ethereum rpc conventions: the Pending
block-number sentinel. -/
def pendingBlockNumber : Int := -1

/-- Embedding of `(*BlockChain).ClipToPostNitroGenesis` from
`src/unnamed/part_001` lines 61-74: the current block number and the Nitro
genesis block number are read from the chain as `uint64` and reinterpreted
as `rpc.BlockNumber` (`int64`); a Latest/Pending sentinel is replaced by
the current block, then the number is clamped from above by the current
block and from below by the genesis block. -/
def ClipToPostNitroGenesis (current genesis : Nat) (blockNum : Int) : Int × Int :=
  let currentBlock := toInt64 current
  let nitroGenesis := toInt64 genesis
  let b1 := if blockNum = latestBlockNumber ∨ blockNum = pendingBlockNumber
    then currentBlock else blockNum
  let b2 := if b1 > currentBlock then currentBlock else b1
  let b3 := if b2 < nitroGenesis then nitroGenesis else b2
  (b3, currentBlock)

/-- C9: for every input block number `b`, `ClipToPostNitroGenesis` returns
the current block number as second component and
`max genesis (min b' current)` as first component, where `b'` is the
current block when `b` is the Latest or Pending sentinel and `b`
otherwise; in particular the returned block number is never below the
Nitro genesis block number.  (Stated for chains whose block numbers fit in
an `int64`, as the Go casts assume.) -/
theorem c9_clip_to_post_nitro_genesis (current genesis : Nat) (blockNum : Int)
    (hc : current < 2 ^ 63) (hg : genesis < 2 ^ 63) :
    ClipToPostNitroGenesis current genesis blockNum =
      (max (genesis : Int)
        (min (if blockNum = latestBlockNumber ∨ blockNum = pendingBlockNumber
          then (current : Int) else blockNum) (current : Int)), (current : Int)) ∧
    (genesis : Int) ≤ (ClipToPostNitroGenesis current genesis blockNum).1 := by
  have h1 : toInt64 current = current := toInt64_small current hc
  have h2 : toInt64 genesis = genesis := toInt64_small genesis hg
  constructor
  · rw [ClipToPostNitroGenesis]
    simp only [h1, h2, Prod.mk.injEq]
    refine ⟨?_, trivial⟩
    by_cases hs : blockNum = latestBlockNumber ∨ blockNum = pendingBlockNumber
    · simp only [if_pos hs]
      split_ifs <;> omega
    · simp only [if_neg hs]
      split_ifs <;> omega
  · rw [ClipToPostNitroGenesis]
    simp only [h1, h2]
    by_cases hs : blockNum = latestBlockNumber ∨ blockNum = pendingBlockNumber
    · simp only [if_pos hs]
      split_ifs <;> omega
    · simp only [if_neg hs]
      split_ifs <;> omega

/-- Block header as consumed by the state-recreation helpers: height, own
hash, parent hash (hashes abstracted to numbers). -/
structure BHeader where
  number : Nat
  hash : Nat
  parentHash : Nat
deriving DecidableEq

/-- Receipt fields used by the depth accounting of
`FindLastAvailableState`. -/
structure BReceipt where
  gasUsed : Nat
  gasUsedForL1 : Nat
deriving DecidableEq

/-- Chain context consumed by `FindLastAvailableState`: the configured
Nitro genesis block number, receipt lookup by block hash, and header lookup
by hash and number. -/
structure ChainCtx where
  genesis : Nat
  receiptsByHash : Nat → Option (List BReceipt)
  getHeader : Nat → Nat → Option BHeader

/-- Sentinel for unlimited traversal depth; per the comment on
`FindLastAvailableState` in `src/arbitrum/export.go`, `-1` disables the
depth limit (the constant itself is defined outside the provided
sources). -/
def InfiniteMaxRecreateStateDepth : Int := -1

/-- Wrapping `uint64` subtraction `receipt.GasUsed - receipt.GasUsedForL1`
as computed by the Go code. -/
def wsub64 (a b : Nat) : Nat := (a % 2 ^ 64 + 2 ^ 64 - b % 2 ^ 64) % 2 ^ 64

/-- Wrapping `uint64` accumulation `l2GasUsed += ...` over the receipts of
one block. -/
def addReceiptsGas (gas : Nat) (rs : List BReceipt) : Nat :=
  rs.foldl (fun g r => (g + wsub64 r.gasUsed r.gasUsedForL1) % 2 ^ 64) gas

/-- Failure modes of `FindLastAvailableState`, one constructor per `return`
with a non-nil error in the Go code; `genesisBoundary` wraps the last state
lookup failure as `errors.Wrap` does, and `stateErr` surfaces that failure
unmodified. -/
inductive RecreateErr where
  | receiptsNotFound (hash : Nat)
  | depthLimitExceeded
  | stateErr (inner : Nat)
  | genesisBoundary (inner : Nat) (target genesis : Nat)
  | parentNotFound (number hash : Nat)
  | ctxCancelled
deriving DecidableEq

/-- Embedding of `FindLastAvailableState` from `src/arbitrum/export.go`
lines 46-84: walk backwards from `targetHeader` until `stateFor` succeeds;
with a positive `maxDepthInL2Gas` the cumulative L2 gas of the traversed
blocks is bounded and exceeding the bound aborts with
`ErrDepthLimitExceeded` (`RecreateErr.depthLimitExceeded`); with any other
value except `-1` the first lookup failure is returned as is; walking to or
past the genesis block yields the wrapping genesis-boundary error.  The Go
loop runs while the context is alive; the fuel models context cancellation
and is irrelevant for the error cases proved below, which return within one
step. -/
def FindLastAvailableState (bc : ChainCtx) (stateFor : BHeader → Except Nat Nat)
    (targetNumber : Nat) (maxDepthInL2Gas : Int) :
    Nat → BHeader → Nat → Except RecreateErr (Nat × BHeader)
  | 0, _, _ => .error .ctxCancelled
  | fuel + 1, currentHeader, l2GasUsed =>
    match stateFor currentHeader with
    | .ok st => .ok (st, currentHeader)
    | .error err =>
      let cont : Nat → Except RecreateErr (Nat × BHeader) := fun gas2 =>
        if currentHeader.number ≤ bc.genesis then
          .error (.genesisBoundary err targetNumber bc.genesis)
        else
          match bc.getHeader currentHeader.parentHash (currentHeader.number - 1) with
          | none => .error (.parentNotFound currentHeader.number currentHeader.hash)
          | some h2 =>
            FindLastAvailableState bc stateFor targetNumber maxDepthInL2Gas fuel h2 gas2
      if maxDepthInL2Gas > 0 then
        match bc.receiptsByHash currentHeader.hash with
        | none => .error (.receiptsNotFound currentHeader.hash)
        | some receipts =>
          let gas2 := addReceiptsGas l2GasUsed receipts
          if gas2 > maxDepthInL2Gas.toNat then .error .depthLimitExceeded
          else cont gas2
      else if maxDepthInL2Gas ≠ InfiniteMaxRecreateStateDepth then .error (.stateErr err)
      else cont l2GasUsed

/-- C8: `FindLastAvailableState` distinguishes its exhaustion modes.  When
`maxDepthInL2Gas` is positive and the cumulative L2 gas of the traversed
blocks exceeds it, the distinct bound-exceeded error is returned; when the
search reaches the genesis boundary (with the gas bound not yet exceeded,
in both the positive-bound and the unlimited `-1` configurations), a
distinct genesis-boundary error wrapping the last state lookup failure is
returned — and these two errors differ from each other and from the
generic surfaced lookup failure. -/
theorem c8_find_last_available_state_errors (bc : ChainCtx)
    (stateFor : BHeader → Except Nat Nat) (targetNumber : Nat)
    (maxDepthInL2Gas : Int) (fuel : Nat) (hd : BHeader) (gas : Nat) (err : Nat)
    (receipts : List BReceipt) :
    (maxDepthInL2Gas > 0 → stateFor hd = .error err →
      bc.receiptsByHash hd.hash = some receipts →
      addReceiptsGas gas receipts > maxDepthInL2Gas.toNat →
      FindLastAvailableState bc stateFor targetNumber maxDepthInL2Gas (fuel + 1) hd gas =
        .error .depthLimitExceeded) ∧
    (maxDepthInL2Gas > 0 → stateFor hd = .error err →
      bc.receiptsByHash hd.hash = some receipts →
      addReceiptsGas gas receipts ≤ maxDepthInL2Gas.toNat →
      hd.number ≤ bc.genesis →
      FindLastAvailableState bc stateFor targetNumber maxDepthInL2Gas (fuel + 1) hd gas =
        .error (.genesisBoundary err targetNumber bc.genesis)) ∧
    (maxDepthInL2Gas = InfiniteMaxRecreateStateDepth → stateFor hd = .error err →
      hd.number ≤ bc.genesis →
      FindLastAvailableState bc stateFor targetNumber maxDepthInL2Gas (fuel + 1) hd gas =
        .error (.genesisBoundary err targetNumber bc.genesis)) ∧
    (∀ t g i, RecreateErr.genesisBoundary i t g ≠ RecreateErr.depthLimitExceeded) ∧
    (∀ t g i j, RecreateErr.genesisBoundary i t g ≠ RecreateErr.stateErr j) := by
  refine ⟨?_, ?_, ?_, ?_, ?_⟩
  · intro hpos hst hrec hgas
    rw [FindLastAvailableState, hst]
    simp only [if_pos hpos, hrec]
    simp only [if_pos hgas]
  · intro hpos hst hrec hgas hgen
    rw [FindLastAvailableState, hst]
    simp only [if_pos hpos, hrec]
    rw [if_neg (by omega)]
    simp only [if_pos hgen]
  · intro hinf hst hgen
    rw [InfiniteMaxRecreateStateDepth] at hinf
    subst hinf
    rw [FindLastAvailableState, hst]
    simp [InfiniteMaxRecreateStateDepth, hgen]
  · intro t g i hc; cases hc
  · intro t g i j hc; cases hc

/-- Block as consumed by the state-recreation loop: own hash and parent
hash. -/
structure BBlock where
  hash : Nat
  parentHash : Nat
deriving DecidableEq

/-- Failure modes of the state-advancing helpers, one constructor per
error return of the Go code. -/
inductive AdvErr where
  | blockNotFound (number : Nat)
  | reorgDetected (number expectedPrev foundPrev : Nat)
  | processFailed (number inner : Nat)
  | finalHashMismatch (number expected got : Nat)
  | ctxCancelled
deriving DecidableEq

/-- Embedding of `AdvanceStateByBlock` from `src/arbitrum/export.go` lines
86-102: fetch the block to recreate by number, reject it when its parent
hash does not match the hash of the previously recreated block (reorg
detection), then replay it on top of the state. -/
def AdvanceStateByBlock (getBlockByNumber : Nat → Option BBlock)
    (process : Nat → BBlock → Except Nat Nat)
    (st : Nat) (blockToRecreate : Nat) (prevBlockHash : Nat) :
    Except AdvErr (Nat × BBlock) :=
  match getBlockByNumber blockToRecreate with
  | none => .error (.blockNotFound blockToRecreate)
  | some block =>
    if block.parentHash ≠ prevBlockHash then
      .error (.reorgDetected blockToRecreate prevBlockHash block.parentHash)
    else
      match process st block with
      | .error e => .error (.processFailed blockToRecreate e)
      | .ok st2 => .ok (st2, block)

/-- Loop body of `AdvanceStateUpToBlock` (`src/arbitrum/export.go` lines
104-123): recreate blocks one by one, threading the previous block hash;
upon reaching the target height, require the final recreated block's hash
to equal the target header's hash.  The fuel models the context of the Go
loop. -/
def AdvanceStateUpToBlockAux (getBlockByNumber : Nat → Option BBlock)
    (process : Nat → BBlock → Except Nat Nat) (targetNumber targetHash : Nat) :
    Nat → Nat → Nat → Nat → Except AdvErr Nat
  | 0, _, _, _ => .error .ctxCancelled
  | fuel + 1, st, blockToRecreate, prevHash =>
    match AdvanceStateByBlock getBlockByNumber process st blockToRecreate prevHash with
    | .error e => .error e
    | .ok (st2, block) =>
      if blockToRecreate ≥ targetNumber then
        if block.hash ≠ targetHash then
          .error (.finalHashMismatch blockToRecreate targetHash block.hash)
        else .ok st2
      else
        AdvanceStateUpToBlockAux getBlockByNumber process targetNumber targetHash
          fuel st2 (blockToRecreate + 1) block.hash

/-- Embedding of `AdvanceStateUpToBlock` from `src/arbitrum/export.go`
lines 104-123, starting one block above the last available header with its
hash as the previous-block link, with exactly enough fuel for the loop to
reach the target height. -/
def AdvanceStateUpToBlock (getBlockByNumber : Nat → Option BBlock)
    (process : Nat → BBlock → Except Nat Nat)
    (target lastAvailable : BHeader) (st : Nat) : Except AdvErr Nat :=
  AdvanceStateUpToBlockAux getBlockByNumber process target.number target.hash
    (target.number - lastAvailable.number + 1) st
    (lastAvailable.number + 1) lastAvailable.hash

/-- Hash linkage of the recreated chain segment: starting at height `n`
with previous hash `prev`, every block up to the target height exists, each
one's parent hash equals the previous block's hash, and the last one's hash
equals the target hash. -/
inductive Linked (gb : Nat → Option BBlock) (targetNumber targetHash : Nat) :
    Nat → Nat → Prop where
  | last : ∀ n prev b, targetNumber ≤ n → gb n = some b →
      b.parentHash = prev → b.hash = targetHash →
      Linked gb targetNumber targetHash n prev
  | step : ∀ n prev b, n < targetNumber → gb n = some b → b.parentHash = prev →
      Linked gb targetNumber targetHash (n + 1) b.hash →
      Linked gb targetNumber targetHash n prev

theorem advanceAux_linked : ∀ fuel : Nat, ∀ gb : Nat → Option BBlock,
    ∀ process : Nat → BBlock → Except Nat Nat, ∀ tN tH st n prev stF : Nat,
    AdvanceStateUpToBlockAux gb process tN tH fuel st n prev = .ok stF →
    Linked gb tN tH n prev := by
  intro fuel
  induction fuel with
  | zero =>
    intro gb process tN tH st n prev stF h
    rw [AdvanceStateUpToBlockAux] at h
    cases h
  | succ f ih =>
    intro gb process tN tH st n prev stF h
    rw [AdvanceStateUpToBlockAux] at h
    cases hab : AdvanceStateByBlock gb process st n prev with
    | error e => rw [hab] at h; cases h
    | ok p =>
      obtain ⟨st2, block⟩ := p
      rw [hab] at h
      simp only at h
      rw [AdvanceStateByBlock] at hab
      cases hgb : gb n with
      | none => rw [hgb] at hab; cases hab
      | some blk =>
        rw [hgb] at hab
        simp only at hab
        by_cases hph : blk.parentHash ≠ prev
        · rw [if_pos hph] at hab; cases hab
        · rw [if_neg hph] at hab
          simp only [ne_eq, not_not] at hph
          cases hpr : process st blk with
          | error e => rw [hpr] at hab; cases hab
          | ok st3 =>
            rw [hpr] at hab
            simp only [Except.ok.injEq, Prod.mk.injEq] at hab
            obtain ⟨hst3, hblk⟩ := hab
            subst hblk
            by_cases hge : n ≥ tN
            · rw [if_pos hge] at h
              by_cases hh : blk.hash ≠ tH
              · rw [if_pos hh] at h; cases h
              · rw [if_neg hh] at h
                simp only [ne_eq, not_not] at hh
                exact Linked.last n prev blk hge hgb hph hh
            · rw [if_neg hge] at h
              have := ih gb process tN tH st2 (n + 1) blk.hash stF h
              exact Linked.step n prev blk (by omega) hgb hph this

/-- C10: whenever `AdvanceStateUpToBlock` returns a state without error,
the recreated blocks are hash-linked from the last available header up to
the target height and the final recreated block's hash equals the target
header's hash; conversely a parent-hash mismatch at any recreated block or
a final-hash mismatch makes the call return an error (carrying no state):
a found block whose parent hash differs from the previous recreated hash
yields the reorg-detection error immediately, and a final block whose hash
differs from the target's yields the final-hash-mismatch error. -/
theorem c10_advance_state_up_to_block (gb : Nat → Option BBlock)
    (process : Nat → BBlock → Except Nat Nat)
    (target lastAvailable : BHeader) (st stF : Nat) :
    (AdvanceStateUpToBlock gb process target lastAvailable st = .ok stF →
      Linked gb target.number target.hash (lastAvailable.number + 1) lastAvailable.hash) ∧
    (∀ n prev s2 b, gb n = some b → b.parentHash ≠ prev →
      AdvanceStateByBlock gb process s2 n prev =
        .error (.reorgDetected n prev b.parentHash)) ∧
    (∀ fuel n prev s2 st2 b, gb n = some b → b.parentHash = prev →
      process s2 b = .ok st2 → n ≥ target.number → b.hash ≠ target.hash →
      AdvanceStateUpToBlockAux gb process target.number target.hash (fuel + 1) s2 n prev =
        .error (.finalHashMismatch n target.hash b.hash)) := by
  refine ⟨?_, ?_, ?_⟩
  · intro h
    exact advanceAux_linked _ gb process target.number target.hash st
      (lastAvailable.number + 1) lastAvailable.hash stF h
  · intro n prev s2 b hgb hne
    rw [AdvanceStateByBlock, hgb]
    simp [hne]
  · intro fuel n prev s2 st2 b hgb hph hpr hge hh
    rw [AdvanceStateUpToBlockAux, AdvanceStateByBlock, hgb]
    simp [hph, hpr, hge, hh]

theorem lookupReq_mem (rs : List (SPath × NodeReq)) (p : SPath) (r : NodeReq)
    (h : lookupReq rs p = some r) : (p, r) ∈ rs := by
  induction rs with
  | nil => simp [lookupReq] at h
  | cons e rest ih =>
    obtain ⟨q, r0⟩ := e
    rw [lookupReq] at h
    by_cases hq : q = p
    · rw [if_pos hq] at h
      cases h
      subst hq
      simp
    · rw [if_neg hq] at h
      exact List.mem_cons_of_mem _ (ih h)

theorem mem_lookupReq (rs : List (SPath × NodeReq)) (p : SPath) (r : NodeReq)
    (hnd : (rs.map Prod.fst).Nodup) (h : (p, r) ∈ rs) : lookupReq rs p = some r := by
  induction rs with
  | nil => cases h
  | cons e rest ih =>
    obtain ⟨q, r0⟩ := e
    simp only [List.map_cons, List.nodup_cons] at hnd
    rw [lookupReq]
    rcases List.mem_cons.mp h with h1 | h1
    · cases h1
      simp
    · have hq : q ≠ p := by
        intro hc
        exact hnd.1 (hc ▸ List.mem_map.mpr ⟨(p, r), h1, rfl⟩)
      rw [if_neg hq]
      exact ih hnd.2 h1

theorem lookupReq_none_iff (rs : List (SPath × NodeReq)) (p : SPath) :
    lookupReq rs p = none ↔ p ∉ rs.map Prod.fst := by
  induction rs with
  | nil => simp [lookupReq]
  | cons e rest ih =>
    obtain ⟨q, r0⟩ := e
    rw [lookupReq]
    by_cases hq : q = p
    · simp [hq]
    · simp only [if_neg hq, ih, List.map_cons, List.mem_cons]
      constructor
      · intro h hc
        rcases hc with hc | hc
        · exact hq hc.symm
        · exact h hc
      · intro h hc
        exact h (Or.inr hc)

theorem lookupReq_some_of_mem_keys (rs : List (SPath × NodeReq)) (p : SPath)
    (h : p ∈ rs.map Prod.fst) : ∃ r, lookupReq rs p = some r := by
  cases hl : lookupReq rs p with
  | none => exact absurd ((lookupReq_none_iff rs p).mp hl) (by simp [h])
  | some r => exact ⟨r, rfl⟩

theorem lookupReq_append_left (rs ts : List (SPath × NodeReq)) (p : SPath) (r : NodeReq)
    (h : lookupReq rs p = some r) : lookupReq (rs ++ ts) p = some r := by
  induction rs with
  | nil => simp [lookupReq] at h
  | cons e rest ih =>
    obtain ⟨q, r0⟩ := e
    rw [lookupReq] at h
    rw [List.cons_append, lookupReq]
    by_cases hq : q = p
    · rw [if_pos hq] at h ⊢
      exact h
    · rw [if_neg hq] at h ⊢
      exact ih h

theorem lookupReq_append_right (rs ts : List (SPath × NodeReq)) (p : SPath)
    (h : lookupReq rs p = none) : lookupReq (rs ++ ts) p = lookupReq ts p := by
  induction rs with
  | nil => simp
  | cons e rest ih =>
    obtain ⟨q, r0⟩ := e
    rw [lookupReq] at h
    rw [List.cons_append, lookupReq]
    by_cases hq : q = p
    · rw [if_pos hq] at h; cases h
    · rw [if_neg hq] at h ⊢
      exact ih h

theorem removeReq_sublist (rs : List (SPath × NodeReq)) (p : SPath) :
    List.Sublist (removeReq rs p) rs := by
  induction rs with
  | nil => simp [removeReq]
  | cons e rest ih =>
    obtain ⟨q, r0⟩ := e
    rw [removeReq]
    by_cases hq : q = p
    · rw [if_pos hq]
      exact List.sublist_cons_self _ _
    · rw [if_neg hq]
      exact List.Sublist.cons₂ _ ih

theorem removeReq_mem_of (rs : List (SPath × NodeReq)) (p : SPath) (pr : SPath × NodeReq)
    (h : pr ∈ removeReq rs p) : pr ∈ rs :=
  (removeReq_sublist rs p).mem h

theorem mem_removeReq (rs : List (SPath × NodeReq)) (p : SPath) (pr : SPath × NodeReq)
    (h : pr ∈ rs) (hne : pr.1 ≠ p) : pr ∈ removeReq rs p := by
  induction rs with
  | nil => cases h
  | cons e rest ih =>
    obtain ⟨q, r0⟩ := e
    rw [removeReq]
    rcases List.mem_cons.mp h with h1 | h1
    · subst h1
      rw [if_neg hne]
      simp
    · by_cases hq : q = p
      · rw [if_pos hq]
        exact h1
      · rw [if_neg hq]
        exact List.mem_cons_of_mem _ (ih h1)

theorem removeReq_length (rs : List (SPath × NodeReq)) (p : SPath)
    (h : p ∈ rs.map Prod.fst) : (removeReq rs p).length + 1 = rs.length := by
  induction rs with
  | nil => simp at h
  | cons e rest ih =>
    obtain ⟨q, r0⟩ := e
    rw [removeReq]
    by_cases hq : q = p
    · rw [if_pos hq]
      simp
    · rw [if_neg hq]
      simp only [List.map_cons, List.mem_cons] at h
      rcases h with h | h
      · exact absurd h.symm hq
      · simp only [List.length_cons]
        rw [← ih h]

theorem lookupReq_removeReq_other (rs : List (SPath × NodeReq)) (p q : SPath)
    (hne : q ≠ p) : lookupReq (removeReq rs p) q = lookupReq rs q := by
  induction rs with
  | nil => simp [removeReq]
  | cons e rest ih =>
    obtain ⟨q0, r0⟩ := e
    rw [removeReq]
    by_cases hq0 : q0 = p
    · rw [if_pos hq0, lookupReq, if_neg (by rw [hq0]; exact fun hc => hne hc.symm)]
    · rw [if_neg hq0, lookupReq, lookupReq]
      by_cases hq0q : q0 = q
      · rw [if_pos hq0q, if_pos hq0q]
      · rw [if_neg hq0q, if_neg hq0q]
        exact ih

theorem lookupReq_removeReq_self (rs : List (SPath × NodeReq)) (p : SPath)
    (hnd : (rs.map Prod.fst).Nodup) : lookupReq (removeReq rs p) p = none := by
  induction rs with
  | nil => simp [removeReq, lookupReq]
  | cons e rest ih =>
    obtain ⟨q0, r0⟩ := e
    simp only [List.map_cons, List.nodup_cons] at hnd
    rw [removeReq]
    by_cases hq0 : q0 = p
    · rw [if_pos hq0]
      rw [lookupReq_none_iff]
      intro hc
      exact hnd.1 (hq0 ▸ hc)
    · rw [if_neg hq0, lookupReq, if_neg hq0]
      exact ih hnd.2

theorem setData_keys (rs : List (SPath × NodeReq)) (p : SPath) (d : TNode) :
    (setData rs p d).map Prod.fst = rs.map Prod.fst := by
  induction rs with
  | nil => simp [setData]
  | cons e rest ih =>
    obtain ⟨q, r0⟩ := e
    rw [setData]
    by_cases hq : q = p
    · rw [if_pos hq]
      simp
    · rw [if_neg hq]
      simp [ih]

theorem setData_hashes (rs : List (SPath × NodeReq)) (p : SPath) (d : TNode) :
    reqHashes (setData rs p d) = reqHashes rs := by
  induction rs with
  | nil => simp [setData]
  | cons e rest ih =>
    obtain ⟨q, r0⟩ := e
    rw [setData]
    by_cases hq : q = p
    · rw [if_pos hq]
      simp [reqHashes]
    · rw [if_neg hq]
      simp only [reqHashes, List.map_cons] at ih ⊢
      rw [ih]

theorem lookupReq_setData_self (rs : List (SPath × NodeReq)) (p : SPath) (d : TNode)
    (r : NodeReq) (h : lookupReq rs p = some r) :
    lookupReq (setData rs p d) p = some { r with data := some d } := by
  induction rs with
  | nil => simp [lookupReq] at h
  | cons e rest ih =>
    obtain ⟨q, r0⟩ := e
    rw [lookupReq] at h
    rw [setData]
    by_cases hq : q = p
    · rw [if_pos hq] at h ⊢
      cases h
      rw [lookupReq, if_pos hq]
    · rw [if_neg hq] at h ⊢
      rw [lookupReq, if_neg hq]
      exact ih h

theorem lookupReq_setData_other (rs : List (SPath × NodeReq)) (p q : SPath) (d : TNode)
    (hne : q ≠ p) : lookupReq (setData rs p d) q = lookupReq rs q := by
  induction rs with
  | nil => simp [setData]
  | cons e rest ih =>
    obtain ⟨q0, r0⟩ := e
    rw [setData]
    by_cases hq0 : q0 = p
    · rw [if_pos hq0, lookupReq, lookupReq]
      rw [if_neg (by rw [hq0]; exact fun hc => hne hc.symm),
        if_neg (by rw [hq0]; exact fun hc => hne hc.symm)]
    · rw [if_neg hq0, lookupReq, lookupReq]
      by_cases hq0q : q0 = q
      · rw [if_pos hq0q, if_pos hq0q]
      · rw [if_neg hq0q, if_neg hq0q]
        exact ih

theorem setData_mem (rs : List (SPath × NodeReq)) (p : SPath) (d : TNode)
    (pr : SPath × NodeReq) (h : pr ∈ setData rs p d) :
    ∃ pr0, pr0 ∈ rs ∧ pr.1 = pr0.1 ∧ pr.2.hash = pr0.2.hash ∧
      (pr.2.data = pr0.2.data ∨ (pr.1 = p ∧ pr.2.data = some d)) := by
  induction rs with
  | nil => simp [setData] at h
  | cons e rest ih =>
    obtain ⟨q, r0⟩ := e
    rw [setData] at h
    by_cases hq : q = p
    · rw [if_pos hq] at h
      rcases List.mem_cons.mp h with h1 | h1
      · subst h1
        exact ⟨(q, r0), by simp, rfl, rfl, Or.inr ⟨hq, rfl⟩⟩
      · exact ⟨pr, List.mem_cons_of_mem _ h1, rfl, rfl, Or.inl rfl⟩
    · rw [if_neg hq] at h
      rcases List.mem_cons.mp h with h1 | h1
      · subst h1
        exact ⟨(q, r0), by simp, rfl, rfl, Or.inl rfl⟩
      · obtain ⟨pr0, hm, h1, h2, h3⟩ := ih h1
        exact ⟨pr0, List.mem_cons_of_mem _ hm, h1, h2, h3⟩

theorem reqHashes_mem (rs : List (SPath × NodeReq)) (pr : SPath × NodeReq)
    (h : pr ∈ rs) : pr.2.hash ∈ reqHashes rs := by
  simp only [reqHashes, List.mem_map]
  exact ⟨pr, h, rfl⟩

theorem reqHashes_removeReq_sub (rs : List (SPath × NodeReq)) (p : SPath) (c : TNode)
    (h : c ∈ reqHashes (removeReq rs p)) : c ∈ reqHashes rs := by
  simp only [reqHashes, List.mem_map] at h ⊢
  obtain ⟨pr, hm, he⟩ := h
  exact ⟨pr, removeReq_mem_of rs p pr hm, he⟩

theorem reqHashes_removeReq_nodup (rs : List (SPath × NodeReq)) (p : SPath)
    (h : (reqHashes rs).Nodup) : (reqHashes (removeReq rs p)).Nodup :=
  h.sublist ((removeReq_sublist rs p).map _)

theorem keys_removeReq_nodup (rs : List (SPath × NodeReq)) (p : SPath)
    (h : (rs.map Prod.fst).Nodup) : ((removeReq rs p).map Prod.fst).Nodup :=
  h.sublist ((removeReq_sublist rs p).map _)

theorem mem_reqHashes_removeReq (rs : List (SPath × NodeReq)) (p : SPath)
    (rr : NodeReq) (hp : (p, rr) ∈ rs) (hkeys : (rs.map Prod.fst).Nodup)
    (c : TNode) (hc : c ∈ reqHashes rs) (hne : c ≠ rr.hash) :
    c ∈ reqHashes (removeReq rs p) := by
  induction rs with
  | nil => cases hp
  | cons e rest ih =>
    obtain ⟨q, r0⟩ := e
    simp only [List.map_cons, List.nodup_cons] at hkeys
    rw [removeReq]
    by_cases hq : q = p
    · rw [if_pos hq]
      subst hq
      have hr0 : r0 = rr := by
        rcases List.mem_cons.mp hp with h1 | h1
        · cases h1; rfl
        · exact absurd (List.mem_map.mpr ⟨(q, rr), h1, rfl⟩) hkeys.1
      subst hr0
      simp only [reqHashes, List.map_cons, List.mem_cons] at hc
      rcases hc with hc | hc
      · exact absurd hc hne
      · exact hc
    · rw [if_neg hq]
      simp only [reqHashes, List.map_cons, List.mem_cons] at hc ⊢
      rcases hc with hc | hc
      · exact Or.inl hc
      · have hp2 : (p, rr) ∈ rest := by
          rcases List.mem_cons.mp hp with h1 | h1
          · cases h1; exact absurd rfl hq
          · exact h1
        exact Or.inr (ih hp2 hkeys.2 hc)

theorem memHashes_append (mb : List (SPath × TNode)) (p : SPath) (d : TNode) :
    memHashes (mb ++ [(p, d)]) = memHashes mb ++ [d] := by
  simp [memHashes]

theorem foldIns_mem (mb : List (SPath × TNode)) (store : List TNode) (x : TNode) :
    x ∈ mb.foldl (fun st e => if e.2 ∈ st then st else st ++ [e.2]) store ↔
      x ∈ store ∨ x ∈ memHashes mb := by
  induction mb generalizing store with
  | nil => simp [memHashes]
  | cons e rest ih =>
    simp only [List.foldl_cons, ih, memHashes, List.map_cons, List.mem_cons]
    by_cases he : e.2 ∈ store
    · simp only [if_pos he]
      constructor
      · intro h
        rcases h with h | h
        · exact Or.inl h
        · exact Or.inr (Or.inr h)
      · intro h
        rcases h with h | h | h
        · exact Or.inl h
        · exact Or.inl (h ▸ he)
        · exact Or.inr h
    · simp only [if_neg he, List.mem_append, List.mem_singleton]
      constructor
      · intro h
        rcases h with (h | h) | h
        · exact Or.inl h
        · exact Or.inr (Or.inl h)
        · exact Or.inr (Or.inr h)
      · intro h
        rcases h with h | h | h
        · exact Or.inl (Or.inl h)
        · exact Or.inl (Or.inr h)
        · exact Or.inr h

theorem foldIns_nodup (mb : List (SPath × TNode)) (store : List TNode)
    (h : store.Nodup) :
    (mb.foldl (fun st e => if e.2 ∈ st then st else st ++ [e.2]) store).Nodup := by
  induction mb generalizing store with
  | nil => exact h
  | cons e rest ih =>
    simp only [List.foldl_cons]
    by_cases he : e.2 ∈ store
    · rw [if_pos he]
      exact ih store h
    · rw [if_neg he]
      refine ih _ ?_
      simp [List.nodup_append, h, he]

theorem foldInsNat_mem (cm : List Nat) (store : List Nat) (x : Nat) :
    x ∈ cm.foldl (fun st h => if h ∈ st then st else st ++ [h]) store ↔
      x ∈ store ∨ x ∈ cm := by
  induction cm generalizing store with
  | nil => simp
  | cons e rest ih =>
    simp only [List.foldl_cons, ih, List.mem_cons]
    by_cases he : e ∈ store
    · simp only [if_pos he]
      constructor
      · intro h
        rcases h with h | h
        · exact Or.inl h
        · exact Or.inr (Or.inr h)
      · intro h
        rcases h with h | h | h
        · exact Or.inl h
        · exact Or.inl (h ▸ he)
        · exact Or.inr h
    · simp only [if_neg he, List.mem_append, List.mem_singleton]
      constructor
      · intro h
        rcases h with (h | h) | h
        · exact Or.inl h
        · exact Or.inr (Or.inl h)
        · exact Or.inr (Or.inr h)
      · intro h
        rcases h with h | h | h
        · exact Or.inl (Or.inl h)
        · exact Or.inl (Or.inr h)
        · exact Or.inr h

theorem eligibleB_true (store : List TNode) (mb : List (SPath × TNode)) (d : TNode)
    (h : eligibleB store mb d = true) (c : TNode) (hc : c ∈ kidsHashes d) :
    c ∈ memHashes mb ∨ c ∈ store := by
  simp only [eligibleB, List.all_eq_true] at h
  simp only [kidsHashes, List.mem_map] at hc
  obtain ⟨k, hk, hkc⟩ := hc
  have := h k hk
  simp only [Bool.or_eq_true, decide_eq_true_eq] at this
  rcases this with h1 | h1
  · exact Or.inl (hkc ▸ h1)
  · exact Or.inr (hkc ▸ h1)

theorem eligibleB_false (store : List TNode) (mb : List (SPath × TNode)) (d : TNode)
    (h : eligibleB store mb d = false) :
    ∃ c ∈ kidsHashes d, c ∉ memHashes mb ∧ c ∉ store := by
  rw [eligibleB] at h
  rcases List.all_eq_false.mp h with ⟨k, hk, hkf⟩
  simp only [Bool.or_eq_true, decide_eq_true_eq, not_or] at hkf
  exact ⟨k.2, List.mem_map.mpr ⟨k, hk, rfl⟩, hkf.1, hkf.2⟩

theorem findEligible_some (store : List TNode) (rs : List (SPath × NodeReq))
    (mb : List (SPath × TNode)) (p : SPath) (d : TNode)
    (h : findEligible store rs mb = some (p, d)) :
    ∃ r, (p, r) ∈ rs ∧ r.data = some d ∧ eligibleB store mb d = true := by
  induction rs with
  | nil => simp [findEligible] at h
  | cons e rest ih =>
    obtain ⟨q, r0⟩ := e
    rw [findEligible] at h
    cases hd : r0.data with
    | none =>
      simp only [hd] at h
      obtain ⟨r, hm, h1, h2⟩ := ih h
      exact ⟨r, List.mem_cons_of_mem _ hm, h1, h2⟩
    | some d0 =>
      simp only [hd] at h
      by_cases he : eligibleB store mb d0 = true
      · rw [if_pos he] at h
        cases h
        exact ⟨r0, by simp, hd, he⟩
      · rw [if_neg he] at h
        obtain ⟨r, hm, h1, h2⟩ := ih h
        exact ⟨r, List.mem_cons_of_mem _ hm, h1, h2⟩

theorem findEligible_none (store : List TNode) (rs : List (SPath × NodeReq))
    (mb : List (SPath × TNode)) (h : findEligible store rs mb = none) :
    ∀ pr ∈ rs, ∀ d, pr.2.data = some d → eligibleB store mb d = false := by
  induction rs with
  | nil => intro pr hpr; cases hpr
  | cons e rest ih =>
    obtain ⟨q, r0⟩ := e
    rw [findEligible] at h
    intro pr hpr d hd
    cases hd0 : r0.data with
    | none =>
      simp only [hd0] at h
      rcases List.mem_cons.mp hpr with h1 | h1
      · subst h1
        rw [hd0] at hd; cases hd
      · exact ih h pr h1 d hd
    | some d0 =>
      simp only [hd0] at h
      by_cases he : eligibleB store mb d0 = true
      · rw [if_pos he] at h; cases h
      · rw [if_neg he] at h
        rcases List.mem_cons.mp hpr with h1 | h1
        · subst h1
          simp only [hd0] at hd
          cases hd
          simpa using he
        · exact ih h pr h1 d hd

theorem nodup_subset_length (l l2 : List TNode) (hnd : l.Nodup) (hsub : ∀ x ∈ l, x ∈ l2) :
    l.length ≤ l2.length :=
  List.Subperm.length_le (List.subperm_of_subset hnd hsub)

theorem size_kid_lt (t c : TNode) (hc : c ∈ kidsHashes t) : sizeTN c < sizeTN t := by
  simp only [kidsHashes, List.mem_map] at hc
  obtain ⟨k, hk, hkc⟩ := hc
  subst hkc
  cases t with
  | mk ks v b =>
    simp only [TNode.kids] at hk
    have := size_kid_le ks k hk
    simp only [sizeTN]
    omega

theorem subKids_cases (ks : List (List Nat × TNode)) (x : TNode)
    (h : x ∈ subtreesL.subKids ks) : ∃ k ∈ ks, x ∈ subtreesL k.2 := by
  induction ks with
  | nil => cases h
  | cons a as ih =>
    simp only [subtreesL.subKids, List.mem_append] at h
    rcases h with h | h
    · exact ⟨a, by simp, h⟩
    · obtain ⟨k, hk, hx2⟩ := ih h
      exact ⟨k, List.mem_cons_of_mem _ hk, hx2⟩

theorem subtrees_cases (t x : TNode) (hx : x ∈ subtreesL t) :
    x = t ∨ ∃ k ∈ t.kids, x ∈ subtreesL k.2 := by
  cases t with
  | mk ks v b =>
    simp only [subtreesL] at hx
    rcases List.mem_cons.mp hx with h | h
    · exact Or.inl h
    · right
      simp only [TNode.kids]
      exact subKids_cases ks x h

theorem store_closed_subtrees (store : List TNode)
    (hclosed : ∀ nd ∈ store, ∀ c ∈ kidsHashes nd, c ∈ store) :
    ∀ n : Nat, ∀ t : TNode, sizeTN t ≤ n → t ∈ store →
      ∀ x ∈ subtreesL t, x ∈ store := by
  intro n
  induction n with
  | zero =>
    intro t h
    cases t with
    | mk k v b => simp [sizeTN] at h
  | succ n ih =>
    intro t h ht x hx
    rcases subtrees_cases t x hx with h1 | ⟨k, hk, h1⟩
    · exact h1 ▸ ht
    · have hkid : k.2 ∈ store :=
        hclosed t ht k.2 (List.mem_map.mpr ⟨k, hk, rfl⟩)
      have hsz : sizeTN k.2 ≤ n := by
        have h1 := size_kid_lt t k.2 (List.mem_map.mpr ⟨k, hk, rfl⟩)
        omega
      exact ih k.2 hsz hkid x h1

/-- Working invariant of the trie-node side of one synchronisation run,
relating the scheduler, the destination store and the driver's outstanding
elements; `retP` is the ghost trace of all pairs returned by `Missing` and
`processed` the ghost count of successfully processed elements. -/
structure MidInv (root : TNode) (S0 : List TNode) (s : Sched) (store : List TNode)
    (elems : List (SPath × TNode)) (retP : List (SPath × TNode))
    (processed : Nat) : Prop where
  keysNd : (s.nodeReqs.map Prod.fst).Nodup
  hashNd : (reqHashes s.nodeReqs).Nodup
  freshMem : ∀ pr ∈ s.nodeReqs, pr.2.hash ∉ memHashes s.membatch
  freshSt : ∀ pr ∈ s.nodeReqs, pr.2.hash ∉ store
  dataEq : ∀ pr ∈ s.nodeReqs, pr.2.data = none ∨ pr.2.data = some pr.2.hash
  reqReach : ∀ pr ∈ s.nodeReqs, pr.2.hash ∈ subtreesL root
  reqCreated : ∀ pr ∈ s.nodeReqs, pr.2.hash ∈ s.created
  pathPos : ∀ pr ∈ s.nodeReqs, pr.1.inner = [] ∧ nodeAt root pr.1.outer = some pr.2.hash
  qSorted : s.queue.Pairwise (fun a b => pathLtb a b = true)
  qReq : ∀ p ∈ s.queue, ∃ r, lookupReq s.nodeReqs p = some r ∧ r.data = none
  memNd : (memHashes s.membatch).Nodup
  memClosed : ∀ nd ∈ memHashes s.membatch, ∀ c ∈ kidsHashes nd,
      c ∈ memHashes s.membatch ∨ c ∈ store
  memReach : ∀ nd ∈ memHashes s.membatch, nd ∈ subtreesL root
  rootCov : root ∈ memHashes s.membatch ∨ root ∈ store ∨ root ∈ reqHashes s.nodeReqs
  createdNd : s.created.Nodup
  createdReach : ∀ c ∈ s.created, c ∈ subtreesL root
  createdCov : ∀ c ∈ s.created,
      c ∈ reqHashes s.nodeReqs ∨ c ∈ memHashes s.membatch ∨ c ∈ store
  stNd : store.Nodup
  stClosed : ∀ nd ∈ store, ∀ c ∈ kidsHashes nd, c ∈ store
  stProv : ∀ nd ∈ store, nd ∈ S0 ∨ nd ∈ subtreesL root
  elemsReq : ∀ e ∈ elems, lookupReq s.nodeReqs e.1 = some ⟨e.2, none⟩
  elemsNd : (elems.map Prod.fst).Nodup
  qeDisj : ∀ p ∈ s.queue, p ∉ elems.map Prod.fst
  unprocPlaced : ∀ pr ∈ s.nodeReqs, pr.2.data = none →
      pr.1 ∈ s.queue ∨ pr.1 ∈ elems.map Prod.fst
  countEq : processed + elems.length + s.queue.length = s.created.length
  retNd : (retP.map Prod.snd).Nodup
  retSub : ∀ h ∈ retP.map Prod.snd,
      h ∈ reqHashes s.nodeReqs ∨ h ∈ memHashes s.membatch ∨ h ∈ store
  qFresh : ∀ p ∈ s.queue, ∀ r, lookupReq s.nodeReqs p = some r →
      r.hash ∉ retP.map Prod.snd

/-- Working invariant of the auxiliary-blob side of one run. -/
structure CodeInv (s : Sched) (bstore : List Nat) (codeElems : List Nat)
    (retC : List Nat) : Prop where
  crNd : s.codeReqs.Nodup
  cqNd : s.codeQueue.Nodup
  cqSub : ∀ h ∈ s.codeQueue, h ∈ s.codeReqs
  crFreshMem : ∀ h ∈ s.codeReqs, h ∉ s.codeMem
  crFreshB : ∀ h ∈ s.codeReqs, h ∉ bstore
  ceSub : ∀ h ∈ codeElems, h ∈ s.codeReqs
  ceQDisj : ∀ h ∈ codeElems, h ∉ s.codeQueue
  ceNd : codeElems.Nodup
  crPlaced : ∀ h ∈ s.codeReqs, h ∈ s.codeQueue ∨ h ∈ codeElems
  retCNd : retC.Nodup
  retCSub : ∀ h ∈ retC, h ∈ s.codeReqs ∨ h ∈ s.codeMem ∨ h ∈ bstore
  cqFresh : ∀ h ∈ s.codeQueue, h ∉ retC

/-- Every verified request's children are staged, stored or tracked by a
live request — the completion-accounting invariant of spec section 3. -/
def TrackInv (s : Sched) (store : List TNode) : Prop :=
  ∀ pr ∈ s.nodeReqs, ∀ d, pr.2.data = some d → ∀ c ∈ kidsHashes d,
    c ∈ memHashes s.membatch ∨ c ∈ store ∨ c ∈ reqHashes s.nodeReqs

/-- `TrackInv` with one path exempted, used while that path's children are
still being scheduled. -/
def TrackInvX (s : Sched) (store : List TNode) (exP : SPath) : Prop :=
  ∀ pr ∈ s.nodeReqs, pr.1 ≠ exP → ∀ d, pr.2.data = some d → ∀ c ∈ kidsHashes d,
    c ∈ memHashes s.membatch ∨ c ∈ store ∨ c ∈ reqHashes s.nodeReqs

/-- No live verified request is still eligible for staging — the
post-saturation state left by completion propagation. -/
def EligInv (s : Sched) (store : List TNode) : Prop :=
  ∀ pr ∈ s.nodeReqs, ∀ d, pr.2.data = some d → eligibleB store s.membatch d = false

theorem midInv_congr (root : TNode) (S0 : List TNode) (s s2 : Sched)
    (store : List TNode) (elems : List (SPath × TNode)) (retP : List (SPath × TNode))
    (processed : Nat)
    (h : MidInv root S0 s store elems retP processed)
    (h1 : s2.nodeReqs = s.nodeReqs) (h2 : s2.queue = s.queue)
    (h3 : s2.membatch = s.membatch) (h4 : s2.created = s.created) :
    MidInv root S0 s2 store elems retP processed := by
  cases h
  constructor
  all_goals first
    | assumption
    | (simp only [h1, h2, h3, h4]; assumption)

theorem nodup_append_single {α : Type} (l : List α) (a : α) (h : l.Nodup) (ha : a ∉ l) :
    (l ++ [a]).Nodup := by
  rw [List.nodup_append]
  refine ⟨h, List.nodup_singleton a, ?_⟩
  intro x hx hxa
  rw [List.mem_singleton] at hxa
  exact ha (hxa ▸ hx)

theorem insSorted_length (p : SPath) (l : List SPath) :
    (insSorted p l).length = l.length + 1 := by
  induction l with
  | nil => rfl
  | cons q qs ih =>
    rw [insSorted]
    by_cases h : pathLtb p q = true
    · simp [if_pos h]
    · simp only [if_neg h, List.length_cons, ih]

theorem elems_path_mem_keys (s : Sched) (elems : List (SPath × TNode))
    (hreq : ∀ e ∈ elems, lookupReq s.nodeReqs e.1 = some ⟨e.2, none⟩)
    (q : SPath) (hq : q ∈ elems.map Prod.fst) : q ∈ s.nodeReqs.map Prod.fst := by
  rcases List.mem_map.mp hq with ⟨e, he, hq1⟩
  have := hreq e he
  exact hq1 ▸ List.mem_map.mpr ⟨(e.1, ⟨e.2, none⟩), lookupReq_mem _ _ _ this, rfl⟩

theorem scheduleChild_step (root : TNode) (S0 : List TNode) (s : Sched)
    (store : List TNode) (elems : List (SPath × TNode)) (retP : List (SPath × TNode))
    (processed : Nat) (p : SPath) (sfx : List Nat) (c : TNode) (hnode : TNode)
    (hwf : wfT root = true)
    (hm : MidInv root S0 s store elems retP processed)
    (htx : TrackInvX s store p)
    (hpi : p.inner = [])
    (hpos : nodeAt root p.outer = some hnode)
    (hsub : hnode ∈ subtreesL root)
    (hkid : (sfx, c) ∈ hnode.kids)
    (s2 : Sched) (hs2 : s2 = scheduleChild store p s sfx c) :
    MidInv root S0 s2 store elems retP processed ∧
    TrackInvX s2 store p ∧
    s2.membatch = s.membatch ∧
    (∀ q r, lookupReq s.nodeReqs q = some r → lookupReq s2.nodeReqs q = some r) ∧
    (∀ x ∈ reqHashes s.nodeReqs, x ∈ reqHashes s2.nodeReqs) ∧
    (c ∈ memHashes s2.membatch ∨ c ∈ store ∨ c ∈ reqHashes s2.nodeReqs) ∧
    s2.codeReqs = s.codeReqs ∧ s2.codeQueue = s.codeQueue ∧ s2.codeMem = s.codeMem := by
  rw [scheduleChild] at hs2
  by_cases hst : c ∈ store
  · rw [if_pos hst] at hs2
    subst hs2
    exact ⟨hm, htx, rfl, fun q r hr => hr, fun x hx => hx, Or.inr (Or.inl hst),
      rfl, rfl, rfl⟩
  · rw [if_neg hst] at hs2
    by_cases hmem : c ∈ memHashes s.membatch
    · rw [if_pos hmem] at hs2
      subst hs2
      exact ⟨hm, htx, rfl, fun q r hr => hr, fun x hx => hx, Or.inl hmem, rfl, rfl, rfl⟩
    · rw [if_neg hmem] at hs2
      by_cases hrq : c ∈ reqHashes s.nodeReqs
      · rw [if_pos hrq] at hs2
        subst hs2
        exact ⟨hm, htx, rfl, fun q r hr => hr, fun x hx => hx, Or.inr (Or.inr hrq),
          rfl, rfl, rfl⟩
      · rw [if_neg hrq] at hs2
        simp only at hs2
        have hcp : childSPath p sfx = ⟨p.outer ++ sfx, []⟩ := by
          rw [childSPath, if_pos hpi]
        rw [hcp] at hs2
        set cp : SPath := ⟨p.outer ++ sfx, []⟩ with hcpdef
        have hcp_pos : nodeAt root (p.outer ++ sfx) = some c :=
          nodeAt_extend root hwf p.outer sfx hnode c hpos hkid
        have hcp_keys : cp ∉ s.nodeReqs.map Prod.fst := by
          intro hc
          obtain ⟨r', hr'⟩ := lookupReq_some_of_mem_keys s.nodeReqs cp hc
          have hmem' := lookupReq_mem s.nodeReqs cp r' hr'
          have hpp := (hm.pathPos (cp, r') hmem').2
          simp only [hcpdef] at hpp
          rw [hcp_pos] at hpp
          cases hpp
          exact hrq (reqHashes_mem s.nodeReqs (cp, r') hmem')
        have hcp_queue : cp ∉ s.queue := by
          intro hc
          obtain ⟨r, hr, _⟩ := hm.qReq cp hc
          exact hcp_keys (List.mem_map.mpr ⟨(cp, r), lookupReq_mem _ _ _ hr, rfl⟩)
        have hc_subtree : c ∈ subtreesL root :=
          subtrees_trans (sizeTN root) root hnode c le_rfl hsub
            (kid_mem_subtrees hnode c (List.mem_map.mpr ⟨(sfx, c), hkid, rfl⟩))
        have hc_created : c ∉ s.created := by
          intro hc
          rcases hm.createdCov c hc with h1 | h1 | h1
          · exact hrq h1
          · exact hmem h1
          · exact hst h1
        have hcp_elems : cp ∉ elems.map Prod.fst := by
          intro hc
          exact hcp_keys (elems_path_mem_keys s elems hm.elemsReq cp hc)
        have hlk_pres : ∀ q r, lookupReq s.nodeReqs q = some r →
            lookupReq s2.nodeReqs q = some r := by
          intro q r hr
          rw [hs2]
          exact lookupReq_append_left _ _ _ _ hr
        have hlk_cp : lookupReq s2.nodeReqs cp = some ⟨c, none⟩ := by
          rw [hs2]
          rw [lookupReq_append_right _ _ _ ((lookupReq_none_iff _ _).mpr hcp_keys)]
          simp [lookupReq]
        have hhash2 : reqHashes s2.nodeReqs = reqHashes s.nodeReqs ++ [c] := by
          rw [hs2]
          simp [reqHashes]
        have hkeys2 : s2.nodeReqs.map Prod.fst = s.nodeReqs.map Prod.fst ++ [cp] := by
          rw [hs2]
          simp
        have hmem2 : ∀ pr, pr ∈ s2.nodeReqs → pr ∈ s.nodeReqs ∨ pr = (cp, ⟨c, none⟩) := by
          intro pr hpr
          rw [hs2] at hpr
          simp only [List.mem_append, List.mem_singleton] at hpr
          exact hpr
        have hq2 : s2.queue = insSorted cp s.queue := by rw [hs2]
        have hmb2 : s2.membatch = s.membatch := by rw [hs2]
        have hcr2 : s2.created = s.created ++ [c] := by rw [hs2]
        refine ⟨?_, ?_, hmb2, hlk_pres, ?_, ?_, by rw [hs2], by rw [hs2], by rw [hs2]⟩
        · refine
            { keysNd := ?_, hashNd := ?_, freshMem := ?_, freshSt := ?_, dataEq := ?_
              reqReach := ?_, reqCreated := ?_, pathPos := ?_, qSorted := ?_, qReq := ?_
              memNd := ?_, memClosed := ?_, memReach := ?_, rootCov := ?_
              createdNd := ?_, createdReach := ?_, createdCov := ?_
              stNd := hm.stNd, stClosed := hm.stClosed, stProv := hm.stProv
              elemsReq := ?_, elemsNd := hm.elemsNd, qeDisj := ?_, unprocPlaced := ?_
              countEq := ?_, retNd := hm.retNd, retSub := ?_, qFresh := ?_ }
          · rw [hkeys2]
            exact nodup_append_single _ cp hm.keysNd hcp_keys
          · rw [hhash2]
            exact nodup_append_single _ c hm.hashNd hrq
          · intro pr hpr
            rw [hmb2]
            rcases hmem2 pr hpr with h1 | h1
            · exact hm.freshMem pr h1
            · rw [h1]
              exact hmem
          · intro pr hpr
            rcases hmem2 pr hpr with h1 | h1
            · exact hm.freshSt pr h1
            · rw [h1]
              exact hst
          · intro pr hpr
            rcases hmem2 pr hpr with h1 | h1
            · exact hm.dataEq pr h1
            · rw [h1]
              exact Or.inl rfl
          · intro pr hpr
            rcases hmem2 pr hpr with h1 | h1
            · exact hm.reqReach pr h1
            · rw [h1]
              exact hc_subtree
          · intro pr hpr
            rw [hcr2]
            rcases hmem2 pr hpr with h1 | h1
            · exact List.mem_append_left _ (hm.reqCreated pr h1)
            · rw [h1]
              simp
          · intro pr hpr
            rcases hmem2 pr hpr with h1 | h1
            · exact hm.pathPos pr h1
            · rw [h1]
              exact ⟨rfl, hcp_pos⟩
          · rw [hq2]
            exact insSorted_sorted cp s.queue hm.qSorted hcp_queue
          · intro q hq
            rw [hq2, insSorted_mem] at hq
            rcases hq with hq | hq
            · subst hq
              exact ⟨⟨c, none⟩, hlk_cp, rfl⟩
            · obtain ⟨r, hr, hrd⟩ := hm.qReq q hq
              exact ⟨r, hlk_pres q r hr, hrd⟩
          · rw [hmb2]; exact hm.memNd
          · rw [hmb2]; exact hm.memClosed
          · rw [hmb2]; exact hm.memReach
          · rw [hmb2, hhash2]
            rcases hm.rootCov with h1 | h1 | h1
            · exact Or.inl h1
            · exact Or.inr (Or.inl h1)
            · exact Or.inr (Or.inr (List.mem_append_left _ h1))
          · rw [hcr2]
            exact nodup_append_single _ c hm.createdNd hc_created
          · intro x hx
            rw [hcr2] at hx
            rcases List.mem_append.mp hx with h1 | h1
            · exact hm.createdReach x h1
            · rw [List.mem_singleton] at h1
              exact h1 ▸ hc_subtree
          · intro x hx
            rw [hcr2] at hx
            rw [hmb2, hhash2]
            rcases List.mem_append.mp hx with h1 | h1
            · rcases hm.createdCov x h1 with h2 | h2 | h2
              · exact Or.inl (List.mem_append_left _ h2)
              · exact Or.inr (Or.inl h2)
              · exact Or.inr (Or.inr h2)
            · rw [List.mem_singleton] at h1
              subst h1
              exact Or.inl (List.mem_append_right _ (by simp))
          · intro e he
            exact hlk_pres e.1 ⟨e.2, none⟩ (hm.elemsReq e he)
          · intro q hq
            rw [hq2, insSorted_mem] at hq
            rcases hq with hq | hq
            · subst hq
              exact hcp_elems
            · exact hm.qeDisj q hq
          · intro pr hpr hd
            rw [hq2]
            rcases hmem2 pr hpr with h1 | h1
            · rcases hm.unprocPlaced pr h1 hd with h2 | h2
              · exact Or.inl ((insSorted_mem cp pr.1 s.queue).mpr (Or.inr h2))
              · exact Or.inr h2
            · rw [h1]
              exact Or.inl ((insSorted_mem cp cp s.queue).mpr (Or.inl rfl))
          · rw [hq2, hcr2, insSorted_length]
            simp only [List.length_append, List.length_singleton]
            have := hm.countEq
            omega
          · intro x hx
            rw [hmb2, hhash2]
            rcases hm.retSub x hx with h1 | h1 | h1
            · exact Or.inl (List.mem_append_left _ h1)
            · exact Or.inr (Or.inl h1)
            · exact Or.inr (Or.inr h1)
          · intro q hq r hr
            rw [hq2, insSorted_mem] at hq
            rcases hq with hq | hq
            · subst hq
              rw [hlk_cp] at hr
              cases hr
              intro hc
              rcases hm.retSub c hc with h1 | h1 | h1
              · exact hrq h1
              · exact hmem h1
              · exact hst h1
            · obtain ⟨r0, hr0, _⟩ := hm.qReq q hq
              rw [hlk_pres q r0 hr0] at hr
              cases hr
              exact hm.qFresh q hq r hr0
        · intro pr hpr hne d hd ckid hck
          rw [hmb2, hhash2]
          rcases hmem2 pr hpr with h1 | h1
          · rcases htx pr h1 hne d hd ckid hck with h2 | h2 | h2
            · exact Or.inl h2
            · exact Or.inr (Or.inl h2)
            · exact Or.inr (Or.inr (List.mem_append_left _ h2))
          · rw [h1] at hd
            cases hd
        · intro x hx
          rw [hhash2]
          exact List.mem_append_left _ hx
        · rw [hhash2]
          exact Or.inr (Or.inr (List.mem_append_right _ (by simp)))

theorem scheduleFold (root : TNode) (S0 : List TNode) (store : List TNode)
    (elems : List (SPath × TNode)) (retP : List (SPath × TNode)) (processed : Nat)
    (p : SPath) (hnode : TNode)
    (hwf : wfT root = true) (hpi : p.inner = [])
    (hpos : nodeAt root p.outer = some hnode) (hsub : hnode ∈ subtreesL root) :
    ∀ ks : List (List Nat × TNode), (∀ k ∈ ks, k ∈ hnode.kids) →
    ∀ s : Sched, MidInv root S0 s store elems retP processed → TrackInvX s store p →
    MidInv root S0 (ks.foldl (fun acc k => scheduleChild store p acc k.1 k.2) s)
        store elems retP processed ∧
    TrackInvX (ks.foldl (fun acc k => scheduleChild store p acc k.1 k.2) s) store p ∧
    (ks.foldl (fun acc k => scheduleChild store p acc k.1 k.2) s).membatch = s.membatch ∧
    (∀ q r, lookupReq s.nodeReqs q = some r →
      lookupReq (ks.foldl (fun acc k => scheduleChild store p acc k.1 k.2) s).nodeReqs q
        = some r) ∧
    (∀ x ∈ reqHashes s.nodeReqs,
      x ∈ reqHashes (ks.foldl (fun acc k => scheduleChild store p acc k.1 k.2) s).nodeReqs) ∧
    (∀ k ∈ ks,
      k.2 ∈ memHashes (ks.foldl (fun acc k => scheduleChild store p acc k.1 k.2) s).membatch ∨
      k.2 ∈ store ∨
      k.2 ∈ reqHashes (ks.foldl (fun acc k => scheduleChild store p acc k.1 k.2) s).nodeReqs) ∧
    (ks.foldl (fun acc k => scheduleChild store p acc k.1 k.2) s).codeReqs = s.codeReqs ∧
    (ks.foldl (fun acc k => scheduleChild store p acc k.1 k.2) s).codeQueue = s.codeQueue ∧
    (ks.foldl (fun acc k => scheduleChild store p acc k.1 k.2) s).codeMem = s.codeMem := by
  intro ks
  induction ks with
  | nil =>
    intro _ s hm htx
    refine ⟨hm, htx, rfl, fun q r hr => hr, fun x hx => hx, ?_, rfl, rfl, rfl⟩
    intro k hk
    cases hk
  | cons k ks ih =>
    intro hks s hm htx
    simp only [List.foldl_cons]
    obtain ⟨hm1, htx1, hmb1, hlk1, hrh1, htr1, hcq1, hcq2, hcq3⟩ :=
      scheduleChild_step root S0 s store elems retP processed p k.1 k.2 hnode
        hwf hm htx hpi hpos hsub (by have := hks k (by simp); simpa using this)
        (scheduleChild store p s k.1 k.2) rfl
    obtain ⟨hm2, htx2, hmb2, hlk2, hrh2, htr2, hcc1, hcc2, hcc3⟩ :=
      ih (fun j hj => hks j (List.mem_cons_of_mem _ hj))
        (scheduleChild store p s k.1 k.2) hm1 htx1
    refine ⟨hm2, htx2, hmb2.trans hmb1, ?_, ?_, ?_, hcc1.trans hcq1,
      hcc2.trans hcq2, hcc3.trans hcq3⟩
    · intro q r hr
      exact hlk2 q r (hlk1 q r hr)
    · intro x hx
      exact hrh2 x (hrh1 x hx)
    · intro j hj
      rcases List.mem_cons.mp hj with hj1 | hj1
    
      · subst hj1
        rcases htr1 with h1 | h1 | h1
        · rw [hmb2, hmb1]
          rw [hmb1] at h1
          exact Or.inl h1
        · exact Or.inr (Or.inl h1)
        · exact Or.inr (Or.inr (hrh2 _ h1))
      · exact htr2 j hj1

theorem scheduleCode_step (s : Sched) (bstore : List Nat) (codeElems : List Nat)
    (retC : List Nat) (h : Nat)
    (hc : CodeInv s bstore codeElems retC)
    (s2 : Sched) (hs2 : s2 = scheduleCode bstore s h) :
    CodeInv s2 bstore codeElems retC ∧
    s2.nodeReqs = s.nodeReqs ∧ s2.queue = s.queue ∧
    s2.membatch = s.membatch ∧ s2.created = s.created := by
  rw [scheduleCode] at hs2
  by_cases h1 : h ∈ bstore
  · rw [if_pos h1] at hs2
    subst hs2
    exact ⟨hc, rfl, rfl, rfl, rfl⟩
  · rw [if_neg h1] at hs2
    by_cases h2 : h ∈ s.codeMem
    · rw [if_pos h2] at hs2
      subst hs2
      exact ⟨hc, rfl, rfl, rfl, rfl⟩
    · rw [if_neg h2] at hs2
      by_cases h3 : h ∈ s.codeReqs
      · rw [if_pos h3] at hs2
        subst hs2
        exact ⟨hc, rfl, rfl, rfl, rfl⟩
      · rw [if_neg h3] at hs2
        have hq : h ∉ s.codeQueue := fun hcq => h3 (hc.cqSub h hcq)
        have hce : h ∉ codeElems := fun hcq => h3 (hc.ceSub h hcq)
        have hrc : h ∉ retC := by
          intro hcq
          rcases hc.retCSub h hcq with hx | hx | hx
          · exact h3 hx
          · exact h2 hx
          · exact h1 hx
        subst hs2
        refine ⟨?_, rfl, rfl, rfl, rfl⟩
        refine
          { crNd := nodup_append_single _ h hc.crNd h3
            cqNd := nodup_append_single _ h hc.cqNd hq
            cqSub := ?_, crFreshMem := ?_, crFreshB := ?_
            ceSub := ?_, ceQDisj := ?_, ceNd := hc.ceNd, crPlaced := ?_
            retCNd := hc.retCNd, retCSub := ?_, cqFresh := ?_ }
        · intro x hx
          rcases List.mem_append.mp hx with hx | hx
          · exact List.mem_append_left _ (hc.cqSub x hx)
          · exact List.mem_append_right _ hx
        · intro x hx
          rcases List.mem_append.mp hx with hx | hx
          · exact hc.crFreshMem x hx
          · rw [List.mem_singleton] at hx
            exact hx ▸ h2
        · intro x hx
          rcases List.mem_append.mp hx with hx | hx
          · exact hc.crFreshB x hx
          · rw [List.mem_singleton] at hx
            exact hx ▸ h1
        · intro x hx
          exact List.mem_append_left _ (hc.ceSub x hx)
        · intro x hx
          intro hxc
          rcases List.mem_append.mp hxc with h5 | h5
          · exact hc.ceQDisj x hx h5
          · rw [List.mem_singleton] at h5
            exact hce (h5 ▸ hx)
        · intro x hx
          rcases List.mem_append.mp hx with hx | hx
          · rcases hc.crPlaced x hx with h5 | h5
            · exact Or.inl (List.mem_append_left _ h5)
            · exact Or.inr h5
          · rw [List.mem_singleton] at hx
            exact Or.inl (List.mem_append_right _ (by simp [hx]))
        · intro x hx
          rcases hc.retCSub x hx with h5 | h5 | h5
          · exact Or.inl (List.mem_append_left _ h5)
          · exact Or.inr (Or.inl h5)
          · exact Or.inr (Or.inr h5)
        · intro x hx
          rcases List.mem_append.mp hx with hx | hx
          · exact hc.cqFresh x hx
          · rw [List.mem_singleton] at hx
            exact hx ▸ hrc

theorem scheduleCodeFold (bstore : List Nat) (codeElems : List Nat) (retC : List Nat) :
    ∀ bs : List Nat, ∀ s : Sched, CodeInv s bstore codeElems retC →
    CodeInv (bs.foldl (fun acc h => scheduleCode bstore acc h) s) bstore codeElems retC ∧
    (bs.foldl (fun acc h => scheduleCode bstore acc h) s).nodeReqs = s.nodeReqs ∧
    (bs.foldl (fun acc h => scheduleCode bstore acc h) s).queue = s.queue ∧
    (bs.foldl (fun acc h => scheduleCode bstore acc h) s).membatch = s.membatch ∧
    (bs.foldl (fun acc h => scheduleCode bstore acc h) s).created = s.created := by
  intro bs
  induction bs with
  | nil =>
    intro s hc
    exact ⟨hc, rfl, rfl, rfl, rfl⟩
  | cons b bs ih =>
    intro s hc
    simp only [List.foldl_cons]
    obtain ⟨hc1, e1, e2, e3, e4⟩ :=
      scheduleCode_step s bstore codeElems retC b hc (scheduleCode bstore s b) rfl
    obtain ⟨hc2, f1, f2, f3, f4⟩ := ih (scheduleCode bstore s b) hc1
    exact ⟨hc2, f1.trans e1, f2.trans e2, f3.trans e3, f4.trans e4⟩

theorem not_mem_removeReq_self (rs : List (SPath × NodeReq)) (q : SPath)
    (hnd : (rs.map Prod.fst).Nodup) (r' : NodeReq) : (q, r') ∉ removeReq rs q := by
  intro hc
  have hk : q ∈ (removeReq rs q).map Prod.fst := List.mem_map.mpr ⟨(q, r'), hc, rfl⟩
  obtain ⟨r2, hr2⟩ := lookupReq_some_of_mem_keys _ q hk
  rw [lookupReq_removeReq_self rs q hnd] at hr2
  cases hr2

theorem removeReq_key_ne (rs : List (SPath × NodeReq)) (q : SPath)
    (hnd : (rs.map Prod.fst).Nodup) (pr : SPath × NodeReq)
    (h : pr ∈ removeReq rs q) : pr.1 ≠ q := by
  intro hc
  have : (q, pr.2) ∈ removeReq rs q := by
    have : pr = (q, pr.2) := by
      cases pr
      simp only at hc
      rw [hc]
    exact this ▸ h
  exact not_mem_removeReq_self rs q hnd pr.2 this

theorem stage_step (root : TNode) (S0 : List TNode) (s : Sched) (store : List TNode)
    (elems : List (SPath × TNode)) (retP : List (SPath × TNode)) (processed : Nat)
    (q : SPath) (d : TNode)
    (hm : MidInv root S0 s store elems retP processed)
    (htr : TrackInv s store)
    (hfind : findEligible store s.nodeReqs s.membatch = some (q, d))
    (s2 : Sched)
    (hs2 : s2 = { s with nodeReqs := removeReq s.nodeReqs q,
                         membatch := s.membatch ++ [(q, d)] }) :
    MidInv root S0 s2 store elems retP processed ∧ TrackInv s2 store ∧
    s2.codeReqs = s.codeReqs ∧ s2.codeQueue = s.codeQueue ∧ s2.codeMem = s.codeMem ∧
    s2.nodeReqs.length + 1 = s.nodeReqs.length := by
  obtain ⟨rq, hrq_mem, hrq_data, helig⟩ := findEligible_some store _ _ q d hfind
  have hlk : lookupReq s.nodeReqs q = some rq := mem_lookupReq _ _ _ hm.keysNd hrq_mem
  have hd_eq : d = rq.hash := by
    rcases hm.dataEq (q, rq) hrq_mem with h1 | h1
    · rw [hrq_data] at h1; cases h1
    · rw [hrq_data] at h1
      cases h1
      rfl
  have hq_queue : q ∉ s.queue := by
    intro hc
    obtain ⟨r0, hr0, hr0d⟩ := hm.qReq q hc
    rw [hlk] at hr0
    cases hr0
    rw [hrq_data] at hr0d
    cases hr0d
  have hq_elems : q ∉ elems.map Prod.fst := by
    intro hc
    rcases List.mem_map.mp hc with ⟨e, he, hq1⟩
    have := hm.elemsReq e he
    rw [hq1, hlk] at this
    cases this
    simp at hrq_data
  have hrm_mem : ∀ pr, pr ∈ removeReq s.nodeReqs q → pr ∈ s.nodeReqs ∧ pr.1 ≠ q :=
    fun pr h => ⟨removeReq_mem_of _ _ _ h, removeReq_key_ne _ _ hm.keysNd pr h⟩
  have hhash_ne : ∀ pr, pr ∈ removeReq s.nodeReqs q → pr.2.hash ≠ rq.hash := by
    intro pr h hc
    obtain ⟨hin, hne⟩ := hrm_mem pr h
    have := List.inj_on_of_nodup_map hm.hashNd hin hrq_mem hc
    rw [this] at hne
    exact hne rfl
  have hmemh2 : memHashes s2.membatch = memHashes s.membatch ++ [rq.hash] := by
    rw [hs2]
    simp only [memHashes, List.map_append, List.map_cons, List.map_nil]
    rw [hd_eq]
  have hswap : ∀ c, c ∈ reqHashes s.nodeReqs →
      c ∈ memHashes s2.membatch ∨ c ∈ reqHashes s2.nodeReqs := by
    intro c hcr
    by_cases hceq : c = rq.hash
    · rw [hmemh2]
      exact Or.inl (List.mem_append_right _ (by simp [hceq]))
    · right
      rw [hs2]
      exact mem_reqHashes_removeReq s.nodeReqs q rq hrq_mem hm.keysNd c hcr hceq
  have hlk2 : ∀ p', p' ≠ q → lookupReq s2.nodeReqs p' = lookupReq s.nodeReqs p' := by
    intro p' hne
    rw [hs2]
    exact lookupReq_removeReq_other s.nodeReqs q p' hne
  refine ⟨?_, ?_, by rw [hs2], by rw [hs2], by rw [hs2], ?_⟩
  · refine
      { keysNd := ?_, hashNd := ?_, freshMem := ?_, freshSt := ?_, dataEq := ?_
        reqReach := ?_, reqCreated := ?_, pathPos := ?_, qSorted := ?_, qReq := ?_
        memNd := ?_, memClosed := ?_, memReach := ?_, rootCov := ?_
        createdNd := ?_, createdReach := ?_, createdCov := ?_
        stNd := hm.stNd, stClosed := hm.stClosed, stProv := hm.stProv
        elemsReq := ?_, elemsNd := hm.elemsNd, qeDisj := ?_, unprocPlaced := ?_
        countEq := ?_, retNd := hm.retNd, retSub := ?_, qFresh := ?_ }
    · rw [hs2]
      exact keys_removeReq_nodup _ _ hm.keysNd
    · rw [hs2]
      exact reqHashes_removeReq_nodup _ _ hm.hashNd
    · intro pr hpr
      rw [hs2] at hpr
      obtain ⟨hin, hne⟩ := hrm_mem pr hpr
      rw [hmemh2]
      intro hc
      rcases List.mem_append.mp hc with h1 | h1
      · exact hm.freshMem pr hin h1
      · rw [List.mem_singleton] at h1
        exact hhash_ne pr hpr h1
    · intro pr hpr
      rw [hs2] at hpr
      exact hm.freshSt pr (hrm_mem pr hpr).1
    · intro pr hpr
      rw [hs2] at hpr
      exact hm.dataEq pr (hrm_mem pr hpr).1
    · intro pr hpr
      rw [hs2] at hpr
      exact hm.reqReach pr (hrm_mem pr hpr).1
    · intro pr hpr
      rw [hs2] at hpr
      rw [hs2]
      exact hm.reqCreated pr (hrm_mem pr hpr).1
    · intro pr hpr
      rw [hs2] at hpr
      exact hm.pathPos pr (hrm_mem pr hpr).1
    · rw [hs2]
      exact hm.qSorted
    · intro p' hp'
      rw [hs2] at hp'
      obtain ⟨r0, hr0, hr0d⟩ := hm.qReq p' hp'
      have hne : p' ≠ q := fun hc => hq_queue (hc ▸ hp')
      refine ⟨r0, ?_, hr0d⟩
      rw [hlk2 p' hne]
      exact hr0
    · rw [hmemh2]
      refine nodup_append_single _ _ hm.memNd ?_
      exact hm.freshMem (q, rq) hrq_mem
    · intro nd hnd c hc
      rw [hmemh2] at hnd ⊢
      rcases List.mem_append.mp hnd with h1 | h1
      · rcases hm.memClosed nd h1 c hc with h2 | h2
        · exact Or.inl (List.mem_append_left _ h2)
        · exact Or.inr h2
      · rw [List.mem_singleton] at h1
        subst h1
        have := eligibleB_true store s.membatch d helig c (by rw [hd_eq]; exact hc)
        rcases this with h2 | h2
        · exact Or.inl (List.mem_append_left _ h2)
        · exact Or.inr h2
    · intro nd hnd
      rw [hmemh2] at hnd
      rcases List.mem_append.mp hnd with h1 | h1
      · exact hm.memReach nd h1
      · rw [List.mem_singleton] at h1
        exact h1 ▸ hm.reqReach (q, rq) hrq_mem
    · rcases hm.rootCov with h1 | h1 | h1
      · rw [hmemh2]
        exact Or.inl (List.mem_append_left _ h1)
      · exact Or.inr (Or.inl h1)
      · rcases hswap root h1 with h2 | h2
        · exact Or.inl h2
        · exact Or.inr (Or.inr h2)
    · rw [hs2]
      exact hm.createdNd
    · intro c hc
      rw [hs2] at hc
      exact hm.createdReach c hc
    · intro c hc
      rw [hs2] at hc
      rcases hm.createdCov c hc with h1 | h1 | h1
      · rcases hswap c h1 with h2 | h2
        · exact Or.inr (Or.inl h2)
        · exact Or.inl h2
      · rw [hmemh2]
        exact Or.inr (Or.inl (List.mem_append_left _ h1))
      · exact Or.inr (Or.inr h1)
    · intro e he
      have hne : e.1 ≠ q := by
        intro hc
        exact hq_elems (hc ▸ List.mem_map.mpr ⟨e, he, rfl⟩)
      rw [hlk2 e.1 hne]
      exact hm.elemsReq e he
    · intro p' hp'
      rw [hs2] at hp'
      exact hm.qeDisj p' hp'
    · intro pr hpr hd
      rw [hs2] at hpr
      rw [hs2]
      exact hm.unprocPlaced pr (hrm_mem pr hpr).1 hd
    · rw [hs2]
      exact hm.countEq
    · intro x hx
      rcases hm.retSub x hx with h1 | h1 | h1
      · rcases hswap x h1 with h2 | h2
        · exact Or.inr (Or.inl h2)
        · exact Or.inl h2
      · rw [hmemh2]
        exact Or.inr (Or.inl (List.mem_append_left _ h1))
      · exact Or.inr (Or.inr h1)
    · intro p' hp' r hr
      rw [hs2] at hp'
      have hne : p' ≠ q := fun hc => hq_queue (hc ▸ hp')
      rw [hs2] at hr
      rw [lookupReq_removeReq_other s.nodeReqs q p' hne] at hr
      exact hm.qFresh p' hp' r hr
  · intro pr hpr d' hd' c hc
    rw [hs2] at hpr
    obtain ⟨hin, hne⟩ := hrm_mem pr hpr
    rcases htr pr hin d' hd' c hc with h1 | h1 | h1
    · rw [hmemh2]
      exact Or.inl (List.mem_append_left _ h1)
    · exact Or.inr (Or.inl h1)
    · rcases hswap c h1 with h2 | h2
      · exact Or.inl h2
      · exact Or.inr (Or.inr h2)
  · rw [hs2]
    simp only []
    have hkq : q ∈ s.nodeReqs.map Prod.fst := List.mem_map.mpr ⟨(q, rq), hrq_mem, rfl⟩
    exact removeReq_length s.nodeReqs q hkq

theorem stageAll_preserves (root : TNode) (S0 : List TNode) (store : List TNode)
    (elems : List (SPath × TNode)) (retP : List (SPath × TNode)) (processed : Nat) :
    ∀ fuel : Nat, ∀ s : Sched, s.nodeReqs.length ≤ fuel →
    MidInv root S0 s store elems retP processed → TrackInv s store →
    MidInv root S0 (stageAll fuel store s) store elems retP processed ∧
    TrackInv (stageAll fuel store s) store ∧
    EligInv (stageAll fuel store s) store ∧
    (stageAll fuel store s).codeReqs = s.codeReqs ∧
    (stageAll fuel store s).codeQueue = s.codeQueue ∧
    (stageAll fuel store s).codeMem = s.codeMem := by
  intro fuel
  induction fuel with
  | zero =>
    intro s hlen hm htr
    have hnil : s.nodeReqs = [] := List.length_eq_zero.mp (by omega)
    rw [stageAll]
    refine ⟨hm, htr, ?_, rfl, rfl, rfl⟩
    intro pr hpr
    rw [hnil] at hpr
    cases hpr
  | succ f ih =>
    intro s hlen hm htr
    rw [stageAll]
    cases hfind : findEligible store s.nodeReqs s.membatch with
    | none =>
      refine ⟨hm, htr, ?_, rfl, rfl, rfl⟩
      exact findEligible_none store s.nodeReqs s.membatch hfind
    | some pd =>
      obtain ⟨q, d⟩ := pd
      obtain ⟨hm2, htr2, hc1, hc2, hc3, hlen2⟩ :=
        stage_step root S0 s store elems retP processed q d hm htr hfind
          { s with nodeReqs := removeReq s.nodeReqs q,
                   membatch := s.membatch ++ [(q, d)] } rfl
      obtain ⟨hm3, htr3, he3, hd1, hd2, hd3⟩ :=
        ih _ (by simp only [] at hlen2 ⊢; omega) hm2 htr2
      exact ⟨hm3, htr3, he3, hd1.trans hc1, hd2.trans hc2, hd3.trans hc3⟩

theorem filter_path_length (elems : List (SPath × TNode)) (p : SPath) (h : TNode)
    (he : (p, h) ∈ elems) (hnd : (elems.map Prod.fst).Nodup) :
    (elems.filter fun e => decide (e.1 ≠ p)).length + 1 = elems.length := by
  induction elems with
  | nil => cases he
  | cons e rest ih =>
    simp only [List.map_cons, List.nodup_cons] at hnd
    rcases List.mem_cons.mp he with h1 | h1
    · subst h1
      rw [List.filter_cons_of_neg (by simp)]
      have : rest.filter (fun e => decide (e.1 ≠ p)) = rest := by
        refine List.filter_eq_self.mpr ?_
        intro a ha
        simp only [decide_eq_true_eq]
        intro hc
        exact hnd.1 (hc ▸ List.mem_map.mpr ⟨a, ha, rfl⟩)
      rw [this]
      simp
    · have hep : e.1 ≠ p := by
        intro hc
        exact hnd.1 (hc ▸ List.mem_map.mpr ⟨(p, h), h1, rfl⟩)
      rw [List.filter_cons_of_pos (by simp [hep])]
      simp only [List.length_cons]
      rw [← ih h1 hnd.2]

theorem mem_filter_path (elems : List (SPath × TNode)) (p : SPath) (e : SPath × TNode) :
    e ∈ elems.filter (fun e => decide (e.1 ≠ p)) ↔ e ∈ elems ∧ e.1 ≠ p := by
  rw [List.mem_filter]
  simp

theorem filter_path_map_mem (elems : List (SPath × TNode)) (p q : SPath)
    (hq : q ∈ elems.map Prod.fst) (hne : q ≠ p) :
    q ∈ (elems.filter (fun e => decide (e.1 ≠ p))).map Prod.fst := by
  rcases List.mem_map.mp hq with ⟨e, he, hq1⟩
  subst hq1
  exact List.mem_map.mpr ⟨e, (mem_filter_path elems p e).mpr ⟨he, hne⟩, rfl⟩

theorem codeInv_congr (s s2 : Sched) (bstore : List Nat) (codeElems : List Nat)
    (retC : List Nat) (h : CodeInv s bstore codeElems retC)
    (e1 : s2.codeReqs = s.codeReqs) (e2 : s2.codeQueue = s.codeQueue)
    (e3 : s2.codeMem = s.codeMem) : CodeInv s2 bstore codeElems retC := by
  cases h
  constructor
  all_goals first
    | assumption
    | (simp only [e1, e2, e3]; assumption)

theorem setData_step (root : TNode) (S0 : List TNode) (s : Sched) (store : List TNode)
    (elems : List (SPath × TNode)) (retP : List (SPath × TNode)) (processed : Nat)
    (p : SPath) (h : TNode)
    (hm : MidInv root S0 s store elems retP processed)
    (htr : TrackInv s store)
    (he : (p, h) ∈ elems)
    (s1 : Sched) (hs1 : s1 = { s with nodeReqs := setData s.nodeReqs p h }) :
    MidInv root S0 s1 store (elems.filter fun e => decide (e.1 ≠ p)) retP (processed + 1) ∧
    TrackInvX s1 store p ∧
    lookupReq s1.nodeReqs p = some ⟨h, some h⟩ ∧
    s1.membatch = s.membatch ∧ s1.codeReqs = s.codeReqs ∧
    s1.codeQueue = s.codeQueue ∧ s1.codeMem = s.codeMem := by
  have hlk : lookupReq s.nodeReqs p = some ⟨h, none⟩ := hm.elemsReq (p, h) he
  have hpe : p ∈ elems.map Prod.fst := List.mem_map.mpr ⟨(p, h), he, rfl⟩
  have hkeys1 : s1.nodeReqs.map Prod.fst = s.nodeReqs.map Prod.fst := by
    rw [hs1]
    exact setData_keys s.nodeReqs p h
  have hhash1 : reqHashes s1.nodeReqs = reqHashes s.nodeReqs := by
    rw [hs1]
    exact setData_hashes s.nodeReqs p h
  have hlk1 : lookupReq s1.nodeReqs p = some ⟨h, some h⟩ := by
    rw [hs1]
    exact lookupReq_setData_self s.nodeReqs p h ⟨h, none⟩ hlk
  have hlko : ∀ q, q ≠ p → lookupReq s1.nodeReqs q = lookupReq s.nodeReqs q := by
    intro q hq
    rw [hs1]
    exact lookupReq_setData_other s.nodeReqs p q h hq
  have hpq : p ∉ s.queue := by
    intro hc
    exact hm.qeDisj p hc hpe
  have hmem1 : ∀ pr, pr ∈ s1.nodeReqs →
      ∃ pr0, pr0 ∈ s.nodeReqs ∧ pr.1 = pr0.1 ∧ pr.2.hash = pr0.2.hash ∧
        (pr.2.data = pr0.2.data ∨ (pr.1 = p ∧ pr.2.data = some h)) := by
    intro pr hpr
    rw [hs1] at hpr
    exact setData_mem s.nodeReqs p h pr hpr
  have hkeyp : ∀ pr, pr ∈ s1.nodeReqs → pr.1 = p → pr.2 = ⟨h, some h⟩ := by
    intro pr hpr hp1
    have hknd : (s1.nodeReqs.map Prod.fst).Nodup := by
      rw [hkeys1]
      exact hm.keysNd
    have : lookupReq s1.nodeReqs pr.1 = some pr.2 := by
      refine mem_lookupReq s1.nodeReqs pr.1 pr.2 hknd ?_
      cases pr
      exact hpr
    rw [hp1, hlk1] at this
    exact (Option.some.inj this).symm
  refine ⟨?_, ?_, hlk1, by rw [hs1], by rw [hs1], by rw [hs1], by rw [hs1]⟩
  · refine
      { keysNd := by rw [hkeys1]; exact hm.keysNd
        hashNd := by rw [hhash1]; exact hm.hashNd
        freshMem := ?_, freshSt := ?_, dataEq := ?_
        reqReach := ?_, reqCreated := ?_, pathPos := ?_
        qSorted := by rw [hs1]; exact hm.qSorted
        qReq := ?_
        memNd := by rw [hs1]; exact hm.memNd
        memClosed := by rw [hs1]; exact hm.memClosed
        memReach := by rw [hs1]; exact hm.memReach
        rootCov := ?_
        createdNd := by rw [hs1]; exact hm.createdNd
        createdReach := by rw [hs1]; exact hm.createdReach
        createdCov := ?_
        stNd := hm.stNd, stClosed := hm.stClosed, stProv := hm.stProv
        elemsReq := ?_, elemsNd := ?_, qeDisj := ?_, unprocPlaced := ?_
        countEq := ?_, retNd := hm.retNd, retSub := ?_, qFresh := ?_ }
    · intro pr hpr
      obtain ⟨pr0, hin, _, hh, _⟩ := hmem1 pr hpr
      rw [hs1, hh]
      exact hm.freshMem pr0 hin
    · intro pr hpr
      obtain ⟨pr0, hin, _, hh, _⟩ := hmem1 pr hpr
      rw [hh]
      exact hm.freshSt pr0 hin
    · intro pr hpr
      obtain ⟨pr0, hin, hk, hh, hd⟩ := hmem1 pr hpr
      rcases hd with hd | ⟨hkp, hd⟩
      · rcases hm.dataEq pr0 hin with h1 | h1
        · exact Or.inl (hd.trans h1)
        · exact Or.inr (by rw [hd, h1, hh])
      · have := hkeyp pr hpr hkp
        right
        rw [hd, this]
    · intro pr hpr
      obtain ⟨pr0, hin, _, hh, _⟩ := hmem1 pr hpr
      rw [hh]
      exact hm.reqReach pr0 hin
    · intro pr hpr
      obtain ⟨pr0, hin, _, hh, _⟩ := hmem1 pr hpr
      rw [hs1, hh]
      exact hm.reqCreated pr0 hin
    · intro pr hpr
      obtain ⟨pr0, hin, hk, hh, _⟩ := hmem1 pr hpr
      rw [hk, hh]
      exact hm.pathPos pr0 hin
    · intro q hq
      rw [hs1] at hq
      have hqp : q ≠ p := fun hc => hpq (hc ▸ hq)
      obtain ⟨r0, hr0, hr0d⟩ := hm.qReq q hq
      refine ⟨r0, ?_, hr0d⟩
      rw [hlko q hqp]
      exact hr0
    · rw [hs1]
      simp only []
      rw [setData_hashes s.nodeReqs p h]
      exact hm.rootCov
    · intro c hc
      rw [hs1] at hc
      rw [hs1]
      simp only []
      rw [setData_hashes s.nodeReqs p h]
      exact hm.createdCov c hc
    · intro e hee
      obtain ⟨hein, hene⟩ := (mem_filter_path elems p e).mp hee
      rw [hlko e.1 hene]
      exact hm.elemsReq e hein
    · exact hm.elemsNd.sublist ((List.filter_sublist elems).map _)
    · intro q hq
      rw [hs1] at hq
      intro hc
      rcases List.mem_map.mp hc with ⟨e, hef, heq⟩
      have := (mem_filter_path elems p e).mp hef
      exact hm.qeDisj q hq (heq ▸ List.mem_map.mpr ⟨e, this.1, rfl⟩)
    · intro pr hpr hdn
      have hknd : pr.1 ≠ p := by
        intro hc
        have := hkeyp pr hpr hc
        rw [this] at hdn
        cases hdn
      obtain ⟨pr0, hin, hk, hh, hd⟩ := hmem1 pr hpr
      rcases hd with hd | ⟨hkp, _⟩
      · rcases hm.unprocPlaced pr0 hin (by rw [← hd, hdn]) with h1 | h1
        · rw [hs1]
          exact Or.inl (by rw [hk]; exact h1)
        · right
          rw [hk]
          exact filter_path_map_mem elems p pr0.1 h1 (hk ▸ hknd)
      · exact absurd hkp hknd
    · rw [hs1]
      simp only []
      have h1 := filter_path_length elems p h he hm.elemsNd
      have h2 := hm.countEq
      omega
    · intro x hx
      rw [hs1]
      simp only []
      rw [setData_hashes s.nodeReqs p h]
      exact hm.retSub x hx
    · intro q hq r hr
      rw [hs1] at hq
      have hqp : q ≠ p := fun hc => hpq (hc ▸ hq)
      rw [hlko q hqp] at hr
      exact hm.qFresh q hq r hr
  · intro pr hpr hne d hd c hc
    obtain ⟨pr0, hin, hk, hh, hdo⟩ := hmem1 pr hpr
    rcases hdo with hdo | ⟨hkp, _⟩
    · have := htr pr0 hin d (by rw [← hdo, hd]) c hc
      rw [hs1]
      simp only []
      rw [setData_hashes s.nodeReqs p h]
      exact this
    · exact absurd hkp hne

theorem processNode_preserves (root : TNode) (S0 : List TNode) (s : Sched)
    (store : List TNode) (bstore : List Nat) (elems : List (SPath × TNode))
    (codeElems : List Nat) (retP : List (SPath × TNode)) (retC : List Nat)
    (processed : Nat) (p : SPath) (h : TNode)
    (hwf : wfT root = true)
    (hm : MidInv root S0 s store elems retP processed)
    (hcv : CodeInv s bstore codeElems retC)
    (htr : TrackInv s store)
    (he : (p, h) ∈ elems) :
    ∃ s4, ProcessNode store bstore s p h = .ok s4 ∧
      MidInv root S0 s4 store (elems.filter fun e => decide (e.1 ≠ p)) retP (processed + 1) ∧
      CodeInv s4 bstore codeElems retC ∧
      TrackInv s4 store ∧ EligInv s4 store := by
  have hlk : lookupReq s.nodeReqs p = some ⟨h, none⟩ := hm.elemsReq (p, h) he
  have hpmem : (p, (⟨h, none⟩ : NodeReq)) ∈ s.nodeReqs := lookupReq_mem _ _ _ hlk
  have hpp := hm.pathPos (p, ⟨h, none⟩) hpmem
  have hpi : p.inner = [] := hpp.1
  have hpos : nodeAt root p.outer = some h := hpp.2
  have hsub : h ∈ subtreesL root := hm.reqReach (p, ⟨h, none⟩) hpmem
  obtain ⟨hm1, htx1, hlk1, hmb1, hcr1, hcq1, hcm1⟩ :=
    setData_step root S0 s store elems retP processed p h hm htr he
      { s with nodeReqs := setData s.nodeReqs p h } rfl
  obtain ⟨hm2, htx2, hmb2, hlkp2, hrh2, htrk2, hc2a, hc2b, hc2c⟩ :=
    scheduleFold root S0 store (elems.filter fun e => decide (e.1 ≠ p)) retP
      (processed + 1) p h hwf hpi hpos hsub h.kids (fun k hk => hk)
      { s with nodeReqs := setData s.nodeReqs p h } hm1 htx1
  set s2 : Sched :=
    h.kids.foldl (fun acc k => scheduleChild store p acc k.1 k.2)
      { s with nodeReqs := setData s.nodeReqs p h } with hs2def
  have hcv2 : CodeInv s2 bstore codeElems retC :=
    codeInv_congr _ _ _ _ _ hcv (hc2a.trans hcr1) (hc2b.trans hcq1) (hc2c.trans hcm1)
  obtain ⟨hcv3, hn3, hq3, hmb3, hcr3⟩ :=
    scheduleCodeFold bstore codeElems retC h.blobs s2 hcv2
  set s3 : Sched := h.blobs.foldl (fun acc hb => scheduleCode bstore acc hb) s2 with hs3def
  have hm3 : MidInv root S0 s3 store (elems.filter fun e => decide (e.1 ≠ p)) retP
      (processed + 1) :=
    midInv_congr root S0 s2 s3 store _ retP (processed + 1) hm2 hn3 hq3 hmb3 hcr3
  have hlkp3 : lookupReq s3.nodeReqs p = some ⟨h, some h⟩ := by
    rw [hn3]
    exact hlkp2 p ⟨h, some h⟩ hlk1
  have htx3 : TrackInvX s3 store p := by
    intro pr hpr hne d hd c hc
    rw [hn3] at hpr
    have := htx2 pr hpr hne d hd c hc
    rw [hmb3, hn3]
    exact this
  have htrk3 : ∀ k ∈ h.kids,
      k.2 ∈ memHashes s3.membatch ∨ k.2 ∈ store ∨ k.2 ∈ reqHashes s3.nodeReqs := by
    intro k hk
    rw [hmb3, hn3]
    exact htrk2 k hk
  have htr3 : TrackInv s3 store := by
    intro pr hpr d hd c hc
    by_cases hkey : pr.1 = p
    · have hlkpr : lookupReq s3.nodeReqs pr.1 = some pr.2 := by
        refine mem_lookupReq s3.nodeReqs pr.1 pr.2 hm3.keysNd ?_
        cases pr
        exact hpr
      rw [hkey, hlkp3] at hlkpr
      have hpr2 : pr.2 = ⟨h, some h⟩ := (Option.some.inj hlkpr).symm
      rw [hpr2] at hd
      simp only at hd
      cases hd
      simp only [kidsHashes, List.mem_map] at hc
      obtain ⟨k, hk, hkc⟩ := hc
      exact hkc ▸ htrk3 k hk
    · exact htx3 pr hpr hkey d hd c hc
  obtain ⟨hm4, htr4, hel4, he4a, he4b, he4c⟩ :=
    stageAll_preserves root S0 store (elems.filter fun e => decide (e.1 ≠ p)) retP
      (processed + 1) s3.nodeReqs.length s3 le_rfl hm3 htr3
  have hcv4 : CodeInv (stageAll s3.nodeReqs.length store s3) bstore codeElems retC :=
    codeInv_congr _ _ _ _ _ hcv3 he4a he4b he4c
  refine ⟨stageAll s3.nodeReqs.length store s3, ?_, hm4, hcv4, htr4, hel4⟩
  rw [ProcessNode, hlk]
  simp [keccak, hs3def, hs2def]

theorem filter_notmem_cons (elems : List (SPath × TNode)) (c : SPath) (cs : List SPath) :
    elems.filter (fun e => decide (e.1 ∉ c :: cs)) =
      (elems.filter (fun e => decide (e.1 ≠ c))).filter (fun e => decide (e.1 ∉ cs)) := by
  rw [List.filter_filter]
  refine List.filter_congr ?_
  intro e he
  by_cases h1 : e.1 = c
  · simp [h1]
  · by_cases h2 : e.1 ∈ cs
    · simp [h1, h2]
    · simp [h1, h2]

theorem processList_preserves (root : TNode) (S0 : List TNode) (store : List TNode)
    (bstore : List Nat) (retP : List (SPath × TNode)) (retC : List Nat)
    (hwf : wfT root = true) :
    ∀ chosen : List (SPath × TNode), ∀ s : Sched, ∀ elems : List (SPath × TNode),
    ∀ codeElems : List Nat, ∀ processed : Nat,
    MidInv root S0 s store elems retP processed →
    CodeInv s bstore codeElems retC →
    TrackInv s store → EligInv s store →
    (∀ e ∈ chosen, e ∈ elems) → (chosen.map Prod.fst).Nodup →
    ∃ s2, processList store bstore chosen s = .ok s2 ∧
      MidInv root S0 s2 store
        (elems.filter fun e => decide (e.1 ∉ chosen.map Prod.fst)) retP
        (processed + chosen.length) ∧
      CodeInv s2 bstore codeElems retC ∧
      TrackInv s2 store ∧ EligInv s2 store := by
  intro chosen
  induction chosen with
  | nil =>
    intro s elems codeElems processed hm hcv htr hel _ _
    refine ⟨s, rfl, ?_, hcv, htr, hel⟩
    have : elems.filter (fun e => decide (e.1 ∉ ([] : List (SPath × TNode)).map Prod.fst))
        = elems := by
      refine List.filter_eq_self.mpr ?_
      intro a _
      simp
    rw [this]
    simpa using hm
  | cons c rest ih =>
    intro s elems codeElems processed hm hcv htr hel hsub hnd
    simp only [List.map_cons, List.nodup_cons] at hnd
    obtain ⟨s1, heq1, hm1, hcv1, htr1, hel1⟩ :=
      processNode_preserves root S0 s store bstore elems codeElems retP retC
        processed c.1 c.2 hwf hm hcv htr
        (by have := hsub c (by simp); cases c; exact this)
    have hrest : ∀ e ∈ rest, e ∈ elems.filter fun e => decide (e.1 ≠ c.1) := by
      intro e hee
      refine (mem_filter_path elems c.1 e).mpr ⟨hsub e (List.mem_cons_of_mem _ hee), ?_⟩
      intro hc
      exact hnd.1 (hc ▸ List.mem_map.mpr ⟨e, hee, rfl⟩)
    obtain ⟨s2, heq2, hm2, hcv2, htr2, hel2⟩ :=
      ih s1 (elems.filter fun e => decide (e.1 ≠ c.1)) codeElems (processed + 1)
        hm1 hcv1 htr1 hel1 hrest hnd.2
    refine ⟨s2, ?_, ?_, hcv2, htr2, hel2⟩
    · simp only [processList, heq1]
      exact heq2
    · rw [List.map_cons, filter_notmem_cons]
      have harith : processed + 1 + rest.length = processed + (rest.length + 1) := by omega
      rw [List.length_cons, ← harith]
      exact hm2

theorem processCode_step (s : Sched) (bstore : List Nat) (h : Nat) (rest : List Nat)
    (retC : List Nat) (hcv : CodeInv s bstore (h :: rest) retC) :
    ∃ s2, ProcessCode s h = .ok s2 ∧ CodeInv s2 bstore rest retC ∧
      s2.nodeReqs = s.nodeReqs ∧ s2.queue = s.queue ∧
      s2.membatch = s.membatch ∧ s2.created = s.created ∧
      s2.codeQueue = s.codeQueue := by
  have hh : h ∈ s.codeReqs := hcv.ceSub h (by simp)
  refine ⟨{ s with codeReqs := s.codeReqs.erase h, codeMem := s.codeMem ++ [h] },
    ?_, ?_, rfl, rfl, rfl, rfl, rfl⟩
  · rw [ProcessCode, if_pos hh]
  · have hmem_erase : ∀ x, x ∈ s.codeReqs.erase h ↔ x ≠ h ∧ x ∈ s.codeReqs :=
      fun x => List.Nodup.mem_erase_iff hcv.crNd
    have hqh : h ∉ s.codeQueue := hcv.ceQDisj h (by simp)
    have hndce := List.nodup_cons.mp hcv.ceNd
    refine
      { crNd := hcv.crNd.erase h
        cqNd := hcv.cqNd
        cqSub := ?_, crFreshMem := ?_, crFreshB := ?_
        ceSub := ?_, ceQDisj := ?_, ceNd := hndce.2
        crPlaced := ?_, retCNd := hcv.retCNd, retCSub := ?_, cqFresh := ?_ }
    · intro x hx
      exact (hmem_erase x).mpr ⟨fun hxh => hqh (hxh ▸ hx), hcv.cqSub x hx⟩
    · intro x hx
      obtain ⟨hxh, hxr⟩ := (hmem_erase x).mp hx
      intro hmem
      rcases List.mem_append.mp hmem with hm1 | hm1
      · exact hcv.crFreshMem x hxr hm1
      · exact hxh (List.mem_singleton.mp hm1)
    · intro x hx
      exact hcv.crFreshB x ((hmem_erase x).mp hx).2
    · intro x hx
      refine (hmem_erase x).mpr ⟨fun hxh => hndce.1 (hxh ▸ hx), ?_⟩
      exact hcv.ceSub x (List.mem_cons_of_mem _ hx)
    · intro x hx
      exact hcv.ceQDisj x (List.mem_cons_of_mem _ hx)
    · intro x hx
      obtain ⟨hxh, hxr⟩ := (hmem_erase x).mp hx
      rcases hcv.crPlaced x hxr with hq | he
      · exact Or.inl hq
      · rcases List.mem_cons.mp he with hc | hc
        · exact absurd hc hxh
        · exact Or.inr hc
    · intro x hx
      rcases hcv.retCSub x hx with hr | hr | hr
      · by_cases hxh : x = h
        · exact Or.inr (Or.inl (List.mem_append.mpr (Or.inr (by simp [hxh]))))
        · exact Or.inl ((hmem_erase x).mpr ⟨hxh, hr⟩)
      · exact Or.inr (Or.inl (List.mem_append.mpr (Or.inl hr)))
      · exact Or.inr (Or.inr hr)
    · intro x hx
      exact hcv.cqFresh x hx

theorem processCodes_preserves (bstore : List Nat) (retC : List Nat) :
    ∀ codeElems : List Nat, ∀ s : Sched,
    CodeInv s bstore codeElems retC →
    ∃ s2, processCodes codeElems s = .ok s2 ∧ CodeInv s2 bstore [] retC ∧
      s2.nodeReqs = s.nodeReqs ∧ s2.queue = s.queue ∧
      s2.membatch = s.membatch ∧ s2.created = s.created ∧
      s2.codeQueue = s.codeQueue := by
  intro codeElems
  induction codeElems with
  | nil =>
    intro s hcv
    exact ⟨s, rfl, hcv, rfl, rfl, rfl, rfl, rfl⟩
  | cons h rest ih =>
    intro s hcv
    obtain ⟨s1, heq1, hcv1, hn1, hq1, hb1, hc1, hcq1⟩ := processCode_step s bstore h rest retC hcv
    obtain ⟨s2, heq2, hcv2, hn2, hq2, hb2, hc2, hcq2⟩ := ih s1 hcv1
    refine ⟨s2, ?_, hcv2, hn2.trans hn1, hq2.trans hq1, hb2.trans hb1, hc2.trans hc1,
      hcq2.trans hcq1⟩
    simp only [processCodes, heq1]
    exact heq2

theorem eligibleB_false_intro (store : List TNode) (mb : List (SPath × TNode)) (d : TNode)
    (c : TNode) (hc : c ∈ kidsHashes d) (h1 : c ∉ memHashes mb) (h2 : c ∉ store) :
    eligibleB store mb d = false := by
  rw [eligibleB]
  refine List.all_eq_false.mpr ?_
  simp only [kidsHashes, List.mem_map] at hc
  obtain ⟨k, hk, hkc⟩ := hc
  exact ⟨k, hk, by simp [hkc, h1, h2]⟩

theorem commit_preserves (root : TNode) (S0 : List TNode) (s : Sched)
    (store : List TNode) (bstore : List Nat) (elems : List (SPath × TNode))
    (codeElems : List Nat) (retP : List (SPath × TNode)) (retC : List Nat)
    (processed : Nat)
    (hm : MidInv root S0 s store elems retP processed)
    (hcv : CodeInv s bstore codeElems retC)
    (htr : TrackInv s store) (hel : EligInv s store) :
    MidInv root S0 (Commit s store bstore).1 (Commit s store bstore).2.1 elems
        retP processed ∧
    CodeInv (Commit s store bstore).1 (Commit s store bstore).2.2 codeElems retC ∧
    TrackInv (Commit s store bstore).1 (Commit s store bstore).2.1 ∧
    EligInv (Commit s store bstore).1 (Commit s store bstore).2.1 ∧
    (Commit s store bstore).1.membatch = [] ∧
    (Commit s store bstore).1.codeMem = [] ∧
    (Commit s store bstore).1.queue = s.queue ∧
    (Commit s store bstore).1.codeQueue = s.codeQueue ∧
    (Commit s store bstore).1.nodeReqs = s.nodeReqs ∧
    (Commit s store bstore).1.created = s.created ∧
    (∀ x ∈ store, x ∈ (Commit s store bstore).2.1) ∧
    (∀ x ∈ (Commit s store bstore).2.1, x ∈ store ∨ x ∈ memHashes s.membatch) := by
  have hstm : ∀ x : TNode,
      x ∈ (Commit s store bstore).2.1 ↔ x ∈ store ∨ x ∈ memHashes s.membatch :=
    fun x => foldIns_mem s.membatch store x
  have hbsm : ∀ x : Nat,
      x ∈ (Commit s store bstore).2.2 ↔ x ∈ bstore ∨ x ∈ s.codeMem :=
    fun x => foldInsNat_mem s.codeMem bstore x
  refine ⟨?_, ?_, ?_, ?_, rfl, rfl, rfl, rfl, rfl, rfl,
    fun x hx => (hstm x).mpr (Or.inl hx), fun x hx => (hstm x).mp hx⟩
  · refine
      { keysNd := hm.keysNd, hashNd := hm.hashNd
        freshMem := ?_, freshSt := ?_
        dataEq := hm.dataEq, reqReach := hm.reqReach, reqCreated := hm.reqCreated
        pathPos := hm.pathPos, qSorted := hm.qSorted, qReq := hm.qReq
        memNd := ?_, memClosed := ?_, memReach := ?_, rootCov := ?_
        createdNd := hm.createdNd, createdReach := hm.createdReach, createdCov := ?_
        stNd := ?_, stClosed := ?_, stProv := ?_
        elemsReq := hm.elemsReq, elemsNd := hm.elemsNd, qeDisj := hm.qeDisj
        unprocPlaced := hm.unprocPlaced, countEq := hm.countEq
        retNd := hm.retNd, retSub := ?_, qFresh := hm.qFresh }
    · intro pr hpr
      simp [Commit, memHashes]
    · intro pr hpr hx
      rcases (hstm _).mp hx with hx1 | hx1
      · exact hm.freshSt pr hpr hx1
      · exact hm.freshMem pr hpr hx1
    · simp [Commit, memHashes]
    · intro nd hnd
      simp [Commit, memHashes] at hnd
    · intro nd hnd
      simp [Commit, memHashes] at hnd
    · rcases hm.rootCov with h1 | h1 | h1
      · exact Or.inr (Or.inl ((hstm _).mpr (Or.inr h1)))
      · exact Or.inr (Or.inl ((hstm _).mpr (Or.inl h1)))
      · exact Or.inr (Or.inr h1)
    · intro c hc
      rcases hm.createdCov c hc with h1 | h1 | h1
      · exact Or.inl h1
      · exact Or.inr (Or.inr ((hstm _).mpr (Or.inr h1)))
      · exact Or.inr (Or.inr ((hstm _).mpr (Or.inl h1)))
    · exact foldIns_nodup s.membatch store hm.stNd
    · intro nd hnd c hc
      rcases (hstm _).mp hnd with h1 | h1
      · exact (hstm _).mpr (Or.inl (hm.stClosed nd h1 c hc))
      · rcases hm.memClosed nd h1 c hc with h2 | h2
        · exact (hstm _).mpr (Or.inr h2)
        · exact (hstm _).mpr (Or.inl h2)
    · intro nd hnd
      rcases (hstm _).mp hnd with h1 | h1
      · exact hm.stProv nd h1
      · exact Or.inr (hm.memReach nd h1)
    · intro h hh
      rcases hm.retSub h hh with h1 | h1 | h1
      · exact Or.inl h1
      · exact Or.inr (Or.inr ((hstm _).mpr (Or.inr h1)))
      · exact Or.inr (Or.inr ((hstm _).mpr (Or.inl h1)))
  · refine
      { crNd := hcv.crNd, cqNd := hcv.cqNd, cqSub := hcv.cqSub
        crFreshMem := ?_, crFreshB := ?_
        ceSub := hcv.ceSub, ceQDisj := hcv.ceQDisj, ceNd := hcv.ceNd
        crPlaced := hcv.crPlaced, retCNd := hcv.retCNd, retCSub := ?_
        cqFresh := hcv.cqFresh }
    · intro h hh
      simp [Commit]
    · intro h hh hx
      rcases (hbsm _).mp hx with h1 | h1
      · exact hcv.crFreshB h hh h1
      · exact hcv.crFreshMem h hh h1
    · intro h hh
      rcases hcv.retCSub h hh with h1 | h1 | h1
      · exact Or.inl h1
      · exact Or.inr (Or.inr ((hbsm _).mpr (Or.inr h1)))
      · exact Or.inr (Or.inr ((hbsm _).mpr (Or.inl h1)))
  · intro pr hpr d hd c hc
    rcases htr pr hpr d hd c hc with h1 | h1 | h1
    · exact Or.inr (Or.inl ((hstm _).mpr (Or.inr h1)))
    · exact Or.inr (Or.inl ((hstm _).mpr (Or.inl h1)))
    · exact Or.inr (Or.inr h1)
  · intro pr hpr d hd
    obtain ⟨c, hc, hc1, hc2⟩ := eligibleB_false (store) s.membatch d (hel pr hpr d hd)
    refine eligibleB_false_intro _ _ d c hc (by simp [Commit, memHashes]) ?_
    intro hx
    rcases (hstm _).mp hx with h1 | h1
    · exact hc2 h1
    · exact hc1 h1

theorem qSorted_nodup (l : List SPath)
    (h : l.Pairwise (fun a b => pathLtb a b = true)) : l.Nodup := by
  refine h.imp ?_
  intro a b hab
  intro he
  subst he
  rw [pathLtb_irrefl] at hab
  exact Bool.false_ne_true hab

theorem nodup_take_drop {α : Type} (l : List α) (h : l.Nodup) (n : Nat) (x : α)
    (hx1 : x ∈ l.take n) (hx2 : x ∈ l.drop n) : False := by
  rw [← List.take_append_drop n l, List.nodup_append] at h
  exact h.2.2 hx1 hx2

theorem missing_pairs_char (rs : List (SPath × NodeReq)) :
    ∀ l : List SPath,
    (∀ p ∈ l, ∃ r, lookupReq rs p = some r ∧ r.data = none) →
    (l.filterMap (fun p => (lookupReq rs p).map (fun r => (p, r.hash)))).map Prod.fst
        = l ∧
    ∀ e ∈ l.filterMap (fun p => (lookupReq rs p).map (fun r => (p, r.hash))),
      lookupReq rs e.1 = some ⟨e.2, none⟩ := by
  intro l
  induction l with
  | nil => exact fun _ => ⟨rfl, fun e he => absurd he (by simp)⟩
  | cons p ps ih =>
    intro hl
    obtain ⟨r, hr, hd⟩ := hl p (by simp)
    obtain ⟨ih1, ih2⟩ := ih (fun q hq => hl q (List.mem_cons_of_mem _ hq))
    have hfc : (p :: ps).filterMap (fun q => (lookupReq rs q).map (fun r => (q, r.hash)))
        = (p, r.hash) ::
          ps.filterMap (fun q => (lookupReq rs q).map (fun r => (q, r.hash))) := by
      rw [List.filterMap_cons]
      simp [hr]
    rw [hfc]
    constructor
    · simp [ih1]
    · intro e he
      rcases List.mem_cons.mp he with he1 | he1
      · subst he1
        cases r with
        | mk h0 d0 =>
          obtain rfl : d0 = none := hd
          exact hr
      · exact ih2 e he1

theorem lookup_hash_inj (rs : List (SPath × NodeReq)) (hnd : (reqHashes rs).Nodup)
    (p1 p2 : SPath) (r1 r2 : NodeReq) (h1 : lookupReq rs p1 = some r1)
    (h2 : lookupReq rs p2 = some r2) (hne : p1 ≠ p2) : r1.hash ≠ r2.hash := by
  intro hh
  have hm1 := lookupReq_mem rs p1 r1 h1
  have hm2 := lookupReq_mem rs p2 r2 h2
  rw [reqHashes] at hnd
  have := List.inj_on_of_nodup_map hnd hm1 hm2 hh
  exact hne (congrArg Prod.fst this)

theorem pairs_snd_nodup (rs : List (SPath × NodeReq)) (hnd : (reqHashes rs).Nodup) :
    ∀ ps : List (SPath × TNode),
    (∀ e ∈ ps, lookupReq rs e.1 = some ⟨e.2, none⟩) →
    (ps.map Prod.fst).Nodup → (ps.map Prod.snd).Nodup := by
  intro ps
  induction ps with
  | nil => exact fun _ _ => by simp
  | cons e rest ih =>
    intro hlook hfstNd
    simp only [List.map_cons, List.nodup_cons] at hfstNd ⊢
    refine ⟨?_, ih (fun x hx => hlook x (List.mem_cons_of_mem _ hx)) hfstNd.2⟩
    intro hmem
    obtain ⟨x, hx, hxe⟩ := List.mem_map.mp hmem
    have h1 := hlook e (by simp)
    have h2 := hlook x (List.mem_cons_of_mem _ hx)
    have hne : e.1 ≠ x.1 := fun h => hfstNd.1 (h ▸ List.mem_map_of_mem _ hx)
    exact lookup_hash_inj rs hnd e.1 x.1 ⟨e.2, none⟩ ⟨x.2, none⟩ h1 h2 hne hxe.symm

theorem missing_core (root : TNode) (S0 : List TNode) (s : Sched)
    (store : List TNode) (bstore : List Nat) (elems : List (SPath × TNode))
    (codeElems : List Nat) (retP : List (SPath × TNode)) (retC : List Nat)
    (processed : Nat) (n nc : Nat)
    (hm : MidInv root S0 s store elems retP processed)
    (hcv : CodeInv s bstore codeElems retC)
    (htr : TrackInv s store) (hel : EligInv s store) :
    MidInv root S0 { s with queue := s.queue.drop n, codeQueue := s.codeQueue.drop nc }
        store
        (elems ++ (s.queue.take n).filterMap
          (fun p => (lookupReq s.nodeReqs p).map (fun r => (p, r.hash))))
        (retP ++ (s.queue.take n).filterMap
          (fun p => (lookupReq s.nodeReqs p).map (fun r => (p, r.hash))))
        processed ∧
    CodeInv { s with queue := s.queue.drop n, codeQueue := s.codeQueue.drop nc }
        bstore (codeElems ++ s.codeQueue.take nc) (retC ++ s.codeQueue.take nc) ∧
    TrackInv { s with queue := s.queue.drop n, codeQueue := s.codeQueue.drop nc } store ∧
    EligInv { s with queue := s.queue.drop n, codeQueue := s.codeQueue.drop nc } store := by
  obtain ⟨hfst, hlook⟩ := missing_pairs_char s.nodeReqs (s.queue.take n)
    (fun p hp => hm.qReq p (List.mem_of_mem_take hp))
  have hqnodup : s.queue.Nodup := qSorted_nodup _ hm.qSorted
  have hlen : ((s.queue.take n).filterMap
      (fun p => (lookupReq s.nodeReqs p).map (fun r => (p, r.hash)))).length
      = (s.queue.take n).length := by
    have h0 := congrArg List.length hfst
    rw [List.length_map] at h0
    exact h0
  have htkNd : (s.queue.take n).Nodup := hqnodup.sublist (List.take_sublist n _)
  have hpairsNd : (((s.queue.take n).filterMap
      (fun p => (lookupReq s.nodeReqs p).map (fun r => (p, r.hash)))).map
        Prod.snd).Nodup :=
    pairs_snd_nodup s.nodeReqs hm.hashNd _ hlook (by rw [hfst]; exact htkNd)
  refine ⟨?_, ?_, htr, hel⟩
  · refine
      { keysNd := hm.keysNd, hashNd := hm.hashNd
        freshMem := hm.freshMem, freshSt := hm.freshSt
        dataEq := hm.dataEq, reqReach := hm.reqReach, reqCreated := hm.reqCreated
        pathPos := hm.pathPos
        qSorted := hm.qSorted.sublist (List.drop_sublist n _)
        qReq := fun p hp => hm.qReq p (List.mem_of_mem_drop hp)
        memNd := hm.memNd, memClosed := hm.memClosed, memReach := hm.memReach
        rootCov := hm.rootCov
        createdNd := hm.createdNd, createdReach := hm.createdReach
        createdCov := hm.createdCov
        stNd := hm.stNd, stClosed := hm.stClosed, stProv := hm.stProv
        elemsReq := ?_, elemsNd := ?_, qeDisj := ?_
        unprocPlaced := ?_, countEq := ?_
        retNd := ?_, retSub := ?_, qFresh := ?_ }
    · intro e he
      rcases List.mem_append.mp he with h1 | h1
      · exact hm.elemsReq e h1
      · exact hlook e h1
    · rw [List.map_append, hfst, List.nodup_append]
      refine ⟨hm.elemsNd, htkNd, ?_⟩
      intro a ha hat
      exact hm.qeDisj a (List.mem_of_mem_take hat) ha
    · intro p hp
      rw [List.map_append, hfst, List.mem_append]
      rintro (h1 | h1)
      · exact hm.qeDisj p (List.mem_of_mem_drop hp) h1
      · exact nodup_take_drop s.queue hqnodup n p h1 hp
    · intro pr hpr hd
      rw [List.map_append, hfst]
      rcases hm.unprocPlaced pr hpr hd with h1 | h1
      · rw [← List.take_append_drop n s.queue, List.mem_append] at h1
        rcases h1 with h2 | h2
        · exact Or.inr (List.mem_append.mpr (Or.inr h2))
        · exact Or.inl h2
      · exact Or.inr (List.mem_append.mpr (Or.inl h1))
    · simp only [List.length_append, hlen]
      have h2 : (s.queue.take n).length + (s.queue.drop n).length = s.queue.length := by
        rw [← List.length_append, List.take_append_drop]
      have h3 := hm.countEq
      omega
    · rw [List.map_append, List.nodup_append]
      refine ⟨hm.retNd, hpairsNd, ?_⟩
      intro a ha hap
      obtain ⟨e, he, hea⟩ := List.mem_map.mp hap
      have h1 := hlook e he
      have hq : e.1 ∈ s.queue := by
        have : e.1 ∈ s.queue.take n := by
          rw [← hfst]
          exact List.mem_map_of_mem _ he
        exact List.mem_of_mem_take this
      have := hm.qFresh e.1 hq ⟨e.2, none⟩ h1
      exact this (hea ▸ ha)
    · intro h hh
      rw [List.map_append, List.mem_append] at hh
      rcases hh with h1 | h1
      · exact hm.retSub h h1
      · obtain ⟨e, he, hea⟩ := List.mem_map.mp h1
        have h2 := hlook e he
        have h3 := lookupReq_mem _ _ _ h2
        refine Or.inl ?_
        rw [reqHashes]
        subst hea
        exact List.mem_map.mpr ⟨(e.1, ⟨e.2, none⟩), h3, rfl⟩
    · intro p hp r hr
      rw [List.map_append, List.mem_append]
      rintro (h1 | h1)
      · exact hm.qFresh p (List.mem_of_mem_drop hp) r hr h1
      · obtain ⟨e, he, hea⟩ := List.mem_map.mp h1
        have h2 := hlook e he
        have hq : e.1 ∈ s.queue.take n := by
          rw [← hfst]
          exact List.mem_map_of_mem _ he
        have hne : p ≠ e.1 := by
          intro hpe
          exact nodup_take_drop s.queue hqnodup n p (hpe ▸ hq) hp
        exact lookup_hash_inj s.nodeReqs hm.hashNd p e.1 r ⟨e.2, none⟩ hr h2 hne hea.symm
  · have hcd : ∀ x ∈ s.codeQueue.take nc, x ∈ s.codeQueue :=
      fun x hx => List.mem_of_mem_take hx
    refine
      { crNd := hcv.crNd
        cqNd := hcv.cqNd.sublist (List.drop_sublist nc _)
        cqSub := fun h hh => hcv.cqSub h (List.mem_of_mem_drop hh)
        crFreshMem := hcv.crFreshMem, crFreshB := hcv.crFreshB
        ceSub := ?_, ceQDisj := ?_, ceNd := ?_
        crPlaced := ?_, retCNd := ?_, retCSub := ?_, cqFresh := ?_ }
    · intro h hh
      rcases List.mem_append.mp hh with h1 | h1
      · exact hcv.ceSub h h1
      · exact hcv.cqSub h (hcd h h1)
    · intro h hh
      rcases List.mem_append.mp hh with h1 | h1
      · exact fun hq => hcv.ceQDisj h h1 (List.mem_of_mem_drop hq)
      · exact fun hq => nodup_take_drop s.codeQueue hcv.cqNd nc h h1 hq
    · rw [List.nodup_append]
      refine ⟨hcv.ceNd, hcv.cqNd.sublist (List.take_sublist nc _), ?_⟩
      intro a ha hat
      exact hcv.ceQDisj a ha (hcd a hat)
    · intro h hh
      rcases hcv.crPlaced h hh with h1 | h1
      · rw [← List.take_append_drop nc s.codeQueue, List.mem_append] at h1
        rcases h1 with h2 | h2
        · exact Or.inr (List.mem_append.mpr (Or.inr h2))
        · exact Or.inl h2
      · exact Or.inr (List.mem_append.mpr (Or.inl h1))
    · rw [List.nodup_append]
      refine ⟨hcv.retCNd, hcv.cqNd.sublist (List.take_sublist nc _), ?_⟩
      intro a ha hat
      exact hcv.cqFresh a (hcd a hat) ha
    · intro h hh
      rcases List.mem_append.mp hh with h1 | h1
      · exact hcv.retCSub h h1
      · exact Or.inl (hcv.cqSub h (hcd h h1))
    · intro h hh
      rw [List.mem_append]
      rintro (h1 | h1)
      · exact hcv.cqFresh h (List.mem_of_mem_drop hh) h1
      · exact nodup_take_drop s.codeQueue hcv.cqNd nc h h1 hh

theorem missing_preserves (root : TNode) (S0 : List TNode) (s : Sched)
    (store : List TNode) (bstore : List Nat) (elems : List (SPath × TNode))
    (codeElems : List Nat) (retP : List (SPath × TNode)) (retC : List Nat)
    (processed : Nat) (max : Nat)
    (hm : MidInv root S0 s store elems retP processed)
    (hcv : CodeInv s bstore codeElems retC)
    (htr : TrackInv s store) (hel : EligInv s store) :
    MidInv root S0 (Missing max s).2 store (elems ++ (Missing max s).1.1)
        (retP ++ (Missing max s).1.1) processed ∧
    CodeInv (Missing max s).2 bstore (codeElems ++ (Missing max s).1.2)
        (retC ++ (Missing max s).1.2) ∧
    TrackInv (Missing max s).2 store ∧ EligInv (Missing max s).2 store ∧
    (max = 0 → (Missing max s).2.queue = [] ∧ (Missing max s).2.codeQueue = []) := by
  obtain ⟨h1, h2, h3, h4⟩ := missing_core root S0 s store bstore elems codeElems
    retP retC processed (if max = 0 then s.queue.length else max)
    (if max = 0 then s.codeQueue.length else max) hm hcv htr hel
  refine ⟨h1, h2, h3, h4, ?_⟩
  intro hmax
  subst hmax
  constructor
  · show s.queue.drop (if 0 = 0 then s.queue.length else 0) = []
    simp
  · show s.codeQueue.drop (if 0 = 0 then s.codeQueue.length else 0) = []
    simp

theorem pick_filterMap_spec (elems : List (SPath × TNode)) :
    ∀ l : List SPath, l.Nodup →
    (((l.filterMap (fun p => elems.find? (fun e => e.1 == p))).map Prod.fst).Nodup ∧
     (∀ e ∈ l.filterMap (fun p => elems.find? (fun e => e.1 == p)), e ∈ elems)) ∧
    ∀ e ∈ l.filterMap (fun p => elems.find? (fun e => e.1 == p)), e.1 ∈ l := by
  intro l
  induction l with
  | nil => exact fun _ => ⟨⟨by simp, fun e he => absurd he (by simp)⟩,
      fun e he => absurd he (by simp)⟩
  | cons p ps ih =>
    intro hnd
    rw [List.nodup_cons] at hnd
    obtain ⟨⟨ih1, ih2⟩, ih3⟩ := ih hnd.2
    rw [List.filterMap_cons]
    cases hf : elems.find? (fun e => e.1 == p) with
    | none =>
      exact ⟨⟨ih1, ih2⟩, fun e he => List.mem_cons_of_mem _ (ih3 e he)⟩
    | some e0 =>
      have he0p : e0.1 = p := by
        have := List.find?_some hf
        exact eq_of_beq this
      have he0m : e0 ∈ elems := List.mem_of_find?_eq_some hf
      refine ⟨⟨?_, ?_⟩, ?_⟩
      · rw [List.map_cons, List.nodup_cons]
        refine ⟨?_, ih1⟩
        intro hmem
        obtain ⟨x, hx, hxe⟩ := List.mem_map.mp hmem
        exact hnd.1 (he0p ▸ hxe ▸ ih3 x hx)
      · intro e he
        rcases List.mem_cons.mp he with h1 | h1
        · exact h1 ▸ he0m
        · exact ih2 e h1
      · intro e he
        rcases List.mem_cons.mp he with h1 | h1
        · exact h1 ▸ (he0p ▸ List.mem_cons_self p ps)
        · exact List.mem_cons_of_mem _ (ih3 e h1)

theorem pickElems_spec (sel : List SPath) (elems : List (SPath × TNode)) :
    (∀ e ∈ pickElems sel elems, e ∈ elems) ∧
    ((pickElems sel elems).map Prod.fst).Nodup ∧
    (elems ≠ [] → pickElems sel elems ≠ []) := by
  obtain ⟨⟨h1, h2⟩, _⟩ := pick_filterMap_spec elems sel.dedup (List.nodup_dedup sel)
  rw [pickElems]
  by_cases hc : sel.dedup.filterMap (fun p => elems.find? (fun e => e.1 == p)) = []
  · rw [if_pos hc]
    cases elems with
    | nil => exact ⟨fun e he => absurd he (by simp), by simp, by simp⟩
    | cons e es =>
      have htk : (e :: es).take 1 = [e] := by
        rw [List.take_succ_cons, List.take_zero]
      refine ⟨?_, ?_, ?_⟩
      · intro x hx
        rw [htk] at hx
        rcases List.mem_singleton.mp hx with h
        exact h ▸ List.mem_cons_self e es
      · rw [htk]
        simp
      · intro _
        rw [htk]
        simp
  · rw [if_neg hc]
    exact ⟨h2, h1, fun _ => hc⟩

/-- Round-boundary invariant of the driving loop: the working invariants
hold, everything staged has been committed and every pending request has
been handed out, so all outstanding work sits in `elements`/`codeElems`. -/
structure RInv (root : TNode) (S0 : List TNode) (st : ExecState) : Prop where
  mid : MidInv root S0 st.sched st.store st.elements st.retPairs st.processed
  code : CodeInv st.sched st.bstore st.codeElems st.retCodes
  track : TrackInv st.sched st.store
  elig : EligInv st.sched st.store
  mbE : st.sched.membatch = []
  cmE : st.sched.codeMem = []
  qE : st.sched.queue = []
  cqE : st.sched.codeQueue = []
  s0Sub : ∀ x ∈ S0, x ∈ st.store

theorem roundE_preserves (root : TNode) (S0 : List TNode) (sel : List SPath)
    (st : ExecState) (hwf : wfT root = true) (hr : RInv root S0 st) :
    ∃ st2, roundE sel st = .ok st2 ∧ RInv root S0 st2 ∧
      st2.processed = st.processed + (pickElems sel st.elements).length ∧
      (st.elements ≠ [] → st.processed < st2.processed) ∧
      (st.elements = [] → st2.elements = [] ∧ st2.codeElems = []) ∧
      (∀ x ∈ st.store, x ∈ st2.store) := by
  obtain ⟨hsubP, hndP, hneP⟩ := pickElems_spec sel st.elements
  obtain ⟨s1, heq1, hm1, hcv1, htr1, hel1⟩ :=
    processList_preserves root S0 st.store st.bstore st.retPairs st.retCodes hwf
      (pickElems sel st.elements) st.sched st.elements st.codeElems st.processed
      hr.mid hr.code hr.track hr.elig hsubP hndP
  obtain ⟨s2, heq2, hcv2, hn2, hq2, hb2, hc2, hcq2⟩ :=
    processCodes_preserves st.bstore st.retCodes st.codeElems s1 hcv1
  have hm2 := midInv_congr root S0 s1 s2 st.store
    (st.elements.filter fun e => decide (e.1 ∉ (pickElems sel st.elements).map Prod.fst))
    st.retPairs (st.processed + (pickElems sel st.elements).length)
    hm1 hn2 hq2 hb2 hc2
  have htr2 : TrackInv s2 st.store := by
    intro pr hpr d hd c hc
    rw [hn2] at hpr
    rw [hb2, hn2]
    exact htr1 pr hpr d hd c hc
  have hel2 : EligInv s2 st.store := by
    intro pr hpr d hd
    rw [hn2] at hpr
    rw [hb2]
    exact hel1 pr hpr d hd
  obtain ⟨hmC, hcvC, htrC, helC, hC5, hC6, hC7, hC8, hC9, hC10, hstMono, hstBack⟩ :=
    commit_preserves root S0 s2 st.store st.bstore
      (st.elements.filter fun e => decide (e.1 ∉ (pickElems sel st.elements).map Prod.fst))
      [] st.retPairs st.retCodes (st.processed + (pickElems sel st.elements).length)
      hm2 hcv2 htr2 hel2
  obtain ⟨hmM, hcvM, htrM, helM, hqM⟩ :=
    missing_preserves root S0 (Commit s2 st.store st.bstore).1
      (Commit s2 st.store st.bstore).2.1 (Commit s2 st.store st.bstore).2.2
      (st.elements.filter fun e => decide (e.1 ∉ (pickElems sel st.elements).map Prod.fst))
      [] st.retPairs st.retCodes (st.processed + (pickElems sel st.elements).length) 0
      hmC hcvC htrC helC
  refine ⟨{ sched := (Missing 0 (Commit s2 st.store st.bstore).1).2,
            store := (Commit s2 st.store st.bstore).2.1,
            bstore := (Commit s2 st.store st.bstore).2.2,
            elements :=
              (st.elements.filter fun e =>
                decide (e.1 ∉ (pickElems sel st.elements).map Prod.fst)) ++
              (Missing 0 (Commit s2 st.store st.bstore).1).1.1,
            codeElems := (Missing 0 (Commit s2 st.store st.bstore).1).1.2,
            retPairs := st.retPairs ++ (Missing 0 (Commit s2 st.store st.bstore).1).1.1,
            retCodes := st.retCodes ++ (Missing 0 (Commit s2 st.store st.bstore).1).1.2,
            processed := st.processed + (pickElems sel st.elements).length },
    ?_, ?_, rfl, ?_, ?_, ?_⟩
  · simp only [roundE, heq1, heq2]
  · refine { mid := hmM, code := hcvM, track := htrM, elig := helM
             mbE := hC5, cmE := hC6, qE := (hqM rfl).1, cqE := (hqM rfl).2
             s0Sub := fun x hx => hstMono x (hr.s0Sub x hx) }
  · intro hne
    have := hneP hne
    have hl : 0 < (pickElems sel st.elements).length := List.length_pos.mpr this
    simp only []
    omega
  · intro he
    have hch : pickElems sel st.elements = [] := by
      rw [he]
      simp [pickElems]
    constructor
    · have hqc : (Commit s2 st.store st.bstore).1.queue = [] := by
        rw [hC7, hq2]
        rw [hch] at heq1
        cases heq1
        exact hr.qE
      simp only [he, List.filter_nil, List.nil_append]
      show ((Commit s2 st.store st.bstore).1.queue.take _).filterMap _ = []
      rw [hqc]
      simp
    · have hqc : (Commit s2 st.store st.bstore).1.codeQueue = [] := by
        rw [hC8, hcq2]
        rw [hch] at heq1
        cases heq1
        exact hr.cqE
      show (Commit s2 st.store st.bstore).1.codeQueue.take _ = []
      rw [hqc]
      simp
  · exact hstMono

theorem newSync_invs (root : TNode) (S0 : List TNode) (bstore : List Nat)
    (hS0nd : S0.Nodup)
    (hS0cl : ∀ nd ∈ S0, ∀ c ∈ kidsHashes nd, c ∈ S0) :
    MidInv root S0 (NewSync (keccak root) S0) S0 [] [] 0 ∧
    CodeInv (NewSync (keccak root) S0) bstore [] [] ∧
    TrackInv (NewSync (keccak root) S0) S0 ∧
    EligInv (NewSync (keccak root) S0) S0 := by
  by_cases hmem : root ∈ S0
  · have hns : NewSync (keccak root) S0 = ⟨[], [], [], [], [], [], []⟩ := by
      simp [NewSync, keccak, hmem]
    rw [hns]
    refine ⟨?_, ?_, ?_, ?_⟩
    · refine
        { keysNd := by simp, hashNd := by simp [reqHashes]
          freshMem := by intro pr hpr; simp at hpr
          freshSt := by intro pr hpr; simp at hpr
          dataEq := by intro pr hpr; simp at hpr
          reqReach := by intro pr hpr; simp at hpr
          reqCreated := by intro pr hpr; simp at hpr
          pathPos := by intro pr hpr; simp at hpr
          qSorted := by simp
          qReq := by intro p hp; simp at hp
          memNd := by simp [memHashes]
          memClosed := by intro nd hnd; simp [memHashes] at hnd
          memReach := by intro nd hnd; simp [memHashes] at hnd
          rootCov := Or.inr (Or.inl hmem)
          createdNd := by simp
          createdReach := by intro c hc; simp at hc
          createdCov := by intro c hc; simp at hc
          stNd := hS0nd, stClosed := hS0cl
          stProv := fun nd hnd => Or.inl hnd
          elemsReq := by intro e he; simp at he
          elemsNd := by simp
          qeDisj := by intro p hp; simp at hp
          unprocPlaced := by intro pr hpr; simp at hpr
          countEq := rfl
          retNd := by simp
          retSub := by intro h hh; simp at hh
          qFresh := by intro p hp; simp at hp }
    · refine
        { crNd := by simp, cqNd := by simp
          cqSub := by intro h hh; simp at hh
          crFreshMem := by intro h hh; simp at hh
          crFreshB := by intro h hh; simp at hh
          ceSub := by intro h hh; simp at hh
          ceQDisj := by intro h hh; simp at hh
          ceNd := by simp
          crPlaced := by intro h hh; simp at hh
          retCNd := by simp
          retCSub := by intro h hh; simp at hh
          cqFresh := by intro h hh; simp at hh }
    · intro pr hpr
      simp at hpr
    · intro pr hpr
      simp at hpr
  · have hns : NewSync (keccak root) S0
        = ⟨[(rootSPath, ⟨root, none⟩)], [rootSPath], [], [], [], [], [root]⟩ := by
      simp [NewSync, keccak, hmem]
    rw [hns]
    refine ⟨?_, ?_, ?_, ?_⟩
    · refine
        { keysNd := by simp, hashNd := by simp [reqHashes]
          freshMem := ?_, freshSt := ?_, dataEq := ?_, reqReach := ?_
          reqCreated := ?_, pathPos := ?_
          qSorted := by simp
          qReq := ?_
          memNd := by simp [memHashes]
          memClosed := by intro nd hnd; simp [memHashes] at hnd
          memReach := by intro nd hnd; simp [memHashes] at hnd
          rootCov := Or.inr (Or.inr (by simp [reqHashes]))
          createdNd := by simp
          createdReach := ?_, createdCov := ?_
          stNd := hS0nd, stClosed := hS0cl
          stProv := fun nd hnd => Or.inl hnd
          elemsReq := by intro e he; simp at he
          elemsNd := by simp
          qeDisj := by intro p hp; simp
          unprocPlaced := ?_
          countEq := rfl
          retNd := by simp
          retSub := by intro h hh; simp at hh
          qFresh := by intro p hp; intro r hr; simp }
      · intro pr hpr
        simp [memHashes]
      · intro pr hpr
        rcases List.mem_singleton.mp hpr with h
        subst h
        exact hmem
      · intro pr hpr
        rcases List.mem_singleton.mp hpr with h
        subst h
        exact Or.inl rfl
      · intro pr hpr
        rcases List.mem_singleton.mp hpr with h
        subst h
        exact self_mem_subtreesL root
      · intro pr hpr
        rcases List.mem_singleton.mp hpr with h
        subst h
        simp
      · intro pr hpr
        rcases List.mem_singleton.mp hpr with h
        subst h
        exact ⟨rfl, nodeAt_nil root⟩
      · intro p hp
        rcases List.mem_singleton.mp hp with h
        subst h
        refine ⟨⟨root, none⟩, ?_, rfl⟩
        simp [lookupReq]
      · intro c hc
        rw [List.mem_singleton.mp hc]
        exact self_mem_subtreesL root
      · intro c hc
        rw [List.mem_singleton.mp hc]
        exact Or.inl (by simp [reqHashes])
      · intro pr hpr _
        rcases List.mem_singleton.mp hpr with h
        subst h
        exact Or.inl (by simp)
    · refine
        { crNd := by simp, cqNd := by simp
          cqSub := by intro h hh; simp at hh
          crFreshMem := by intro h hh; simp at hh
          crFreshB := by intro h hh; simp at hh
          ceSub := by intro h hh; simp at hh
          ceQDisj := by intro h hh; simp at hh
          ceNd := by simp
          crPlaced := by intro h hh; simp at hh
          retCNd := by simp
          retCSub := by intro h hh; simp at hh
          cqFresh := by intro h hh; simp at hh }
    · intro pr hpr d hd
      rcases List.mem_singleton.mp hpr with h
      subst h
      simp at hd
    · intro pr hpr d hd
      rcases List.mem_singleton.mp hpr with h
      subst h
      simp at hd

theorem initExec_rinv (root : TNode) (S0 : List TNode) (bstore : List Nat)
    (hS0nd : S0.Nodup)
    (hS0cl : ∀ nd ∈ S0, ∀ c ∈ kidsHashes nd, c ∈ S0) :
    RInv root S0 (initExec (keccak root) S0 bstore) := by
  obtain ⟨hm0, hcv0, htr0, hel0⟩ := newSync_invs root S0 bstore hS0nd hS0cl
  obtain ⟨hmM, hcvM, htrM, helM, hqM⟩ :=
    missing_preserves root S0 (NewSync (keccak root) S0) S0 bstore [] [] [] [] 0 0
      hm0 hcv0 htr0 hel0
  have hmb : (NewSync (keccak root) S0).membatch = [] := by
    by_cases hmem : root ∈ S0 <;> simp [NewSync, keccak, hmem]
  have hcm : (NewSync (keccak root) S0).codeMem = [] := by
    by_cases hmem : root ∈ S0 <;> simp [NewSync, keccak, hmem]
  exact { mid := hmM, code := hcvM, track := htrM, elig := helM
          mbE := hmb, cmE := hcm, qE := (hqM rfl).1, cqE := (hqM rfl).2
          s0Sub := fun x hx => hx }

theorem processed_bound (root : TNode) (S0 : List TNode) (st : ExecState)
    (hr : RInv root S0 st) :
    st.processed + st.elements.length ≤ (subtreesL root).length := by
  have hce := hr.mid.countEq
  rw [hr.qE] at hce
  have hcb : st.sched.created.length ≤ (subtreesL root).length :=
    (List.Nodup.subperm hr.mid.createdNd
      (fun c hc => hr.mid.createdReach c hc)).length_le
  simp only [List.length_nil] at hce
  omega

theorem runK_quiescent (oracle : Nat → List SPath) (k : Nat) (st : ExecState)
    (hq : quiescent st = true) : runK oracle k st = .ok st := by
  cases k with
  | zero => rfl
  | succ k => simp [runK, hq]

theorem runK_completes (root : TNode) (S0 : List TNode) (oracle : Nat → List SPath)
    (hwf : wfT root = true) :
    ∀ k : Nat, ∀ st : ExecState, RInv root S0 st →
    (subtreesL root).length + 2 ≤ k + st.processed →
    ∃ st2, runK oracle k st = .ok st2 ∧ RInv root S0 st2 ∧ quiescent st2 = true ∧
      ∀ x ∈ st.store, x ∈ st2.store := by
  intro k
  induction k with
  | zero =>
    intro st hr hbound
    have := processed_bound root S0 st hr
    omega
  | succ k ih =>
    intro st hr hbound
    by_cases hq : quiescent st = true
    · refine ⟨st, ?_, hr, hq, fun x hx => hx⟩
      exact runK_quiescent oracle (k + 1) st hq
    · obtain ⟨st2, heq, hr2, hpe, hlt, hemp, hmono⟩ :=
        roundE_preserves root S0 (oracle k) st hwf hr
      have hrun : runK oracle (k + 1) st = runK oracle k st2 := by
        simp only [runK, if_neg hq, heq]
      by_cases hel : st.elements = []
      · obtain ⟨he1, he2⟩ := hemp hel
        have hq2 : quiescent st2 = true := by
          simp [quiescent, he1, he2]
        refine ⟨st2, ?_, hr2, hq2, hmono⟩
        rw [hrun]
        exact runK_quiescent oracle k st2 hq2
      · have hlt2 := hlt hel
        obtain ⟨st3, heq3, hr3, hq3, hmono3⟩ := ih st2 hr2 (by omega)
        refine ⟨st3, ?_, hr3, hq3, fun x hx => hmono3 x (hmono x hx)⟩
        rw [hrun]
        exact heq3

theorem sizeTN_pos (t : TNode) : 1 ≤ sizeTN t := by
  cases t with
  | mk k v b => simp [sizeTN]

theorem quiescent_noReqs (root : TNode) (S0 : List TNode) (st : ExecState)
    (hr : RInv root S0 st) (hq : quiescent st = true) :
    st.sched.nodeReqs = [] := by
  have hqe : st.elements = [] := by
    rw [quiescent, Bool.and_eq_true] at hq
    exact List.isEmpty_iff.mp hq.1
  have hdata : ∀ pr ∈ st.sched.nodeReqs, pr.2.data = some pr.2.hash := by
    intro pr hpr
    rcases hr.mid.dataEq pr hpr with h1 | h1
    · exfalso
      rcases hr.mid.unprocPlaced pr hpr h1 with h2 | h2
      · rw [hr.qE] at h2
        simp at h2
      · rw [hqe] at h2
        simp at h2
    · exact h1
  have hkey : ∀ n : Nat, ∀ pr, pr ∈ st.sched.nodeReqs → sizeTN pr.2.hash ≤ n → False := by
    intro n
    induction n with
    | zero =>
      intro pr hpr hsz
      have := sizeTN_pos pr.2.hash
      omega
    | succ n ih =>
      intro pr hpr hsz
      have helig := hr.elig pr hpr pr.2.hash (hdata pr hpr)
      rw [hr.mbE] at helig
      obtain ⟨c, hc, _, hcs⟩ := eligibleB_false st.store [] pr.2.hash helig
      have htrk := hr.track pr hpr pr.2.hash (hdata pr hpr) c hc
      rw [hr.mbE] at htrk
      rcases htrk with h1 | h1 | h1
      · simp [memHashes] at h1
      · exact hcs h1
      · rw [reqHashes] at h1
        obtain ⟨pr2, hpr2, hpr2c⟩ := List.mem_map.mp h1
        have hlt := size_kid_lt pr.2.hash c hc
        refine ih pr2 hpr2 ?_
        rw [hpr2c]
        omega
  cases hnr : st.sched.nodeReqs with
  | nil => rfl
  | cons pr rest =>
    exfalso
    exact hkey (sizeTN pr.2.hash) pr (by rw [hnr]; simp) le_rfl

theorem quiescent_store_complete (root : TNode) (S0 : List TNode) (st : ExecState)
    (hr : RInv root S0 st) (hq : quiescent st = true) :
    ∀ x ∈ subtreesL root, x ∈ st.store := by
  have hnr := quiescent_noReqs root S0 st hr hq
  have hroot : root ∈ st.store := by
    rcases hr.mid.rootCov with h1 | h1 | h1
    · rw [hr.mbE] at h1
      simp [memHashes] at h1
    · exact h1
    · rw [hnr] at h1
      simp [reqHashes] at h1
  exact store_closed_subtrees st.store hr.mid.stClosed (sizeTN root) root le_rfl hroot

theorem runK_rinv (root : TNode) (S0 : List TNode) (oracle : Nat → List SPath)
    (hwf : wfT root = true) :
    ∀ k : Nat, ∀ st st2 : ExecState, RInv root S0 st →
    runK oracle k st = .ok st2 → RInv root S0 st2 := by
  intro k
  induction k with
  | zero =>
    intro st st2 hr hrun
    cases hrun
    exact hr
  | succ k ih =>
    intro st st2 hr hrun
    by_cases hq : quiescent st = true
    · rw [runK, if_pos hq] at hrun
      cases hrun
      exact hr
    · obtain ⟨st1, heq, hr1, _, _, _, _⟩ := roundE_preserves root S0 (oracle k) st hwf hr
      rw [runK, if_neg hq] at hrun
      simp only [heq] at hrun
      exact ih st1 st2 hr1 hrun

theorem sync_main (root : TNode) (S0 : List TNode) (bstore : List Nat)
    (oracle : Nat → List SPath) (k : Nat)
    (hwf : wfT root = true) (hS0nd : S0.Nodup)
    (hS0cl : ∀ nd ∈ S0, ∀ c ∈ kidsHashes nd, c ∈ S0)
    (hk : (subtreesL root).length + 2 ≤ k) :
    ∃ st2, runK oracle k (initExec (keccak root) S0 bstore) = .ok st2 ∧
      RInv root S0 st2 ∧ quiescent st2 = true ∧
      (∀ x ∈ subtreesL root, x ∈ st2.store) ∧
      (∀ x ∈ S0, x ∈ st2.store) := by
  have hr0 := initExec_rinv root S0 bstore hS0nd hS0cl
  obtain ⟨st2, heq, hr2, hq2, hmono⟩ :=
    runK_completes root S0 oracle hwf k (initExec (keccak root) S0 bstore) hr0
      (by omega)
  exact ⟨st2, heq, hr2, hq2,
    quiescent_store_complete root S0 st2 hr2 hq2,
    fun x hx => hmono x (hr0.s0Sub x hx)⟩

/-- Full-traversal consistency check of the tests: every node reachable
from `t` resolves in the destination store. -/
def checkConsB (t : TNode) (store : List TNode) : Bool :=
  (subtreesL t).all (fun x => decide (x ∈ store))

/-- C1: crash-consistency of `Commit` — at every intermediate point of a
sync run (after any number of rounds of the `Missing`/`ProcessNode`/
`Commit` loop, hence after any subset of `Commit` calls), every trie node
present in the destination store has all of its descendant nodes present as
well, and deleting any one persisted node from the store makes the
full-traversal consistency check rooted at any stored ancestor fail — no
dangling-parent state is ever persisted. -/
theorem c1_crash_consistency (root : TNode) (bstore : List Nat)
    (oracle : Nat → List SPath) (k : Nat) (st2 : ExecState)
    (hwf : wfT root = true)
    (hrun : runK oracle k (initExec (keccak root) [] bstore) = .ok st2) :
    (∀ nd ∈ st2.store, ∀ x ∈ subtreesL nd, x ∈ st2.store) ∧
    (∀ nd ∈ st2.store, ∀ x ∈ subtreesL nd,
      checkConsB nd (st2.store.erase x) = false) := by
  have hr0 := initExec_rinv root [] bstore (by simp) (by intro nd hnd; simp at hnd)
  have hr2 := runK_rinv root [] oracle hwf k _ st2 hr0 hrun
  have hclosed : ∀ nd ∈ st2.store, ∀ x ∈ subtreesL nd, x ∈ st2.store := by
    intro nd hnd x hx
    exact store_closed_subtrees st2.store hr2.mid.stClosed (sizeTN nd) nd le_rfl hnd x hx
  refine ⟨hclosed, ?_⟩
  intro nd hnd x hx
  have hxs : x ∈ st2.store := hclosed nd hnd x hx
  have hxe : x ∉ st2.store.erase x := by
    intro hc
    exact ((List.Nodup.mem_erase_iff hr2.mid.stNd).mp hc).1 rfl
  rw [checkConsB]
  refine List.all_eq_false.mpr ⟨x, hx, ?_⟩
  simp [hxe]

/-- C2: deduplication — across the lifetime of one sync run driven by the
`Missing`/`ProcessNode`/`Commit` loop (`retPairs`/`retCodes` are the ghost
traces of everything `Missing` ever returned), no trie-node content hash
and no auxiliary-blob hash is returned by `Missing` more than once, even
when the same sub-trie is reachable via multiple distinct paths of the
source trie. -/
theorem c2_dedup (root : TNode) (bstore : List Nat)
    (oracle : Nat → List SPath) (k : Nat) (st2 : ExecState)
    (hwf : wfT root = true)
    (hrun : runK oracle k (initExec (keccak root) [] bstore) = .ok st2) :
    (st2.retPairs.map Prod.snd).Nodup ∧ st2.retCodes.Nodup := by
  have hr0 := initExec_rinv root [] bstore (by simp) (by intro nd hnd; simp at hnd)
  have hr2 := runK_rinv root [] oracle hwf k _ st2 hr0 hrun
  exact ⟨hr2.mid.retNd, hr2.code.retCNd⟩

/-- C3: order invariance — for every well-formed source trie and every
oracle-chosen schedule (any permutation of the outstanding elements, any
batch sizes), a run with enough rounds succeeds, reaches the quiescent
no-outstanding-work state, the destination store then holds exactly the
source trie's reachable nodes, and every key reads back through the store
exactly its value in the source trie. -/
theorem c3_order_invariance (root : TNode) (bstore : List Nat)
    (oracle : Nat → List SPath) (k : Nat)
    (hwf : wfT root = true) (hk : (subtreesL root).length + 2 ≤ k) :
    ∃ st2, runK oracle k (initExec (keccak root) [] bstore) = .ok st2 ∧
      quiescent st2 = true ∧
      (∀ f : Nat, ∀ key : List Nat,
        getValStoreF f st2.store root key = getValF f root key) ∧
      (∀ x : TNode, x ∈ st2.store ↔ x ∈ subtreesL root) := by
  obtain ⟨st2, heq, hr2, hq2, hsub, _⟩ :=
    sync_main root [] bstore oracle k hwf (by simp)
      (by intro nd hnd; simp at hnd) hk
  refine ⟨st2, heq, hq2, ?_, ?_⟩
  · intro f key
    exact getValStore_eq f st2.store root key hsub
  · intro x
    constructor
    · intro hx
      rcases hr2.mid.stProv x hx with h1 | h1
      · simp at h1
      · exact h1
    · intro hx
      exact hsub x hx

/-- C5: moving-target resync — after fully syncing an empty destination
store against root `root1`, re-running a fresh scheduler against a mutated
root `root2` over the same destination store converges again, and every key
(including previously-unseen ones) reads back through the store exactly its
value under `root2`; a third pass against `root3` (reverted or overwritten
content) converges correctly again. -/
theorem c5_moving_target (root1 root2 root3 : TNode) (bstore : List Nat)
    (o1 o2 o3 : Nat → List SPath) (k1 k2 k3 : Nat)
    (hw1 : wfT root1 = true) (hw2 : wfT root2 = true) (hw3 : wfT root3 = true)
    (hk1 : (subtreesL root1).length + 2 ≤ k1)
    (hk2 : (subtreesL root2).length + 2 ≤ k2)
    (hk3 : (subtreesL root3).length + 2 ≤ k3) :
    ∃ st1, runK o1 k1 (initExec (keccak root1) [] bstore) = .ok st1 ∧
      quiescent st1 = true ∧
      (∀ f key, getValStoreF f st1.store root1 key = getValF f root1 key) ∧
    ∃ st2, runK o2 k2 (initExec (keccak root2) st1.store st1.bstore) = .ok st2 ∧
      quiescent st2 = true ∧
      (∀ f key, getValStoreF f st2.store root2 key = getValF f root2 key) ∧
    ∃ st3, runK o3 k3 (initExec (keccak root3) st2.store st2.bstore) = .ok st3 ∧
      quiescent st3 = true ∧
      (∀ f key, getValStoreF f st3.store root3 key = getValF f root3 key) := by
  obtain ⟨st1, heq1, hr1, hq1, hsub1, _⟩ :=
    sync_main root1 [] bstore o1 k1 hw1 (by simp)
      (by intro nd hnd; simp at hnd) hk1
  have hcl1 : ∀ nd ∈ st1.store, ∀ c ∈ kidsHashes nd, c ∈ st1.store := hr1.mid.stClosed
  obtain ⟨st2, heq2, hr2, hq2, hsub2, hold2⟩ :=
    sync_main root2 st1.store st1.bstore o2 k2 hw2 hr1.mid.stNd hcl1 hk2
  have hcl2 : ∀ nd ∈ st2.store, ∀ c ∈ kidsHashes nd, c ∈ st2.store := hr2.mid.stClosed
  obtain ⟨st3, heq3, hr3, hq3, hsub3, hold3⟩ :=
    sync_main root3 st2.store st2.bstore o3 k3 hw3 hr2.mid.stNd hcl2 hk3
  exact ⟨st1, heq1, hq1, fun f key => getValStore_eq f st1.store root1 key hsub1,
    st2, heq2, hq2, fun f key => getValStore_eq f st2.store root2 key hsub2,
    st3, heq3, hq3, fun f key => getValStore_eq f st3.store root3 key hsub3⟩

/-- Boolean check that a path sequence is non-decreasing in the spec's
section-3 path order. -/
def nondecB : List SPath → Bool
  | [] => true
  | [_] => true
  | p :: q :: rest => pathLeb p q && nondecB (q :: rest)

theorem nondecB_append_single (x : SPath) :
    ∀ l : List SPath, nondecB l = true → (∀ q ∈ l, pathLeb q x = true) →
    nondecB (l ++ [x]) = true := by
  intro l
  induction l with
  | nil => intro _ _; rfl
  | cons a rest ih =>
    intro h hall
    cases rest with
    | nil =>
      have := hall a (by simp)
      simp [nondecB, this]
    | cons b rest2 =>
      rw [nondecB, Bool.and_eq_true] at h
      have h2 := ih h.2 (fun q hq => hall q (List.mem_cons_of_mem _ hq))
      simp only [List.cons_append] at h2 ⊢
      rw [nondecB, Bool.and_eq_true]
      exact ⟨h.1, h2⟩

theorem nondecB_of_pairwise :
    ∀ l : List SPath, l.Pairwise (fun a b => pathLtb a b = true) →
    nondecB l = true := by
  intro l
  induction l with
  | nil => intro _; rfl
  | cons a rest ih =>
    intro h
    rw [List.pairwise_cons] at h
    cases rest with
    | nil => rfl
    | cons b rest2 =>
      rw [nondecB, Bool.and_eq_true]
      refine ⟨?_, ih h.2⟩
      rw [pathLeb]
      have := h.1 b (by simp)
      simp [this]

theorem pairs_fst_sublist (g : SPath → Option NodeReq) :
    ∀ l : List SPath,
    List.Sublist
      ((l.filterMap (fun p => (g p).map (fun r => (p, r.hash)))).map Prod.fst) l := by
  intro l
  induction l with
  | nil => simp
  | cons p ps ih =>
    rw [List.filterMap_cons]
    cases g p with
    | none => exact ih.cons p
    | some r =>
      show (List.map Prod.fst
        ((p, r.hash) :: ps.filterMap (fun p => (g p).map (fun r => (p, r.hash))))).Sublist
        (p :: ps)
      rw [List.map_cons]
      exact ih.cons₂ p

theorem missing_call_sorted (max : Nat) (s : Sched)
    (hq : s.queue.Pairwise (fun a b => pathLtb a b = true)) :
    nondecB ((Missing max s).1.1.map Prod.fst) = true := by
  apply nondecB_of_pairwise
  refine List.Pairwise.sublist ?_ hq
  exact (pairs_fst_sublist (lookupReq s.nodeReqs) _).trans (List.take_sublist _ _)

theorem stageAll_queue : ∀ f : Nat, ∀ store : List TNode, ∀ s : Sched,
    (stageAll f store s).queue = s.queue := by
  intro f
  induction f with
  | zero => intro store s; rfl
  | succ f ih =>
    intro store s
    rw [stageAll]
    cases hfe : findEligible store s.nodeReqs s.membatch with
    | none => rfl
    | some pd =>
      obtain ⟨p, d⟩ := pd
      exact ih store _

theorem scheduleCode_queue (bstore : List Nat) (s : Sched) (h : Nat) :
    (scheduleCode bstore s h).queue = s.queue := by
  rw [scheduleCode]
  split_ifs <;> rfl

theorem scheduleCodeFold_queue (bstore : List Nat) :
    ∀ bl : List Nat, ∀ s : Sched,
    (bl.foldl (fun acc h => scheduleCode bstore acc h) s).queue = s.queue := by
  intro bl
  induction bl with
  | nil => intro s; rfl
  | cons b bs ih =>
    intro s
    rw [List.foldl_cons, ih, scheduleCode_queue]

theorem scheduleChild_queue_mem (store : List TNode) (pp : SPath) (s : Sched)
    (suffix : List Nat) (c : TNode) (q : SPath)
    (hq : q ∈ (scheduleChild store pp s suffix c).queue) :
    q ∈ s.queue ∨ q = childSPath pp suffix := by
  rw [scheduleChild] at hq
  split_ifs at hq
  · exact Or.inl hq
  · exact Or.inl hq
  · exact Or.inl hq
  · rcases (insSorted_mem _ _ _).mp hq with h | h
    · exact Or.inr h
    · exact Or.inl h

theorem scheduleFold_queue_mem (store : List TNode) (pp : SPath) :
    ∀ kids : List (List Nat × TNode), ∀ s : Sched, ∀ q : SPath,
    q ∈ (kids.foldl (fun acc k => scheduleChild store pp acc k.1 k.2) s).queue →
    q ∈ s.queue ∨ ∃ k ∈ kids, q = childSPath pp k.1 := by
  intro kids
  induction kids with
  | nil =>
    intro s q hq
    exact Or.inl hq
  | cons k ks ih =>
    intro s q hq
    rw [List.foldl_cons] at hq
    rcases ih _ q hq with h1 | ⟨k2, hk2, h2⟩
    · rcases scheduleChild_queue_mem store pp s k.1 k.2 q h1 with h2 | h2
      · exact Or.inl h2
      · exact Or.inr ⟨k, by simp, h2⟩
    · exact Or.inr ⟨k2, List.mem_cons_of_mem _ hk2, h2⟩

theorem processNode_queue_mem (store : List TNode) (bstore : List Nat) (s : Sched)
    (p : SPath) (bytes : TNode) (s4 : Sched)
    (heq : ProcessNode store bstore s p bytes = .ok s4) (q : SPath)
    (hq : q ∈ s4.queue) :
    q ∈ s.queue ∨ ∃ k ∈ bytes.kids, q = childSPath p k.1 := by
  rw [ProcessNode] at heq
  cases hlk : lookupReq s.nodeReqs p with
  | none => simp [hlk] at heq
  | some r =>
    simp only [hlk] at heq
    by_cases hd : r.data ≠ none
    · rw [if_pos hd] at heq
      exact absurd heq (by simp)
    · rw [if_neg hd] at heq
      by_cases hh : keccak bytes ≠ THash.node r.hash
      · rw [if_pos hh] at heq
        exact absurd heq (by simp)
      · rw [if_neg hh] at heq
        cases heq
        rw [stageAll_queue, scheduleCodeFold_queue] at hq
        rcases scheduleFold_queue_mem store p bytes.kids _ q hq with h1 | h1
        · exact Or.inl h1
        · exact Or.inr h1

theorem pathLeb_refl (p : SPath) : pathLeb p p = true := by
  rw [pathLeb]
  simp

theorem pathLeb_of_leb_ltb (q p c : SPath) (h1 : pathLeb q p = true)
    (h2 : pathLtb p c = true) : pathLeb q c = true := by
  rw [pathLeb, Bool.or_eq_true] at h1 ⊢
  rcases h1 with h1 | h1
  · exact Or.inl (pathLtb_trans q p c h1 h2)
  · rw [beq_iff_eq] at h1
    exact Or.inl (h1 ▸ h2)

/-- One-at-a-time sequential driving of the scheduler, as in the ordering
test: each round asks `Missing` for a single pending item and feeds it
straight back through `ProcessNode`, accumulating the returned paths. -/
def runOrd (store : List TNode) (bstore : List Nat) :
    Nat → Sched → List SPath → Except SyncError (Sched × List SPath)
  | 0, s, trace => .ok (s, trace)
  | f + 1, s, trace =>
    match (Missing 1 s).1.1 with
    | [] => .ok ((Missing 1 s).2, trace)
    | (p, hb) :: _ =>
      match ProcessNode store bstore (Missing 1 s).2 p hb with
      | .error e => .error e
      | .ok s2 => runOrd store bstore f s2 (trace ++ [p])

theorem runOrd_preserves (root : TNode) (bstore : List Nat) (hwf : wfT root = true) :
    ∀ f : Nat, ∀ s : Sched, ∀ ce : List Nat, ∀ retP : List (SPath × TNode),
    ∀ retC : List Nat, ∀ processed : Nat,
    MidInv root [] s [] [] retP processed →
    CodeInv s bstore ce retC →
    TrackInv s [] → EligInv s [] →
    nondecB (retP.map Prod.fst) = true →
    (∀ p ∈ s.queue, ∀ q ∈ retP.map Prod.fst, pathLeb q p = true) →
    ∃ s2 trace2, runOrd [] bstore f s (retP.map Prod.fst) = .ok (s2, trace2) ∧
      nondecB trace2 = true := by
  intro f
  induction f with
  | zero =>
    intro s ce retP retC processed hm hcv htr hel hnd hoq
    exact ⟨s, retP.map Prod.fst, rfl, hnd⟩
  | succ f ih =>
    intro s ce retP retC processed hm hcv htr hel hnd hoq
    obtain ⟨hm1, hcv1, htr1, hel1⟩ :=
      missing_core root [] s [] bstore [] ce retP retC processed 1 1 hm hcv htr hel
    cases hq0 : s.queue with
    | nil =>
      have hm11 : (Missing 1 s).1.1 = [] := by
        show (s.queue.take 1).filterMap
          (fun p => (lookupReq s.nodeReqs p).map (fun r => (p, r.hash))) = []
        rw [hq0]
        rfl
      refine ⟨(Missing 1 s).2, retP.map Prod.fst, ?_, hnd⟩
      simp only [runOrd, hm11]
    | cons p0 qrest =>
      obtain ⟨r0, hr0, hd0⟩ := hm.qReq p0 (by rw [hq0]; exact List.mem_cons_self p0 qrest)
      have hpe : (s.queue.take 1).filterMap
          (fun p => (lookupReq s.nodeReqs p).map (fun r => (p, r.hash)))
          = [(p0, r0.hash)] := by
        rw [hq0]
        show ([p0].filterMap
          (fun p => (lookupReq s.nodeReqs p).map (fun r => (p, r.hash)))) = _
        rw [List.filterMap_cons]
        simp [hr0]
      have hm11 : (Missing 1 s).1.1 = [(p0, r0.hash)] := hpe
      rw [hpe] at hm1
      simp only [List.nil_append] at hm1
      obtain ⟨s4, heqPN, hm4, hcv4, htr4, hel4⟩ :=
        processNode_preserves root [] (Missing 1 s).2 [] bstore [(p0, r0.hash)]
          (ce ++ s.codeQueue.take 1) (retP ++ [(p0, r0.hash)]) (retC ++ s.codeQueue.take 1)
          processed p0 r0.hash hwf hm1 hcv1 htr1 (by simp)
      have hfe : ([(p0, r0.hash)].filter fun e => decide (e.1 ≠ p0)) = [] := by
        simp
      rw [hfe] at hm4
      have hmapq : (retP ++ [(p0, r0.hash)]).map Prod.fst = retP.map Prod.fst ++ [p0] := by
        simp
      have hndq : nondecB ((retP ++ [(p0, r0.hash)]).map Prod.fst) = true := by
        rw [hmapq]
        refine nondecB_append_single p0 (retP.map Prod.fst) hnd ?_
        intro q hqq
        exact hoq p0 (by rw [hq0]; exact List.mem_cons_self p0 qrest) q hqq
      have hreach0 : r0.hash ∈ subtreesL root :=
        hm.reqReach (p0, r0) (lookupReq_mem s.nodeReqs p0 r0 hr0)
      have hwfr0 : wfT r0.hash = true :=
        wf_subtrees (sizeTN root) root r0.hash le_rfl hwf hreach0
      have hsort := hm.qSorted
      rw [hq0, List.pairwise_cons] at hsort
      have hm2q : (Missing 1 s).2.queue = qrest := by
        show s.queue.drop 1 = qrest
        rw [hq0]
        rfl
      have hoq4 : ∀ p ∈ s4.queue, ∀ q ∈ (retP ++ [(p0, r0.hash)]).map Prod.fst,
          pathLeb q p = true := by
        intro p hp q hq
        rw [hmapq, List.mem_append, List.mem_singleton] at hq
        have hq_lebp0 : pathLeb q p0 = true := by
          rcases hq with h1 | h1
          · exact hoq p0 (by rw [hq0]; exact List.mem_cons_self p0 qrest) q h1
          · rw [h1]
            exact pathLeb_refl p0
        rcases processNode_queue_mem [] bstore (Missing 1 s).2 p0 r0.hash s4 heqPN p hp
          with h2 | ⟨k, hk, h2⟩
        · rw [hm2q] at h2
          have hlt : pathLtb p0 p = true := hsort.1 p h2
          exact pathLeb_of_leb_ltb q p0 p hq_lebp0 hlt
        · have hsufne : k.1 ≠ [] := wf_suffix_ne r0.hash hwfr0 k hk
          have hlt : pathLtb p0 p = true := h2 ▸ pathLtb_child p0 k.1 hsufne
          exact pathLeb_of_leb_ltb q p0 p hq_lebp0 hlt
      obtain ⟨s2, trace2, hrun2, hnd2⟩ :=
        ih s4 (ce ++ s.codeQueue.take 1) (retP ++ [(p0, r0.hash)])
          (retC ++ s.codeQueue.take 1) (processed + 1) hm4 hcv4 htr4 hel4 hndq hoq4
      refine ⟨s2, trace2, ?_, hnd2⟩
      simp only [runOrd, hm11, heqPN]
      rw [hmapq] at hrun2
      exact hrun2

/-- C4 (amended): within one `Missing` call the returned trie-node requests
are non-decreasing in the section-3 path order (for any scheduler whose
pending queue is sorted, as every scheduler of a run is); and across
successive `Missing` calls the concatenated returned path sequence is
non-decreasing when the run is driven one element at a time (`Missing` with
batch size 1, each returned element processed before the next call), as in
the ordering test.  The frozen across-calls claim without the batch-1
proviso is refuted by `c4_path_ordering_counterexample`. -/
theorem c4_path_ordering :
    (∀ max : Nat, ∀ s : Sched,
      s.queue.Pairwise (fun a b => pathLtb a b = true) →
      nondecB ((Missing max s).1.1.map Prod.fst) = true) ∧
    (∀ root : TNode, ∀ bstore : List Nat, ∀ f : Nat, wfT root = true →
      ∃ s2 trace, runOrd [] bstore f (NewSync (keccak root) []) [] = .ok (s2, trace) ∧
        nondecB trace = true) := by
  refine ⟨missing_call_sorted, ?_⟩
  intro root bstore f hwf
  obtain ⟨hm0, hcv0, htr0, hel0⟩ :=
    newSync_invs root [] bstore (by simp) (by intro nd hnd; simp at hnd)
  obtain ⟨s2, trace, hrun, hnd⟩ :=
    runOrd_preserves root bstore hwf f (NewSync (keccak root) []) [] [] [] 0
      hm0 hcv0 htr0 hel0 rfl (by intro p hp q hq; simp at hq)
  exact ⟨s2, trace, hrun, hnd⟩

def c4leaf : TNode := .mk [] (some [3]) []

def c4a : TNode := .mk [([0], c4leaf)] none []

def c4b : TNode := .mk [] (some [4]) []

def c4root : TNode := .mk [([0], c4a), ([1], c4b)] none []

/-- Result extraction for a `ProcessNode` step known to succeed. -/
def stepPN (s : Sched) (p : SPath) (b : TNode) : Sched :=
  match ProcessNode [] [] s p b with
  | .ok s2 => s2
  | .error _ => s

def c4s0 : Sched := NewSync (keccak c4root) []

def c4sA : Sched := stepPN (Missing 0 c4s0).2 rootSPath c4root

def c4sB : Sched := stepPN (Missing 0 c4sA).2 ⟨[0], []⟩ c4a

def c4trace : List (SPath × TNode) :=
  (Missing 0 c4s0).1.1 ++ (Missing 0 c4sA).1.1 ++ (Missing 0 c4sB).1.1

/-- C4 counterexample to the frozen across-calls ordering claim: a
three-node-deep source trie, synced by the unrestricted
`Missing`/`ProcessNode` loop (all pending items taken each call, one of
the two returned siblings processed before the next call), yields a
concatenated returned path sequence `[], [0], [1], [0,0]` that strictly
decreases from `[1]` to `[0,0]` under the section-3 path order. -/
theorem c4_path_ordering_counterexample :
    wfT c4root = true ∧
    ProcessNode [] [] (Missing 0 c4s0).2 rootSPath c4root = .ok c4sA ∧
    ProcessNode [] [] (Missing 0 c4sA).2 ⟨[0], []⟩ c4a = .ok c4sB ∧
    (c4trace.map Prod.fst =
      [⟨[], []⟩, ⟨[0], []⟩, ⟨[1], []⟩, ⟨[0, 0], []⟩]) ∧
    nondecB (c4trace.map Prod.fst) = false := by
  refine ⟨by decide, rfl, rfl, by decide, by decide⟩

def w1root : TNode := .mk [([0], .mk [] (some [5]) [])] (some [9]) []

def w1st : ExecState :=
  match runK (fun _ => []) 4 (initExec (keccak w1root) [] []) with
  | .ok st => st
  | .error _ => initExec (keccak w1root) [] []

/-- Witness for C1 at a concrete two-node source trie, an empty initial
store and four driver rounds. -/
theorem c1_crash_consistency_witness :
    wfT w1root = true ∧
    ((∀ nd ∈ w1st.store, ∀ x ∈ subtreesL nd, x ∈ w1st.store) ∧
     (∀ nd ∈ w1st.store, ∀ x ∈ subtreesL nd,
        checkConsB nd (w1st.store.erase x) = false)) :=
  ⟨by decide, c1_crash_consistency w1root [] (fun _ => []) 4 w1st (by decide) (by rfl)⟩

def w2leaf : TNode := .mk [] (some [7]) [11]

def w2root : TNode := .mk [([0], w2leaf), ([1], w2leaf)] none []

def w2st : ExecState :=
  match runK (fun _ => []) 5 (initExec (keccak w2root) [] []) with
  | .ok st => st
  | .error _ => initExec (keccak w2root) [] []

/-- Witness for C2 at a source trie whose leaf (with an attached blob) is
shared under two distinct paths. -/
theorem c2_dedup_witness :
    wfT w2root = true ∧
    ((w2st.retPairs.map Prod.snd).Nodup ∧ w2st.retCodes.Nodup) :=
  ⟨by decide, c2_dedup w2root [] (fun _ => []) 5 w2st (by decide) (by rfl)⟩

def w3root : TNode :=
  .mk [([0], .mk [] (some [1]) []), ([1], .mk [] (some [2]) [])] none []

/-- Witness for C3 at a concrete three-node source trie with enough
rounds. -/
theorem c3_order_invariance_witness :
    wfT w3root = true ∧ (subtreesL w3root).length + 2 ≤ 5 ∧
    (∃ st2, runK (fun _ => []) 5 (initExec (keccak w3root) [] []) = .ok st2 ∧
      quiescent st2 = true ∧
      (∀ f : Nat, ∀ key : List Nat,
        getValStoreF f st2.store w3root key = getValF f w3root key) ∧
      (∀ x : TNode, x ∈ st2.store ↔ x ∈ subtreesL w3root)) :=
  ⟨by decide, by decide,
    c3_order_invariance w3root [] (fun _ => []) 5 (by decide) (by decide)⟩

def w5r1 : TNode := .mk [([0], .mk [] (some [1]) [])] none []

def w5r2 : TNode :=
  .mk [([0], .mk [] (some [1]) []), ([1], .mk [] (some [2]) [])] none []

/-- Witness for C5: sync a two-node trie, extend it with a new key and
resync over the same store, then revert and resync a third time. -/
theorem c5_moving_target_witness :
    wfT w5r1 = true ∧ wfT w5r2 = true ∧
    (subtreesL w5r1).length + 2 ≤ 4 ∧ (subtreesL w5r2).length + 2 ≤ 5 ∧
    (∃ st1, runK (fun _ => []) 4 (initExec (keccak w5r1) [] []) = .ok st1 ∧
      quiescent st1 = true ∧
      (∀ f key, getValStoreF f st1.store w5r1 key = getValF f w5r1 key) ∧
    ∃ st2, runK (fun _ => []) 5 (initExec (keccak w5r2) st1.store st1.bstore) = .ok st2 ∧
      quiescent st2 = true ∧
      (∀ f key, getValStoreF f st2.store w5r2 key = getValF f w5r2 key) ∧
    ∃ st3, runK (fun _ => []) 4 (initExec (keccak w5r1) st2.store st2.bstore) = .ok st3 ∧
      quiescent st3 = true ∧
      (∀ f key, getValStoreF f st3.store w5r1 key = getValF f w5r1 key)) :=
  ⟨by decide, by decide, by decide, by decide,
    c5_moving_target w5r1 w5r2 w5r1 [] (fun _ => []) (fun _ => []) (fun _ => []) 4 5 4
      (by decide) (by decide) (by decide) (by decide) (by decide) (by decide)⟩

def w4n1 : TNode := .mk [] (some [1]) []

def w4n2 : TNode := .mk [] (some [2]) []

def w4root : TNode := .mk [([0], w4n1), ([1], w4n2)] none []

def w4s : Sched :=
  ⟨[(⟨[0], []⟩, ⟨w4n1, none⟩), (⟨[1], []⟩, ⟨w4n2, none⟩)],
   [⟨[0], []⟩, ⟨[1], []⟩], [], [], [], [], []⟩

/-- Witness for C4 (amended): a concrete sorted two-request scheduler whose
`Missing 2` call returns its pairs in path order, and a concrete three-node
trie fully driven by the batch-1 sequential loop with a sorted concatenated
trace. -/
theorem c4_path_ordering_witness :
    w4s.queue.Pairwise (fun a b => pathLtb a b = true) ∧
    wfT w4root = true ∧
    nondecB ((Missing 2 w4s).1.1.map Prod.fst) = true ∧
    (∃ s2 trace, runOrd [] [] 6 (NewSync (keccak w4root) []) [] = .ok (s2, trace) ∧
      nondecB trace = true) :=
  ⟨by decide, by decide, c4_path_ordering.1 2 w4s (by decide),
    c4_path_ordering.2 w4root [] 6 (by decide)⟩

def w7req : TNode := .mk [] (some [1]) []

def w7s : Sched := ⟨[(rootSPath, ⟨w7req, none⟩)], [rootSPath], [], [], [], [], []⟩

def w7bad : TNode := .mk [] (some [2]) []

/-- Witness for C7: a result delivered for a never-requested path is
rejected as invalid state, and a result whose content hash differs from the
expected hash of its live request is rejected as a hash mismatch. -/
theorem c7_processNode_errors_witness :
    (lookupReq w7s.nodeReqs ⟨[5], []⟩ = none ∧
     ProcessNode [] [] w7s ⟨[5], []⟩ w7req = .error .notRequested) ∧
    (lookupReq w7s.nodeReqs rootSPath = some ⟨w7req, none⟩ ∧
     keccak w7bad ≠ THash.node w7req ∧
     ProcessNode [] [] w7s rootSPath w7bad = .error .hashMismatch) :=
  ⟨⟨by decide, (c7_processNode_errors [] [] w7s ⟨[5], []⟩ w7req).1 (by decide)⟩,
   ⟨by decide, by decide,
    (c7_processNode_errors [] [] w7s rootSPath w7bad).2.2.2.1 ⟨w7req, none⟩
      (by decide) (by decide) (by decide)⟩⟩

def w8bc : ChainCtx := ⟨5, fun _ => some [⟨100, 10⟩], fun _ _ => none⟩

def w8sf : BHeader → Except Nat Nat := fun _ => .error 7

def w8hd : BHeader := ⟨5, 42, 41⟩

/-- Witness for C8: with one traversed block costing 90 units of L2 gas, a
positive bound of 50 yields the bound-exceeded error, a bound of 200 at the
genesis boundary yields the genesis-boundary error wrapping lookup failure
7, and the unlimited `-1` bound at the boundary yields the same
genesis-boundary error. -/
theorem c8_find_last_available_state_errors_witness :
    ((50 : Int) > 0 ∧
     FindLastAvailableState w8bc w8sf 9 50 (0 + 1) w8hd 0 =
       .error .depthLimitExceeded) ∧
    (FindLastAvailableState w8bc w8sf 9 200 (0 + 1) w8hd 0 =
       .error (.genesisBoundary 7 9 5)) ∧
    (FindLastAvailableState w8bc w8sf 9 (-1) (0 + 1) w8hd 0 =
       .error (.genesisBoundary 7 9 5)) :=
  ⟨⟨by decide,
    (c8_find_last_available_state_errors w8bc w8sf 9 50 0 w8hd 0 7 [⟨100, 10⟩]).1
      (by decide) rfl rfl (by decide)⟩,
   (c8_find_last_available_state_errors w8bc w8sf 9 200 0 w8hd 0 7 [⟨100, 10⟩]).2.1
      (by decide) rfl rfl (by decide) (by decide),
   (c8_find_last_available_state_errors w8bc w8sf 9 (-1) 0 w8hd 0 7 [⟨100, 10⟩]).2.2.1
      (by decide) rfl (by decide)⟩

/-- Witness for C9 at current block 100, genesis 10 and the Latest
sentinel. -/
theorem c9_clip_to_post_nitro_genesis_witness :
    ((100 : Nat) < 2 ^ 63 ∧ (10 : Nat) < 2 ^ 63) ∧
    (ClipToPostNitroGenesis 100 10 (-2) =
      (max ((10 : Nat) : Int)
        (min (if (-2 : Int) = latestBlockNumber ∨ (-2 : Int) = pendingBlockNumber
          then ((100 : Nat) : Int) else (-2 : Int)) ((100 : Nat) : Int)),
        ((100 : Nat) : Int)) ∧
     ((10 : Nat) : Int) ≤ (ClipToPostNitroGenesis 100 10 (-2)).1) :=
  ⟨⟨by decide, by decide⟩,
   c9_clip_to_post_nitro_genesis 100 10 (-2) (by decide) (by decide)⟩

def w10gb : Nat → Option BBlock := fun _ => some ⟨5, 3⟩

def w10pr : Nat → BBlock → Except Nat Nat := fun _ _ => .ok 0

def w10t : BHeader := ⟨1, 5, 0⟩

def w10la : BHeader := ⟨0, 3, 0⟩

def w10tBad : BHeader := ⟨1, 8, 0⟩

/-- Witness for C10: a one-block recreation that succeeds is hash-linked to
the target; a block whose parent hash differs from the previous recreated
hash triggers the reorg error; a final block whose hash differs from the
target's triggers the final-hash-mismatch error. -/
theorem c10_advance_state_up_to_block_witness :
    (AdvanceStateUpToBlock w10gb w10pr w10t w10la 0 = .ok 0 ∧
     Linked w10gb w10t.number w10t.hash (w10la.number + 1) w10la.hash) ∧
    (w10gb 1 = some ⟨5, 3⟩ ∧
     AdvanceStateByBlock w10gb w10pr 0 1 9 = .error (.reorgDetected 1 9 3)) ∧
    (AdvanceStateUpToBlockAux w10gb w10pr w10tBad.number w10tBad.hash (0 + 1) 0 1 3 =
     .error (.finalHashMismatch 1 w10tBad.hash 5)) :=
  ⟨⟨by rfl,
    (c10_advance_state_up_to_block w10gb w10pr w10t w10la 0 0).1 (by rfl)⟩,
   ⟨by rfl,
    (c10_advance_state_up_to_block w10gb w10pr w10t w10la 0 0).2.1 1 9 0 ⟨5, 3⟩
      (by rfl) (by decide)⟩,
   (c10_advance_state_up_to_block w10gb w10pr w10tBad w10la 0 0).2.2 0 1 3 0 0 ⟨5, 3⟩
      (by rfl) (by rfl) (by rfl) (by decide) (by decide)⟩
